import Mathlib

/-!
Verification of the terminal org-chart engine.

The source program keeps an in-memory organization tree: `Employee` objects
carrying six text fields, a `manager` back-pointer, a `reports` array and a
derived `level`, and an `OrgChart` holding a `root` pointer, an id-keyed
`employees` map and two snapshot stacks (`history`, `future`) for undo/redo.

The embedding replaces heap pointers by ids: the employee map is an
association list keyed by id (JavaScript objects preserve insertion order,
which the CSV importer observes through `Object.values`), the `manager`
pointer becomes an optional id and the `reports` array becomes a list of ids.
This is faithful because every employee object is stored in the map under its
own id, and all pointer comparisons in the source that matter are between
objects stored in one consistent heap.  Recursive walks over the `reports`
graph (`_isDescendant`, `_updateLevels`, `_prepareForExport`) are embedded
with an explicit fuel argument; the operations pass a fuel that provably
suffices on every well-formed chart, and exhausted fuel corresponds to the
non-terminating recursion the source would exhibit on a corrupted heap.
Fresh uuid generation is modelled by an explicit fresh-id parameter.
-/

namespace Org

/-- One organization member (class `Employee`).  The `id` field of the source
object is the key under which the employee is stored, so it is not repeated
inside the structure; `manager`/`reports` hold ids instead of pointers. -/
structure Employee where
  name : String
  title : String
  lob : String
  division : String
  dept : String
  email : String
  manager : Option Nat
  reports : List Nat
  level : Nat
deriving Repr, DecidableEq

/-- The id-keyed employee map (`this.employees`), in insertion order. -/
abbrev Store := List (Nat × Employee)

/-- `this.employees[i]` -/
def get : Store → Nat → Option Employee
  | [], _ => none
  | (k, e) :: rest, i => if k = i then some e else get rest i

/-- `this.employees[i] = v` (JavaScript keeps the slot in place when the key
exists and appends a new key at the end). -/
def put : Store → Nat → Employee → Store
  | [], i, v => [(i, v)]
  | (k, e) :: rest, i, v => if k = i then (i, v) :: rest else (k, e) :: put rest i v

/-- In-place mutation of the object stored under `i` (a field assignment
through any alias of the object). -/
def modify : Store → Nat → (Employee → Employee) → Store
  | [], _, _ => []
  | (k, e) :: rest, i, f => if k = i then (k, f e) :: rest else (k, e) :: modify rest i f

/-- `delete this.employees[i]` -/
def erase (st : Store) (i : Nat) : Store := st.filter (fun p => p.1 != i)

/-- The keys of the store, in insertion order (`Object.keys`). -/
def keys (st : Store) : List Nat := st.map Prod.fst

mutual

/-- The nested export record built by `_prepareForExport`:
`{ id, name, title, lob, division, dept, email, level, reports: [...] }`. -/
inductive PNode where
  | node (id : Nat) (name title lob division dept email : String) (level : Nat)
      (reports : PForest)
deriving Repr, DecidableEq

/-- The `reports` array of an export record (a mutual inductive stands in
for `List PNode` so that structural recursion and decidable equality work). -/
inductive PForest where
  | nil
  | cons (head : PNode) (tail : PForest)
deriving Repr, DecidableEq

end

/-- The `id` field of an export record. -/
def PNode.pid : PNode → Nat
  | .node i _ _ _ _ _ _ _ _ => i

/-- `serializeNode` inside `_prepareForExport`, with explicit recursion fuel;
running out of fuel models the stack overflow the source would hit on a
cyclic `reports` graph.  `serializeKids` maps it down the `reports` array. -/
def serializeKids (go : Nat → Option PNode) : List Nat → Option PForest
  | [] => some PForest.nil
  | r :: rs => do
    let n ← go r
    let f ← serializeKids go rs
    pure (PForest.cons n f)

def serializeNode (st : Store) : Nat → Nat → Option PNode
  | 0, _ => none
  | fuel + 1, i => do
    let e ← get st i
    let ks ← serializeKids (serializeNode st fuel) e.reports
    pure (PNode.node i e.name e.title e.lob e.division e.dept e.email e.level ks)

mutual

/-- `_recreateFromJSON`: rebuild the store from an export record.  The node is
registered first with an empty `reports` list, linked into its manager's
`reports`, and then the children are recreated in order (each child appends
itself to this node's `reports`). -/
def recreateFromJSON (mgr : Option Nat) (p : PNode) (st : Store) : Store :=
  match p with
  | .node i nm tl lb dv dp em lv ks =>
    let st1 := put st i
      { name := nm, title := tl, lob := lb, division := dv, dept := dp, email := em,
        manager := mgr, reports := [], level := lv }
    let st2 := match mgr with
      | some m => modify st1 m (fun e => { e with reports := e.reports ++ [i] })
      | none => st1
    recreateKids i ks st2

def recreateKids (parent : Nat) (f : PForest) (st : Store) : Store :=
  match f with
  | .nil => st
  | .cons h t => recreateKids parent t (recreateFromJSON (some parent) h st)

end

/-- The `OrgChart` object.  `root` is the id of the employee the `this.root`
pointer designates (the pointer always aliases the store entry with that id).
History snapshots hold the export record; a `none` entry marks a state whose
serialization would have thrown in the source (null root), which no reachable
execution produces. -/
structure OrgChart where
  root : Option Nat
  employees : Store
  history : List (Option PNode)
  future : List (Option PNode)
deriving Repr, DecidableEq

/-- `new OrgChart()` -/
def OrgChart.empty : OrgChart := ⟨none, [], [], []⟩

/-- `_serializeOrg` (the JSON string is identified with the record it prints;
`JSON.stringify` is injective on these records). -/
def serializeOrg (c : OrgChart) : Option PNode :=
  match c.root with
  | none => none
  | some r => serializeNode c.employees (c.employees.length + 1) r

/-- `pushState`: push the serialized org onto `history`, clear `future`. -/
def pushState (c : OrgChart) : OrgChart :=
  { c with history := serializeOrg c :: c.history, future := [] }

/-- `_loadSnapshot`: reset the employee map and recreate it from the record;
`_recreateFromJSON` also repoints `this.root` at the recreated top node.
(The `none` branch is unreachable: the source would have crashed serializing.) -/
def loadSnapshot (c : OrgChart) (snap : Option PNode) : OrgChart :=
  match snap with
  | none => { c with employees := [], root := none }
  | some p => { c with employees := recreateFromJSON none p [], root := some p.pid }

/-- `undo()`: with fewer than two history entries, report failure; otherwise
pop the top into `future` and load the new top. -/
def undo (c : OrgChart) : OrgChart × Bool :=
  match c.history with
  | cur :: prev :: rest =>
      (loadSnapshot { c with history := prev :: rest, future := cur :: c.future } prev, true)
  | _ => (c, false)

/-- `redo()`: with an empty `future`, report failure; otherwise pop from
`future`, push onto `history` and load that snapshot. -/
def redo (c : OrgChart) : OrgChart × Bool :=
  match c.future with
  | [] => (c, false)
  | snap :: rest =>
      (loadSnapshot { c with history := snap :: c.history, future := rest } snap, true)

/-- `setRoot(new Employee(name, title, lob, division, dept, email, null))`:
the constructor gives the employee `level 0`, no manager and no reports; the
id stands for the generated uuid.  `setRoot` registers the employee, points
`root` at it and pushes the initial snapshot. -/
def setRoot (c : OrgChart) (newId : Nat)
    (name title lob division dept email : String) : OrgChart :=
  let e : Employee :=
    { name := name, title := title, lob := lob, division := division, dept := dept,
      email := email, manager := none, reports := [], level := 0 }
  pushState { c with root := some newId, employees := put c.employees newId e }

/-- `Employee.addReport` applied to the employees stored under `mgrId` and
`rid`: sets the report's `manager` and `level` from the manager's current
level and appends the report to the manager's `reports`.  (If `rid` is not in
the store the first two writes land on an object outside the map, which no
later read can observe.) -/
def addReportTo (st : Store) (mgrId rid : Nat) : Store :=
  match get st mgrId with
  | none => st
  | some mE =>
    let st1 := modify st rid (fun e => { e with manager := some mgrId, level := mE.level + 1 })
    modify st1 mgrId (fun e => { e with reports := e.reports ++ [rid] })

/-- `addEmployee(name, title, managerId, lob, division, dept, email)`.
`newId` models the fresh uuid.  Fails (returns `none`) when no root exists;
otherwise snapshots, resolves the manager id with fallback to the root,
creates the employee with `level = manager.level + 1` and registers it.
(The inner `none` branch would require `this.root` to dangle, which no
execution produces; it reports failure without touching the chart.) -/
def addEmployee (c : OrgChart) (newId : Nat) (name title : String)
    (managerIdArg : Option Nat) (lob division dept email : String) :
    OrgChart × Option Nat :=
  match c.root with
  | none => (c, none)
  | some r =>
    let mgrKey := match managerIdArg with
      | some m => if (get c.employees m).isSome then m else r
      | none => r
    match get c.employees mgrKey with
    | none => (c, none)
    | some mgrE =>
      let c1 := pushState c
      let newEmp : Employee :=
        { name := name, title := title, lob := lob, division := division, dept := dept,
          email := email, manager := some mgrKey, reports := [], level := mgrE.level + 1 }
      let st1 := addReportTo c1.employees mgrKey newId
      ({ c1 with employees := put st1 newId newEmp }, some newId)

/-- The report-handling loop of `removeEmployee`: re-attach each captured
direct report to the (existing) new manager via `addReport`, or orphan them
all (`manager = null`) when no valid reassignment target was given. -/
def removeReports (st : Store) (reps : List Nat) (newManagerId : Option Nat) : Store :=
  match newManagerId with
  | some nm =>
    if (get st nm).isSome then reps.foldl (fun s rid => addReportTo s nm rid) st
    else reps.foldl (fun s rid => modify s rid (fun e => { e with manager := none })) st
  | none => reps.foldl (fun s rid => modify s rid (fun e => { e with manager := none })) st

/-- The detach step of `removeEmployee`: drop the employee from its current
manager's `reports` (reading `employee.manager` after the loop above ran). -/
def detachFromManager (st : Store) (employeeId : Nat) : Store :=
  match (get st employeeId).bind Employee.manager with
  | some m =>
    modify st m (fun e => { e with reports := e.reports.filter (fun r => r != employeeId) })
  | none => st

/-- `removeEmployee(employeeId, newManagerId)`: refuses to remove the root or
an unknown id (before snapshotting).  Otherwise: snapshot, handle the
captured direct reports, detach the employee from its manager's `reports`,
and delete it from the map. -/
def removeEmployee (c : OrgChart) (employeeId : Nat) (newManagerId : Option Nat) :
    OrgChart × Bool :=
  if c.root = some employeeId then (c, false)
  else
    match get c.employees employeeId with
    | none => (c, false)
    | some emp =>
      let c1 := pushState c
      let st2 := detachFromManager (removeReports c1.employees emp.reports newManagerId)
        employeeId
      ({ c1 with employees := erase st2 employeeId }, true)

/-- The `newData` argument of `editEmployee`: `none` models a field that is
not a string in the patch object. -/
structure Patch where
  name : Option String
  title : Option String
  lob : Option String
  division : Option String
  dept : Option String
  email : Option String
deriving Repr, DecidableEq

/-- `String.prototype.trim`, transcribed over the character list so that the
kernel can evaluate it (Lean's own `String.trim` is defined through
substring primitives that do not reduce). -/
def jsTrim (s : String) : String :=
  String.mk (((s.data.dropWhile Char.isWhitespace).reverse.dropWhile
      Char.isWhitespace).reverse)

/-- `String.prototype.toLowerCase`, transcribed likewise. -/
def jsToLower (s : String) : String := String.mk (s.data.map Char.toLower)

/-- `employee.f = newData.f.trim() || employee.f` for one field. -/
def applyField : Option String → String → String
  | none, old => old
  | some s, old => if jsTrim s = "" then old else jsTrim s

/-- `editEmployee(employeeId, newData)`: fails on an unknown id (before
snapshotting); otherwise updates each provided field, keeping the old value
when the trimmed input is empty. -/
def editEmployee (c : OrgChart) (employeeId : Nat) (p : Patch) : OrgChart × Bool :=
  match get c.employees employeeId with
  | none => (c, false)
  | some _ =>
    let c1 := pushState c
    ({ c1 with employees := modify c1.employees employeeId (fun e =>
        { e with
          name := applyField p.name e.name, title := applyField p.title e.title,
          lob := applyField p.lob e.lob, division := applyField p.division e.division,
          dept := applyField p.dept e.dept, email := applyField p.email e.email }) }, true)

/-- `_isDescendant(root, candidate)` with explicit fuel: walk the `reports`
arrays, comparing ids.  The id held in a `reports` array is compared without a
map lookup (the source reads `r.id` off the array element); recursion into a
report does look it up. -/
def isDescendant (st : Store) : Nat → Nat → Nat → Bool
  | 0, _, _ => false
  | fuel + 1, rootId, candId =>
    match get st rootId with
    | none => false
    | some e => e.reports.any (fun rid => rid == candId || isDescendant st fuel rid candId)

/-- `_updateLevels(node, level)` with explicit fuel: set the node's level and
recurse into its reports with `level + 1`. -/
def updateLevels (st : Store) : Nat → Nat → Nat → Store
  | 0, _, _ => st
  | fuel + 1, nodeId, lvl =>
    match get st nodeId with
    | none => st
    | some e =>
      let st1 := modify st nodeId (fun x => { x with level := lvl })
      e.reports.foldl (fun s rid => updateLevels s fuel rid (lvl + 1)) st1

/-- `moveSubtree(employeeId, newManagerId)`: both ids must resolve, the
employee must not be the root (`employee === this.root` is a pointer
comparison, equivalent to id equality because `this.root` aliases its store
entry), and the target must be neither the employee itself nor one of its
descendants.  On success: snapshot, detach from the old manager's `reports`,
`addReport` under the new manager, then `_updateLevels` from
`newManager.level + 1`. -/
def moveSubtree (c : OrgChart) (employeeId newManagerId : Nat) : OrgChart × Bool :=
  match get c.employees employeeId, get c.employees newManagerId with
  | some emp, some _ =>
    if c.root = some employeeId then (c, false)
    else if employeeId = newManagerId
        || isDescendant c.employees (c.employees.length + 1) employeeId newManagerId then
      (c, false)
    else
      let c1 := pushState c
      let st1 := match emp.manager with
        | some m => modify c1.employees m
            (fun e => { e with reports := e.reports.filter (fun r => r != employeeId) })
        | none => c1.employees
      let st2 := match get st1 newManagerId with
        | some nmE =>
          let stA := modify st1 employeeId
            (fun e => { e with manager := some newManagerId, level := nmE.level + 1 })
          modify stA newManagerId (fun e => { e with reports := e.reports ++ [employeeId] })
        | none => st1
      let st3 := match get st2 newManagerId with
        | some nmE2 => updateLevels st2 (c.employees.length + 1) employeeId (nmE2.level + 1)
        | none => st2
      ({ c1 with employees := st3 }, true)
  | _, _ => (c, false)

/-- One CSV record after `Papa.parse` with a header row. -/
structure Row where
  name : String
  title : String
  managerName : String
  lob : String
  division : String
  dept : String
  email : String
deriving Repr, DecidableEq

/-- The normalization pass `row.f?.trim() || ''` applied to every column. -/
def normalizeRow (r : Row) : Row :=
  { name := jsTrim r.name, title := jsTrim r.title, managerName := jsTrim r.managerName,
    lob := jsTrim r.lob, division := jsTrim r.division, dept := jsTrim r.dept,
    email := jsTrim r.email }

/-- Outcome of visiting one pending CSV row. -/
inductive RowStatus where
  | skipped
  | dropped
  | added
deriving Repr, DecidableEq

/-- The body of the CSV import loop for one pending row: drop rows missing
name or title (without counting as progress); rows naming a manager are added
only once some stored employee's name matches case-insensitively, otherwise
they stay pending; rows without a manager name are added under the current
root id (which `addEmployee` resolves).  `ctr` supplies fresh uuids. -/
def processRow (c : OrgChart) (ctr : Nat) (row : Row) : OrgChart × Nat × RowStatus :=
  if row.name = "" ∨ row.title = "" then (c, ctr, RowStatus.dropped)
  else if row.managerName ≠ "" then
    match c.employees.find? (fun p => jsToLower p.2.name == jsToLower row.managerName) with
    | none => (c, ctr, RowStatus.skipped)
    | some kv =>
      ((addEmployee c ctr row.name row.title (some kv.1)
          row.lob row.division row.dept row.email).1, ctr + 1, RowStatus.added)
  else
    ((addEmployee c ctr row.name row.title c.root
        row.lob row.division row.dept row.email).1, ctr + 1, RowStatus.added)

/-- One pass of the import loop over the reversed pending list (the source
iterates indices from the end, splicing consumed rows out); returns the
surviving rows still reversed, plus whether any row was added. -/
def importPassRev (c : OrgChart) (ctr : Nat) : List Row → OrgChart × Nat × List Row × Bool
  | [] => (c, ctr, [], false)
  | r :: rs =>
    let p1 := processRow c ctr r
    let rest := importPassRev p1.1 p1.2.1 rs
    match p1.2.2 with
    | RowStatus.skipped => (rest.1, rest.2.1, r :: rest.2.2.1, rest.2.2.2)
    | RowStatus.dropped => (rest.1, rest.2.1, rest.2.2.1, rest.2.2.2)
    | RowStatus.added => (rest.1, rest.2.1, rest.2.2.1, true)

/-- One pass over the pending list in source order. -/
def importPass (c : OrgChart) (ctr : Nat) (pending : List Row) :
    OrgChart × Nat × List Row × Bool :=
  let r := importPassRev c ctr pending.reverse
  (r.1, r.2.1, r.2.2.1.reverse, r.2.2.2)

/-- The `while (pending.length && addedAny)` loop, with fuel; one fuel unit
per pass.  Every continued pass has consumed at least one pending row, so
`pending.length + 1` fuel always suffices. -/
def importLoop (c : OrgChart) (ctr : Nat) : Nat → List Row → OrgChart × Nat × List Row
  | 0, pending => (c, ctr, pending)
  | fuel + 1, pending =>
    if pending.isEmpty then (c, ctr, pending)
    else
      let p := importPass c ctr pending
      if p.2.2.2 then importLoop p.1 p.2.1 fuel p.2.2.1
      else (p.1, p.2.1, p.2.2.1)

/-- `importFromCSV` on already-parsed rows: empty input fails before the
snapshot; serializing a rootless chart throws (`serializeNode(null)`), and the
surrounding `try` turns that into a failure with nothing imported.  Otherwise
snapshot, normalize, run the multi-pass loop, and report success together
with the rows whose managers were never found. -/
def importFromCSV (c : OrgChart) (ctr : Nat) (rows : List Row) :
    OrgChart × Bool × List Row × Nat :=
  if rows.isEmpty then (c, false, [], ctr)
  else
    match serializeOrg c with
    | none => (c, false, [], ctr)
    | some _ =>
      let c1 := pushState c
      let pending := rows.map normalizeRow
      let r := importLoop c1 ctr (rows.length + 1) pending
      (r.1, true, r.2.2, r.2.1)

/-- No employee stored in `st` carries (case-insensitively) the name `s`: the
condition under which a manager column naming `s` never resolves. -/
abbrev NameAbsent (st : Store) (s : String) : Prop :=
  ∀ p ∈ st, jsToLower p.2.name ≠ s

/-- Every key already allocated in the store lies below `n`: the freshness
contract of the uuid generator, phrased for the counter that stands in for it. -/
abbrev KeysBelow (st : Store) (n : Nat) : Prop :=
  ∀ p ∈ st, p.1 < n

/-- The second store keeps every employee of the first under its id with every
scalar field intact; only the `reports` array may differ (import only ever
appends direct reports to existing members). -/
abbrev Persist (st st' : Store) : Prop :=
  ∀ i e, get st i = some e → ∃ e', get st' i = some e' ∧
    e'.name = e.name ∧ e'.title = e.title ∧ e'.lob = e.lob ∧
    e'.division = e.division ∧ e'.dept = e.dept ∧ e'.email = e.email ∧
    e'.manager = e.manager ∧ e'.level = e.level

instance : Inhabited Employee :=
  ⟨{ name := "", title := "", lob := "", division := "", dept := "", email := "",
     manager := none, reports := [], level := 0 }⟩

mutual

/-- The spine of a reports-tree: node ids and the child structure.  Used to
state well-formedness of a store (the reports graph reachable from the root
forms a tree). -/
inductive IdT where
  | node (tid : Nat) (kids : IdF)
deriving Repr, DecidableEq

/-- A forest of spines (stands in for `List IdT`). -/
inductive IdF where
  | nil
  | cons (head : IdT) (tail : IdF)
deriving Repr, DecidableEq

end

/-- Root id of a spine. -/
def IdT.tid : IdT → Nat
  | .node i _ => i

mutual

/-- Preorder list of the ids in a spine. -/
def IdT.ids : IdT → List Nat
  | .node i ks => i :: IdF.ids ks

def IdF.ids : IdF → List Nat
  | .nil => []
  | .cons h t => IdT.ids h ++ IdF.ids t

end

/-- The ids strictly below the root of a spine (its proper descendants). -/
def IdT.properIds : IdT → List Nat
  | .node _ ks => IdF.ids ks

/-- The root ids of the trees of a forest (the expected `reports` list). -/
def IdF.kidIds : IdF → List Nat
  | .nil => []
  | .cons h t => h.tid :: IdF.kidIds t

mutual

/-- Number of nodes of a spine (enough recursion fuel for any walk of it). -/
def IdT.size : IdT → Nat
  | .node _ ks => 1 + IdF.size ks

def IdF.size : IdF → Nat
  | .nil => 0
  | .cons h t => IdT.size h + IdF.size t

end

mutual

/-- The store's reports graph matches the spine: every node id resolves and
its `reports` list is exactly the list of its kids' root ids. -/
def shapeOk (st : Store) : IdT → Bool
  | .node i ks =>
    match get st i with
    | none => false
    | some e => (e.reports == IdF.kidIds ks) && shapeOkF st ks

def shapeOkF (st : Store) : IdF → Bool
  | .nil => true
  | .cons h t => shapeOk st h && shapeOkF st t

end

mutual

/-- Every node's stored `level` equals its depth (root at `lvl`). -/
def levelsOk (st : Store) : IdT → Nat → Bool
  | .node i ks, lvl =>
    match get st i with
    | none => false
    | some e => (e.level == lvl) && levelsOkF st ks (lvl + 1)

def levelsOkF (st : Store) : IdF → Nat → Bool
  | .nil, _ => true
  | .cons h t, lvl => levelsOk st h lvl && levelsOkF st t lvl

end

mutual

/-- Every node's stored `manager` is its parent in the spine (`mgr` for the
root). -/
def mgrsOk (st : Store) : IdT → Option Nat → Bool
  | .node i ks, mgr =>
    match get st i with
    | none => false
    | some e => (e.manager == mgr) && mgrsOkF st ks (some i)

def mgrsOkF (st : Store) : IdF → Option Nat → Bool
  | .nil, _ => true
  | .cons h t, mgr => mgrsOk st h mgr && mgrsOkF st t mgr

end

mutual

/-- The subtree of the spine rooted at `a`, if `a` occurs. -/
def subtreeAt : IdT → Nat → Option IdT
  | .node i ks, a => if i = a then some (.node i ks) else subtreeAtF ks a

def subtreeAtF : IdF → Nat → Option IdT
  | .nil, _ => none
  | .cons h t, a =>
    match subtreeAt h a with
    | some s => some s
    | none => subtreeAtF t a

end

mutual

/-- `(id, depth)` pairs of a spine in preorder, root at depth `d`. -/
def withDepths : IdT → Nat → List (Nat × Nat)
  | .node i ks, d => (i, d) :: withDepthsF ks (d + 1)

def withDepthsF : IdF → Nat → List (Nat × Nat)
  | .nil, _ => []
  | .cons h t, d => withDepths h d ++ withDepthsF t d

end

mutual

/-- Remove the child subtree whose root id is `a` (wherever it hangs). -/
def detach : IdT → Nat → IdT
  | .node i ks, a => .node i (detachF ks a)

def detachF : IdF → Nat → IdF
  | .nil, _ => .nil
  | .cons h t, a => if h.tid = a then detachF t a else .cons (detach h a) (detachF t a)

end

/-- Append one tree at the end of a forest. -/
def IdF.snoc : IdF → IdT → IdF
  | .nil, s => .cons s .nil
  | .cons h t, s => .cons h (IdF.snoc t s)

mutual

/-- Attach `sub` as the last kid of the node with id `b`. -/
def graft : IdT → Nat → IdT → IdT
  | .node i ks, b, sub =>
    if i = b then .node i ((graftF ks b sub).snoc sub) else .node i (graftF ks b sub)

def graftF : IdF → Nat → IdT → IdF
  | .nil, _, _ => .nil
  | .cons h t, b, sub => .cons (graft h b sub) (graftF t b sub)

end

mutual

/-- The export record a store with spine `t` serializes to: each node paired
with its stored fields. -/
def decorate (st : Store) : IdT → PNode
  | .node i ks =>
    let e := (get st i).getD default
    PNode.node i e.name e.title e.lob e.division e.dept e.email e.level (decorateF st ks)

def decorateF (st : Store) : IdF → PForest
  | .nil => .nil
  | .cons h t => .cons (decorate st h) (decorateF st t)

end

mutual

/-- Preorder id list of an export record. -/
def PNode.pids : PNode → List Nat
  | .node i _ _ _ _ _ _ _ ks => i :: PForest.pids ks

def PForest.pids : PForest → List Nat
  | .nil => []
  | .cons h t => PNode.pids h ++ PForest.pids t

end

/-- The root ids of a `reports` forest of an export record. -/
def PForest.kidIds : PForest → List Nat
  | .nil => []
  | .cons h t => h.pid :: PForest.kidIds t

mutual

/-- The association entries `_recreateFromJSON` ends up storing for an export
record placed under manager `mgr`, in preorder. -/
def pSpec : PNode → Option Nat → List (Nat × Employee)
  | .node i nm tl lb dv dp em lv ks, mgr =>
    (i, { name := nm, title := tl, lob := lb, division := dv, dept := dp, email := em,
          manager := mgr, reports := PForest.kidIds ks, level := lv }) :: pSpecF ks i

def pSpecF : PForest → Nat → List (Nat × Employee)
  | .nil, _ => []
  | .cons h t, parent => pSpec h (some parent) ++ pSpecF t parent

end

/-- Well-formedness of a rooted chart, witnessed by its reports spine `t`:
the invariants of the data model.  `shapeOk` ties the `reports` lists to the
tree, `levelsOk` and `mgrsOk` state level/manager consistency, and the id
lists tie the tree to the key set of the store. -/
structure WfAt (c : OrgChart) (r : Nat) (t : IdT) : Prop where
  root_eq : c.root = some r
  tid_eq : t.tid = r
  shape : shapeOk c.employees t = true
  levels : levelsOk c.employees t 0 = true
  mgrs : mgrsOk c.employees t none = true
  nodup : t.ids.Nodup
  keys_sub : keys c.employees ⊆ t.ids
  ids_sub : t.ids ⊆ keys c.employees

/-- A chart is well-formed when it is empty or some spine witnesses it. -/
def WF (c : OrgChart) : Prop :=
  (c.root = none ∧ c.employees = []) ∨ ∃ r t, WfAt c r t

/-- Invariant 1: exactly one member has a null manager — the root — or the
store is empty. -/
def inv1 (c : OrgChart) : Prop :=
  c.employees = [] ∨
    ∃ r e, c.root = some r ∧ get c.employees r = some e ∧ e.manager = none ∧
      ∀ k e', get c.employees k = some e' → e'.manager = none → k = r

/-- Iterate the `manager` reference `n` times (the walk `getPath` performs). -/
def mgrIter (st : Store) : Nat → Nat → Option Nat
  | 0, k => some k
  | n + 1, k =>
    match get st k with
    | none => none
    | some e =>
      match e.manager with
      | none => none
      | some m => mgrIter st n m

/-- Invariant 2: the manager graph is acyclic — following `manager` from any
member reaches the root. -/
def inv2 (c : OrgChart) : Prop :=
  ∀ k, k ∈ keys c.employees → ∃ n r, c.root = some r ∧ mgrIter c.employees n k = some r

/-- Invariant 3: `level` is consistent with the manager chain. -/
def inv3 (c : OrgChart) : Prop :=
  ∀ k e, get c.employees k = some e →
    (e.manager = none → e.level = 0) ∧
    (∀ m me, e.manager = some m → get c.employees m = some me → e.level = me.level + 1)

/-- Invariant 4: every non-null manager reference resolves. -/
def inv4 (c : OrgChart) : Prop :=
  ∀ k e m, get c.employees k = some e → e.manager = some m → m ∈ keys c.employees

/-- Sample chart: a single root. -/
def chartR : OrgChart := setRoot OrgChart.empty 0 "Root" "CEO" "" "" "" ""

/-- Sample chart: root plus one report. -/
def chartRA : OrgChart := (addEmployee chartR 1 "Alice" "VP" none "" "" "" "").1

/-- Sample chart: root, Alice under root, Bob under Alice. -/
def chartRAB : OrgChart := (addEmployee chartRA 2 "Bob" "Engineer" (some 1) "" "" "" "").1

/-- Sample chart: root `0`, manager `1` under it, reports `2` and `3` under `1`. -/
def chartM : OrgChart :=
  (addEmployee (addEmployee (addEmployee
      (setRoot OrgChart.empty 0 "R" "CEO" "" "" "" "")
      1 "M" "Mgr" none "" "" "" "").1
      2 "r0" "Eng" (some 1) "" "" "" "").1
      3 "r1" "Eng" (some 1) "" "" "" "").1

/-- Spine of `chartR`. -/
def spineR : IdT := .node 0 .nil

/-- Spine of `chartRAB`. -/
def spineRAB : IdT := .node 0 (.cons (.node 1 (.cons (.node 2 .nil) .nil)) .nil)

/-- Spine of `chartM`. -/
def spineM : IdT :=
  .node 0 (.cons (.node 1 (.cons (.node 2 .nil) (.cons (.node 3 .nil) .nil))) .nil)

/-- A CSV row with an empty manager column. -/
def noMgrRow : Row :=
  { name := "B", title := "U", managerName := "", lob := "", division := "",
    dept := "", email := "" }

/-- A CSV row whose manager name never resolves. -/
def ghostRow : Row :=
  { name := "A", title := "T", managerName := "Ghost", lob := "", division := "",
    dept := "", email := "" }

/-- CSV rows in dependency order: CEO (no manager), VP under CEO, Eng under VP. -/
def csvRows1 : List Row :=
  [{ name := "CEO", title := "Chief", managerName := "", lob := "", division := "",
     dept := "", email := "" },
   { name := "VP", title := "Vice", managerName := "CEO", lob := "", division := "",
     dept := "", email := "" },
   { name := "Eng", title := "Dev", managerName := "VP", lob := "", division := "",
     dept := "", email := "" }]

/-- The same records fully reversed (every manager referenced before it
appears). -/
def csvRows2 : List Row :=
  [{ name := "Eng", title := "Dev", managerName := "VP", lob := "", division := "",
     dept := "", email := "" },
   { name := "VP", title := "Vice", managerName := "CEO", lob := "", division := "",
     dept := "", email := "" },
   { name := "CEO", title := "Chief", managerName := "", lob := "", division := "",
     dept := "", email := "" }]

/-- One call of the five mutating operations of section 4.2. -/
inductive Mut where
  | root (newId : Nat) (name title lob division dept email : String)
  | add (newId : Nat) (name title : String) (managerIdArg : Option Nat)
      (lob division dept email : String)
  | edit (id : Nat) (p : Patch)
  | remove (id : Nat) (reassign : Option Nat)
  | move (id newMgr : Nat)
deriving Repr, DecidableEq

/-- Apply one mutation, keeping the resulting chart (failed calls return the
chart unchanged). -/
def applyMut (c : OrgChart) : Mut → OrgChart
  | .root i n ti l dv dp em => setRoot c i n ti l dv dp em
  | .add i n ti mA l dv dp em => (addEmployee c i n ti mA l dv dp em).1
  | .edit i p => (editEmployee c i p).1
  | .remove i rs => (removeEmployee c i rs).1
  | .move i nm => (moveSubtree c i nm).1

/-- Side conditions of the amended invariant-preservation claim: `setRoot`
only on an empty store, `addMember` ids fresh (the uuid contract), and
`removeMember` only on members without direct reports. -/
def mutOk (c : OrgChart) : Mut → Bool
  | .root _ _ _ _ _ _ _ => c.employees.isEmpty
  | .add i _ _ _ _ _ _ _ => (get c.employees i).isNone
  | .edit _ _ => true
  | .remove i _ =>
    match get c.employees i with
    | some e => e.reports.isEmpty
    | none => true
  | .move _ _ => true

/-- Apply a sequence of mutations in order. -/
def applyMuts : OrgChart → List Mut → OrgChart
  | c, [] => c
  | c, m :: ms => applyMuts (applyMut c m) ms

/-- Every mutation of the sequence satisfies its side condition in the state
it is applied to. -/
def seqOk : OrgChart → List Mut → Bool
  | _, [] => true
  | c, m :: ms => mutOk c m && seqOk (applyMut c m) ms

mutual

/-- Each spine node paired with the id of its parent (the root with `mgr`). -/
def parentPairs : IdT → Option Nat → List (Nat × Option Nat)
  | .node i ks, mgr => (i, mgr) :: parentPairsF ks (some i)

def parentPairsF : IdF → Option Nat → List (Nat × Option Nat)
  | .nil, _ => []
  | .cons h t, mgr => parentPairs h mgr ++ parentPairsF t mgr

end

mutual

/-- Each spine node paired with the ids of its direct reports. -/
def reportPairs : IdT → List (Nat × List Nat)
  | .node i ks => (i, IdF.kidIds ks) :: reportPairsF ks

def reportPairsF : IdF → List (Nat × List Nat)
  | .nil => []
  | .cons h t => reportPairs h ++ reportPairsF t

end

theorem get_put (st : Store) (k : Nat) (v : Employee) (i : Nat) :
    get (put st k v) i = if i = k then some v else get st i := by
  induction st with
  | nil =>
    by_cases h : i = k
    · simp [put, get, h]
    · have h' : ¬ k = i := fun hh => h hh.symm
      simp [put, get, h, h']
  | cons p rest ih =>
    obtain ⟨k', e⟩ := p
    by_cases hk : k' = k
    · subst hk
      by_cases h : i = k'
      · simp [put, get, h]
      · have h' : ¬ k' = i := fun hh => h hh.symm
        simp [put, get, h, h']
    · by_cases h : k' = i
      · have h' : ¬ i = k := fun hh => hk (h.trans hh)
        simp [put, get, hk, h, h']
      · simp [put, get, hk, h, ih]

theorem get_modify (st : Store) (k : Nat) (f : Employee → Employee) (i : Nat) :
    get (modify st k f) i = if i = k then (get st k).map f else get st i := by
  induction st with
  | nil =>
    by_cases h : i = k <;> simp [modify, get, h]
  | cons p rest ih =>
    obtain ⟨k', e⟩ := p
    by_cases hk : k' = k
    · subst hk
      by_cases h : i = k'
      · simp [modify, get, h]
      · have h' : ¬ k' = i := fun hh => h hh.symm
        simp [modify, get, h, h']
    · by_cases h : k' = i
      · have h' : ¬ i = k := fun hh => hk (h.trans hh)
        simp [modify, get, hk, h, h']
      · simp [modify, get, hk, h, ih]

theorem get_erase (st : Store) (k : Nat) (i : Nat) :
    get (erase st k) i = if i = k then none else get st i := by
  induction st with
  | nil =>
    by_cases h : i = k <;> simp [erase, get, h]
  | cons p rest ih =>
    obtain ⟨k', e⟩ := p
    by_cases hk : k' = k
    · subst hk
      by_cases h : i = k'
      · subst h
        simp [erase, get] at ih ⊢
        simpa using ih
      · have h' : ¬ k' = i := fun hh => h hh.symm
        simp [erase, get, h, h'] at ih ⊢
        simpa [h'] using ih
    · by_cases h : k' = i
      · have h' : ¬ i = k := fun hh => hk (h.trans hh)
        simp [erase, get, hk, h, h']
      · simp [erase, get, hk, h] at ih ⊢
        by_cases hik : i = k
        · simpa [hik] using ih
        · simpa [hik, h] using ih

theorem keys_modify (st : Store) (k : Nat) (f : Employee → Employee) :
    keys (modify st k f) = keys st := by
  induction st with
  | nil => rfl
  | cons p rest ih =>
    obtain ⟨k', e⟩ := p
    by_cases hk : k' = k
    · simp only [modify, hk, if_pos rfl]
      rfl
    · simp only [modify, hk, if_neg hk, keys, List.map]
      simpa [keys] using ih

theorem length_modify (st : Store) (k : Nat) (f : Employee → Employee) :
    (modify st k f).length = st.length := by
  have h1 : (keys (modify st k f)).length = (keys st).length := by
    rw [keys_modify]
  simpa [keys] using h1

theorem mem_keys_put (st : Store) (k : Nat) (v : Employee) (i : Nat) :
    i ∈ keys (put st k v) ↔ i = k ∨ i ∈ keys st := by
  induction st with
  | nil => simp [put, keys, eq_comm]
  | cons p rest ih =>
    obtain ⟨k', e⟩ := p
    by_cases hk : k' = k
    · subst hk
      simp [put, keys, eq_comm]
    · simp [put, keys, hk] at ih ⊢
      rw [ih]
      tauto

theorem mem_keys_erase (st : Store) (k : Nat) (i : Nat) :
    i ∈ keys (erase st k) ↔ i ≠ k ∧ i ∈ keys st := by
  induction st with
  | nil => simp [erase, keys]
  | cons p rest ih =>
    obtain ⟨k', e⟩ := p
    by_cases hk : k' = k
    · subst hk
      simp [erase, keys] at ih ⊢
      rw [ih]
      tauto
    · simp [erase, keys, hk] at ih ⊢
      rw [ih]
      constructor
      · rintro (h | h)
        · subst h
          exact ⟨fun hh => hk hh, Or.inl rfl⟩
        · tauto
      · rintro ⟨h1, h2 | h2⟩ <;> tauto

theorem get_eq_none_of_not_mem_keys (st : Store) (i : Nat) (h : i ∉ keys st) :
    get st i = none := by
  induction st with
  | nil => rfl
  | cons p rest ih =>
    obtain ⟨k, e⟩ := p
    simp [keys] at h
    have hk : ¬ k = i := fun hh => h.1 hh.symm
    simp [get, hk, ih (by simpa [keys] using h.2)]

theorem get_isSome_iff_mem_keys (st : Store) (i : Nat) :
    (get st i).isSome ↔ i ∈ keys st := by
  induction st with
  | nil => simp [get, keys]
  | cons p rest ih =>
    obtain ⟨k, e⟩ := p
    by_cases h : k = i
    · subst h
      simp [get, keys]
    · have h' : ¬ i = k := fun hh => h hh.symm
      simp [get, keys, h, h', ih]

theorem IdT.ids_node (i : Nat) (ks : IdF) : (IdT.node i ks).ids = i :: ks.ids := rfl

theorem IdF.ids_cons (h : IdT) (t : IdF) : (IdF.cons h t).ids = h.ids ++ t.ids := rfl

theorem IdT.mem_ids_self (t : IdT) : t.tid ∈ t.ids := by
  cases t with
  | node i ks => simp [IdT.ids, IdT.tid]

mutual

theorem IdT.size_eq_length (t : IdT) : t.size = t.ids.length := by
  cases t with
  | node i ks => simp [IdT.size, IdT.ids, IdF.sizeF_eq_length ks, Nat.add_comm]

theorem IdF.sizeF_eq_length (ks : IdF) : ks.size = ks.ids.length := by
  cases ks with
  | nil => rfl
  | cons h t =>
    simp [IdF.size, IdF.ids, IdT.size_eq_length h, IdF.sizeF_eq_length t]

end

mutual

theorem withDepths_map_fst (t : IdT) (d : Nat) : (withDepths t d).map Prod.fst = t.ids := by
  cases t with
  | node i ks => simp [withDepths, IdT.ids, withDepthsF_map_fst ks (d + 1)]

theorem withDepthsF_map_fst (ks : IdF) (d : Nat) :
    (withDepthsF ks d).map Prod.fst = ks.ids := by
  cases ks with
  | nil => rfl
  | cons h t =>
    simp [withDepthsF, IdF.ids, withDepths_map_fst h d, withDepthsF_map_fst t d]

end

mutual

theorem shapeOk_congr (st st' : Store) (t : IdT)
    (h : ∀ j ∈ t.ids, (get st' j).map Employee.reports = (get st j).map Employee.reports) :
    shapeOk st' t = shapeOk st t := by
  cases t with
  | node i ks =>
    have hi := h i (by simp [IdT.ids])
    have hks : ∀ j ∈ ks.ids,
        (get st' j).map Employee.reports = (get st j).map Employee.reports := by
      intro j hj
      exact h j (by simp [IdT.ids, hj])
    cases hg : get st i with
    | none =>
      rw [hg] at hi
      simp only [Option.map_none'] at hi
      cases hg' : get st' i with
      | none => simp [shapeOk, hg, hg']
      | some e' => rw [hg'] at hi; simp at hi
    | some e =>
      rw [hg] at hi
      cases hg' : get st' i with
      | none => rw [hg'] at hi; simp at hi
      | some e' =>
        rw [hg'] at hi
        simp only [Option.map_some', Option.some.injEq] at hi
        simp [shapeOk, hg, hg', hi, shapeOkF_congr st st' ks hks]

theorem shapeOkF_congr (st st' : Store) (ks : IdF)
    (h : ∀ j ∈ ks.ids, (get st' j).map Employee.reports = (get st j).map Employee.reports) :
    shapeOkF st' ks = shapeOkF st ks := by
  cases ks with
  | nil => rfl
  | cons hd tl =>
    have h1 : ∀ j ∈ hd.ids,
        (get st' j).map Employee.reports = (get st j).map Employee.reports := by
      intro j hj
      exact h j (by simp [IdF.ids, hj])
    have h2 : ∀ j ∈ tl.ids,
        (get st' j).map Employee.reports = (get st j).map Employee.reports := by
      intro j hj
      exact h j (by simp [IdF.ids, hj])
    simp [shapeOkF, shapeOk_congr st st' hd h1, shapeOkF_congr st st' tl h2]

end

mutual

theorem levelsOk_congr (st st' : Store) (t : IdT) (d : Nat)
    (h : ∀ j ∈ t.ids, (get st' j).map Employee.level = (get st j).map Employee.level) :
    levelsOk st' t d = levelsOk st t d := by
  cases t with
  | node i ks =>
    have hi := h i (by simp [IdT.ids])
    have hks : ∀ j ∈ ks.ids,
        (get st' j).map Employee.level = (get st j).map Employee.level := by
      intro j hj
      exact h j (by simp [IdT.ids, hj])
    cases hg : get st i with
    | none =>
      rw [hg] at hi
      simp only [Option.map_none'] at hi
      cases hg' : get st' i with
      | none => simp [levelsOk, hg, hg']
      | some e' => rw [hg'] at hi; simp at hi
    | some e =>
      rw [hg] at hi
      cases hg' : get st' i with
      | none => rw [hg'] at hi; simp at hi
      | some e' =>
        rw [hg'] at hi
        simp only [Option.map_some', Option.some.injEq] at hi
        simp [levelsOk, hg, hg', hi, levelsOkF_congr st st' ks (d + 1) hks]

theorem levelsOkF_congr (st st' : Store) (ks : IdF) (d : Nat)
    (h : ∀ j ∈ ks.ids, (get st' j).map Employee.level = (get st j).map Employee.level) :
    levelsOkF st' ks d = levelsOkF st ks d := by
  cases ks with
  | nil => rfl
  | cons hd tl =>
    have h1 : ∀ j ∈ hd.ids,
        (get st' j).map Employee.level = (get st j).map Employee.level := by
      intro j hj
      exact h j (by simp [IdF.ids, hj])
    have h2 : ∀ j ∈ tl.ids,
        (get st' j).map Employee.level = (get st j).map Employee.level := by
      intro j hj
      exact h j (by simp [IdF.ids, hj])
    simp [levelsOkF, levelsOk_congr st st' hd d h1, levelsOkF_congr st st' tl d h2]

end

mutual

theorem mgrsOk_congr (st st' : Store) (t : IdT) (mgr : Option Nat)
    (h : ∀ j ∈ t.ids, (get st' j).map Employee.manager = (get st j).map Employee.manager) :
    mgrsOk st' t mgr = mgrsOk st t mgr := by
  cases t with
  | node i ks =>
    have hi := h i (by simp [IdT.ids])
    have hks : ∀ j ∈ ks.ids,
        (get st' j).map Employee.manager = (get st j).map Employee.manager := by
      intro j hj
      exact h j (by simp [IdT.ids, hj])
    cases hg : get st i with
    | none =>
      rw [hg] at hi
      simp only [Option.map_none'] at hi
      cases hg' : get st' i with
      | none => simp [mgrsOk, hg, hg']
      | some e' => rw [hg'] at hi; simp at hi
    | some e =>
      rw [hg] at hi
      cases hg' : get st' i with
      | none => rw [hg'] at hi; simp at hi
      | some e' =>
        rw [hg'] at hi
        simp only [Option.map_some', Option.some.injEq] at hi
        simp [mgrsOk, hg, hg', hi, mgrsOkF_congr st st' ks (some i) hks]

theorem mgrsOkF_congr (st st' : Store) (ks : IdF) (mgr : Option Nat)
    (h : ∀ j ∈ ks.ids, (get st' j).map Employee.manager = (get st j).map Employee.manager) :
    mgrsOkF st' ks mgr = mgrsOkF st ks mgr := by
  cases ks with
  | nil => rfl
  | cons hd tl =>
    have h1 : ∀ j ∈ hd.ids,
        (get st' j).map Employee.manager = (get st j).map Employee.manager := by
      intro j hj
      exact h j (by simp [IdF.ids, hj])
    have h2 : ∀ j ∈ tl.ids,
        (get st' j).map Employee.manager = (get st j).map Employee.manager := by
      intro j hj
      exact h j (by simp [IdF.ids, hj])
    simp [mgrsOkF, mgrsOk_congr st st' hd mgr h1, mgrsOkF_congr st st' tl mgr h2]

end

mutual

theorem shapeOk_get_isSome (st : Store) (t : IdT) (h : shapeOk st t = true) :
    ∀ j ∈ t.ids, (get st j).isSome = true := by
  cases t with
  | node i ks =>
    intro j hj
    rw [shapeOk] at h
    cases hg : get st i with
    | none => rw [hg] at h; simp at h
    | some e =>
      rw [hg] at h
      simp only [Bool.and_eq_true] at h
      rw [IdT.ids_node, List.mem_cons] at hj
      rcases hj with hj | hj
      · subst hj
        simp [hg]
      · exact shapeOkF_get_isSome st ks h.2 j hj

theorem shapeOkF_get_isSome (st : Store) (ks : IdF) (h : shapeOkF st ks = true) :
    ∀ j ∈ ks.ids, (get st j).isSome = true := by
  cases ks with
  | nil => intro j hj; simp [IdF.ids] at hj
  | cons hd tl =>
    intro j hj
    rw [shapeOkF, Bool.and_eq_true] at h
    rw [IdF.ids_cons, List.mem_append] at hj
    rcases hj with hj | hj
    · exact shapeOk_get_isSome st hd h.1 j hj
    · exact shapeOkF_get_isSome st tl h.2 j hj

end

theorem nodup_subset_length (l l' : List Nat) (h : l.Nodup) (hs : l ⊆ l') :
    l.length ≤ l'.length := by
  have h1 : l.toFinset.card = l.length := List.toFinset_card_of_nodup h
  have h2 : l.toFinset ⊆ l'.toFinset := by
    intro a ha
    simp only [List.mem_toFinset] at ha ⊢
    exact hs ha
  have h3 := Finset.card_le_card h2
  have h4 := l'.toFinset_card_le
  omega

theorem decorate_pid (st : Store) (t : IdT) : (decorate st t).pid = t.tid := by
  cases t with
  | node i ks => rfl

mutual

theorem serializeNode_of_shape (st : Store) (t : IdT) (h : shapeOk st t = true) :
    ∀ fuel, t.size ≤ fuel → serializeNode st fuel t.tid = some (decorate st t) := by
  cases t with
  | node i ks =>
    intro fuel hfuel
    rw [shapeOk] at h
    cases hg : get st i with
    | none => rw [hg] at h; simp at h
    | some e =>
      rw [hg] at h
      simp only [Bool.and_eq_true, beq_iff_eq] at h
      cases fuel with
      | zero => simp [IdT.size] at hfuel
      | succ f =>
        have hks : ks.size ≤ f := by
          have : 1 + ks.size ≤ f + 1 := by simpa [IdT.size] using hfuel
          omega
        have hkids := serializeKids_of_shape st ks h.2 f hks
        show serializeNode st (f + 1) i = _
        rw [serializeNode]
        simp [hg, h.1, hkids, decorate]

theorem serializeKids_of_shape (st : Store) (ks : IdF) (h : shapeOkF st ks = true) :
    ∀ fuel, ks.size ≤ fuel →
      serializeKids (serializeNode st fuel) ks.kidIds = some (decorateF st ks) := by
  cases ks with
  | nil => intro fuel _; rfl
  | cons hd tl =>
    intro fuel hfuel
    rw [shapeOkF, Bool.and_eq_true] at h
    have h1 : hd.size ≤ fuel := by
      have : hd.size + tl.size ≤ fuel := by simpa [IdF.size] using hfuel
      omega
    have h2 : tl.size ≤ fuel := by
      have : hd.size + tl.size ≤ fuel := by simpa [IdF.size] using hfuel
      omega
    have hh := serializeNode_of_shape st hd h.1 fuel h1
    have ht := serializeKids_of_shape st tl h.2 fuel h2
    show serializeKids _ (hd.tid :: tl.kidIds) = _
    rw [serializeKids]
    simp [hh, ht, decorateF]

end

mutual

theorem decorate_congr (st st' : Store) (t : IdT)
    (h : ∀ j ∈ t.ids, get st' j = get st j) : decorate st' t = decorate st t := by
  cases t with
  | node i ks =>
    have hi := h i (by simp [IdT.ids])
    have hks : ∀ j ∈ ks.ids, get st' j = get st j := by
      intro j hj
      exact h j (by simp [IdT.ids, hj])
    simp [decorate, hi, decorateF_congr st st' ks hks]

theorem decorateF_congr (st st' : Store) (ks : IdF)
    (h : ∀ j ∈ ks.ids, get st' j = get st j) : decorateF st' ks = decorateF st ks := by
  cases ks with
  | nil => rfl
  | cons hd tl =>
    have h1 : ∀ j ∈ hd.ids, get st' j = get st j := by
      intro j hj
      exact h j (by simp [IdF.ids, hj])
    have h2 : ∀ j ∈ tl.ids, get st' j = get st j := by
      intro j hj
      exact h j (by simp [IdF.ids, hj])
    simp [decorateF, decorate_congr st st' hd h1, decorateF_congr st st' tl h2]

end

theorem wfAt_size_le (c : OrgChart) (r : Nat) (t : IdT) (h : WfAt c r t) :
    t.size ≤ c.employees.length := by
  rw [IdT.size_eq_length]
  have := nodup_subset_length t.ids (keys c.employees) h.nodup h.ids_sub
  simpa [keys] using this

/-- On a well-formed chart, `_serializeOrg` succeeds and produces the
decoration of the spine. -/
theorem serializeOrg_wf (c : OrgChart) (r : Nat) (t : IdT) (h : WfAt c r t) :
    serializeOrg c = some (decorate c.employees t) := by
  rw [serializeOrg, h.root_eq, ← h.tid_eq]
  exact serializeNode_of_shape c.employees t h.shape (c.employees.length + 1)
    (le_trans (wfAt_size_le c r t h) (Nat.le_succ _))

theorem get_append (l1 l2 : Store) (j : Nat) :
    get (l1 ++ l2) j = if (get l1 j).isSome then get l1 j else get l2 j := by
  induction l1 with
  | nil => simp [get]
  | cons p rest ih =>
    obtain ⟨k, e⟩ := p
    by_cases h : k = j
    · simp [get, h]
    · simpa [get, h] using ih

mutual

theorem pSpec_map_fst (p : PNode) (mgr : Option Nat) :
    (pSpec p mgr).map Prod.fst = p.pids := by
  cases p with
  | node i nm tl lb dv dp em lv ks =>
    simp [pSpec, PNode.pids, pSpecF_map_fst ks i]

theorem pSpecF_map_fst (ks : PForest) (parent : Nat) :
    (pSpecF ks parent).map Prod.fst = ks.pids := by
  cases ks with
  | nil => rfl
  | cons h t =>
    simp [pSpecF, PForest.pids, pSpec_map_fst h (some parent), pSpecF_map_fst t parent]

end

mutual

theorem pids_decorate (st : Store) (t : IdT) : (decorate st t).pids = t.ids := by
  cases t with
  | node i ks => simp [decorate, PNode.pids, IdT.ids, pids_decorateF st ks]

theorem pids_decorateF (st : Store) (ks : IdF) : (decorateF st ks).pids = ks.ids := by
  cases ks with
  | nil => rfl
  | cons h t =>
    simp [decorateF, PForest.pids, IdF.ids, pids_decorate st h, pids_decorateF st t]

end

theorem kidIds_decorateF (st : Store) : ∀ ks : IdF, (decorateF st ks).kidIds = ks.kidIds
  | .nil => rfl
  | .cons h t => by
    simp [decorateF, PForest.kidIds, IdF.kidIds, decorate_pid st h, kidIds_decorateF st t]

mutual

theorem get_recreate (mgr : Option Nat) (p : PNode) (st : Store)
    (hnd : p.pids.Nodup) (hmgr : ∀ m, mgr = some m → m ∉ p.pids) :
    (∀ j ∈ p.pids, get (recreateFromJSON mgr p st) j = get (pSpec p mgr) j) ∧
    (∀ j, j ∉ p.pids →
      get (recreateFromJSON mgr p st) j =
        if mgr = some j then
          (get st j).map (fun e => { e with reports := e.reports ++ [p.pid] })
        else get st j) := by
  cases p with
  | node i nm tl lb dv dp em lv ks =>
    rw [PNode.pids, List.nodup_cons] at hnd
    obtain ⟨hiks, hndks⟩ := hnd
    cases mgr with
    | none =>
      have hrec : recreateFromJSON none (PNode.node i nm tl lb dv dp em lv ks) st =
          recreateKids i ks (put st i ⟨nm, tl, lb, dv, dp, em, none, [], lv⟩) := by
        simp [recreateFromJSON]
      have hF := get_recreateKids i ks
        (put st i ⟨nm, tl, lb, dv, dp, em, none, [], lv⟩) hndks hiks
      constructor
      · intro j hj
        rw [PNode.pids, List.mem_cons] at hj
        rcases hj with hj | hj
        · rw [hrec, hj, hF.2 i hiks, if_pos rfl, get_put, if_pos rfl]
          simp [pSpec, get]
        · have hji : ¬ i = j := fun hh => hiks (hh ▸ hj)
          rw [hrec, hF.1 j hj]
          simp [pSpec, get, hji]
      · intro j hj
        rw [PNode.pids, List.mem_cons] at hj
        push_neg at hj
        have hij : ¬ i = j := fun hh => hj.1 hh.symm
        rw [hrec, hF.2 j hj.2, if_neg hij, get_put, if_neg hj.1]
        simp
    | some m =>
      have hm' := hmgr m rfl
      rw [PNode.pids, List.mem_cons] at hm'
      push_neg at hm'
      obtain ⟨hmi, hmks⟩ := hm'
      have him : ¬ i = m := fun hh => hmi hh.symm
      have hrec : recreateFromJSON (some m) (PNode.node i nm tl lb dv dp em lv ks) st =
          recreateKids i ks (modify (put st i ⟨nm, tl, lb, dv, dp, em, some m, [], lv⟩) m
            (fun e => { e with reports := e.reports ++ [i] })) := by
      
        simp [recreateFromJSON]
      have hF := get_recreateKids i ks
        (modify (put st i ⟨nm, tl, lb, dv, dp, em, some m, [], lv⟩) m
          (fun e => { e with reports := e.reports ++ [i] })) hndks hiks
      have hsti : get (modify (put st i ⟨nm, tl, lb, dv, dp, em, some m, [], lv⟩) m
          (fun e => { e with reports := e.reports ++ [i] })) i =
          some ⟨nm, tl, lb, dv, dp, em, some m, [], lv⟩ := by
        rw [get_modify, if_neg him, get_put, if_pos rfl]
      constructor
      · intro j hj
        rw [PNode.pids, List.mem_cons] at hj
        rcases hj with hj | hj
        · rw [hrec, hj, hF.2 i hiks, if_pos rfl, hsti]
          simp [pSpec, get]
        · have hji : ¬ i = j := fun hh => hiks (hh ▸ hj)
          rw [hrec, hF.1 j hj]
          simp [pSpec, get, hji]
      · intro j hj
        rw [PNode.pids, List.mem_cons] at hj
        push_neg at hj
        have hij : ¬ i = j := fun hh => hj.1 hh.symm
        rw [hrec, hF.2 j hj.2, if_neg hij, get_modify]
        by_cases hjm : j = m
        · subst hjm
          rw [if_pos rfl, get_put, if_neg hj.1]
          simp [PNode.pid]
        · rw [if_neg hjm, get_put, if_neg hj.1]
          have : ¬ (some m = some j) := by
            intro hh
            exact hjm (Option.some.inj hh).symm
          simp [this]

theorem get_recreateKids (parent : Nat) (ks : PForest) (st : Store)
    (hnd : ks.pids.Nodup) (hpar : parent ∉ ks.pids) :
    (∀ j ∈ ks.pids, get (recreateKids parent ks st) j = get (pSpecF ks parent) j) ∧
    (∀ j, j ∉ ks.pids →
      get (recreateKids parent ks st) j =
        if parent = j then
          (get st j).map (fun e => { e with reports := e.reports ++ ks.kidIds })
        else get st j) := by
  cases ks with
  | nil =>
    constructor
    · intro j hj
      simp [PForest.pids] at hj
    · intro j hj
      show get st j = _
      by_cases hp : parent = j
      · rw [if_pos hp]
        cases hg : get st j <;> simp [hg, PForest.kidIds]
      · simp [hp]
  | cons h tlf =>
    rw [PForest.pids, List.nodup_append] at hnd
    obtain ⟨hndh, hndt, hdisj⟩ := hnd
    rw [PForest.pids, List.mem_append] at hpar
    push_neg at hpar
    have hT := get_recreate (some parent) h st hndh (by
      intro m hm
      rw [Option.some.injEq] at hm
      subst hm
      exact hpar.1)
    have hI := get_recreateKids parent tlf (recreateFromJSON (some parent) h st)
      hndt hpar.2
    have hrec : recreateKids parent (PForest.cons h tlf) st =
        recreateKids parent tlf (recreateFromJSON (some parent) h st) := rfl
    have hspecF : pSpecF (PForest.cons h tlf) parent =
        pSpec h (some parent) ++ pSpecF tlf parent := rfl
    constructor
    · intro j hj
      rw [PForest.pids, List.mem_append] at hj
      by_cases hjh : j ∈ h.pids
      · have hjt : j ∉ tlf.pids := fun hh => hdisj hjh hh
        have hjp : ¬ parent = j := fun hh => hpar.1 (hh ▸ hjh)
        rw [hrec, hI.2 j hjt, if_neg hjp, hT.1 j hjh, hspecF, get_append]
        have hss : (get (pSpec h (some parent)) j).isSome = true := by
          rw [get_isSome_iff_mem_keys]
          show j ∈ (pSpec h (some parent)).map Prod.fst
          rw [pSpec_map_fst]
          exact hjh
        rw [if_pos hss]
      · have hjt : j ∈ tlf.pids := hj.resolve_left hjh
        rw [hrec, hI.1 j hjt, hspecF, get_append]
        have hnn : get (pSpec h (some parent)) j = none := by
          apply get_eq_none_of_not_mem_keys
          show j ∉ (pSpec h (some parent)).map Prod.fst
          rw [pSpec_map_fst]
          exact hjh
        rw [hnn]
        simp
    · intro j hj
      rw [PForest.pids, List.mem_append] at hj
      push_neg at hj
      by_cases hpj : parent = j
      · subst hpj
        rw [hrec, hI.2 parent hj.2, if_pos rfl, hT.2 parent hj.1, if_pos rfl]
        cases hg : get st parent with
        | none => simp
        | some e => simp [PForest.kidIds]
      · rw [hrec, hI.2 j hj.2, if_neg hpj, hT.2 j hj.1]
        have : ¬ (some parent = some j) := by
          intro hh
          exact hpj (Option.some.inj hh)
        simp [this, hpj]

end

mutual

theorem pSpec_decorate_get (st : Store) (t : IdT) (mgr0 : Option Nat)
    (hs : shapeOk st t = true) (hm : mgrsOk st t mgr0 = true) :
    ∀ j ∈ t.ids, get (pSpec (decorate st t) mgr0) j = get st j := by
  cases t with
  | node i ks =>
    intro j hj
    rw [shapeOk] at hs
    rw [mgrsOk] at hm
    cases hg : get st i with
    | none => rw [hg] at hs; simp at hs
    | some e =>
      rw [hg] at hs hm
      simp only [Bool.and_eq_true, beq_iff_eq] at hs hm
      have hdec : decorate st (IdT.node i ks) =
          PNode.node i e.name e.title e.lob e.division e.dept e.email e.level
            (decorateF st ks) := by
        simp [decorate, hg]
      by_cases hji : i = j
      · rw [hdec]
        show get ((i, ⟨e.name, e.title, e.lob, e.division, e.dept, e.email, mgr0,
            (decorateF st ks).kidIds, e.level⟩) :: pSpecF (decorateF st ks) i) j = get st j
        rw [get, if_pos hji, ← hji, hg, kidIds_decorateF, ← hs.1, ← hm.1]
      · rw [IdT.ids_node, List.mem_cons] at hj
        have hj' : j ∈ ks.ids := by
          rcases hj with hj | hj
          · exact absurd hj.symm hji
          · exact hj
        rw [hdec]
        show get ((i, ⟨e.name, e.title, e.lob, e.division, e.dept, e.email, mgr0,
            (decorateF st ks).kidIds, e.level⟩) :: pSpecF (decorateF st ks) i) j = get st j
        rw [get, if_neg hji]
        exact pSpecF_decorateF_get st ks i hs.2 hm.2 j hj'

theorem pSpecF_decorateF_get (st : Store) (ks : IdF) (parent : Nat)
    (hs : shapeOkF st ks = true) (hm : mgrsOkF st ks (some parent) = true) :
    ∀ j ∈ ks.ids, get (pSpecF (decorateF st ks) parent) j = get st j := by
  cases ks with
  | nil => intro j hj; simp [IdF.ids] at hj
  | cons h tl =>
    intro j hj
    rw [shapeOkF, Bool.and_eq_true] at hs
    rw [mgrsOkF, Bool.and_eq_true] at hm
    have happ : pSpecF (decorateF st (IdF.cons h tl)) parent =
        pSpec (decorate st h) (some parent) ++ pSpecF (decorateF st tl) parent := rfl
    rw [happ, get_append]
    by_cases hjh : j ∈ h.ids
    · have hsome : (get (pSpec (decorate st h) (some parent)) j).isSome = true := by
        rw [pSpec_decorate_get st h (some parent) hs.1 hm.1 j hjh]
        exact shapeOk_get_isSome st h hs.1 j hjh
      rw [if_pos hsome]
      exact pSpec_decorate_get st h (some parent) hs.1 hm.1 j hjh
    · have hjt : j ∈ tl.ids := by
        rw [IdF.ids_cons, List.mem_append] at hj
        exact hj.resolve_left hjh
      have hnn : get (pSpec (decorate st h) (some parent)) j = none := by
        apply get_eq_none_of_not_mem_keys
        show j ∉ (pSpec (decorate st h) (some parent)).map Prod.fst
        rw [pSpec_map_fst, pids_decorate]
        exact hjh
      rw [hnn]
      simpa using pSpecF_decorateF_get st tl parent hs.2 hm.2 j hjt

end

/-- On a well-formed chart, reloading the serialized snapshot reproduces the
store pointwise and keeps the root. -/
theorem loadSnapshot_roundtrip (c : OrgChart) (r : Nat) (t : IdT) (h : WfAt c r t) :
    (serializeOrg c).isSome = true ∧
    (loadSnapshot c (serializeOrg c)).root = c.root ∧
    (∀ j, get (loadSnapshot c (serializeOrg c)).employees j = get c.employees j) := by
  have hser := serializeOrg_wf c r t h
  have hnd : (decorate c.employees t).pids.Nodup := by
    rw [pids_decorate]
    exact h.nodup
  have hrec := get_recreate none (decorate c.employees t) [] hnd
    (by intro m hm; simp at hm)
  refine ⟨by simp [hser], ?_, ?_⟩
  · rw [hser]
    show some (decorate c.employees t).pid = c.root
    rw [decorate_pid, h.tid_eq, h.root_eq]
  · intro j
    rw [hser]
    show get (recreateFromJSON none (decorate c.employees t) []) j = get c.employees j
    by_cases hj : j ∈ t.ids
    · rw [hrec.1 j (by rw [pids_decorate]; exact hj)]
      exact pSpec_decorate_get c.employees t none h.shape h.mgrs j hj
    · rw [hrec.2 j (by rw [pids_decorate]; exact hj)]
      simp only [reduceCtorEq, if_false]
      have h1 : get ([] : Store) j = none := rfl
      have h2 : get c.employees j = none := by
        apply get_eq_none_of_not_mem_keys
        intro hk
        exact hj (h.keys_sub hk)
      rw [h1, h2]

/-- Reloading preserves well-formedness (same spine). -/
theorem wfAt_loadSnapshot (c : OrgChart) (r : Nat) (t : IdT) (h : WfAt c r t) :
    WfAt (loadSnapshot c (serializeOrg c)) r t := by
  obtain ⟨hss, hroot, hpt⟩ := loadSnapshot_roundtrip c r t h
  refine ⟨by rw [hroot, h.root_eq], h.tid_eq, ?_, ?_, ?_, h.nodup, ?_, ?_⟩
  · rw [shapeOk_congr c.employees (loadSnapshot c (serializeOrg c)).employees t
      (fun j _ => by rw [hpt j])]
    exact h.shape
  · rw [levelsOk_congr c.employees (loadSnapshot c (serializeOrg c)).employees t 0
      (fun j _ => by rw [hpt j])]
    exact h.levels
  · rw [mgrsOk_congr c.employees (loadSnapshot c (serializeOrg c)).employees t none
      (fun j _ => by rw [hpt j])]
    exact h.mgrs
  · intro k hk
    rw [← get_isSome_iff_mem_keys, hpt k, get_isSome_iff_mem_keys] at hk
    exact h.keys_sub hk
  · intro j hj
    rw [← get_isSome_iff_mem_keys, hpt j, get_isSome_iff_mem_keys]
    exact h.ids_sub hj

/-- Reloading reproduces the exact serialized form. -/
theorem serializeOrg_loadSnapshot (c : OrgChart) (r : Nat) (t : IdT) (h : WfAt c r t) :
    serializeOrg (loadSnapshot c (serializeOrg c)) = serializeOrg c := by
  obtain ⟨hss, hroot, hpt⟩ := loadSnapshot_roundtrip c r t h
  rw [serializeOrg_wf (loadSnapshot c (serializeOrg c)) r t (wfAt_loadSnapshot c r t h),
    decorate_congr c.employees (loadSnapshot c (serializeOrg c)).employees t
      (fun j _ => by rw [hpt j]),
    serializeOrg_wf c r t h]

/-- C4: for every well-formed tree (witnessed by its spine), deserializing the
serialized form — `_recreateFromJSON` applied to `_prepareForExport`'s output,
as `undo`/`redo`/`importFromJSON` do — yields a chart with the same root and a
pointwise-identical employee map: the same member ids, the same values of all
six text fields, the same parent (`manager`) edges and `reports` lists, and
the same levels. -/
theorem serialize_roundtrip_isomorphic (c : OrgChart) (r : Nat) (t : IdT)
    (h : WfAt c r t) :
    (serializeOrg c).isSome = true ∧
    (loadSnapshot c (serializeOrg c)).root = c.root ∧
    (∀ j, get (loadSnapshot c (serializeOrg c)).employees j = get c.employees j) :=
  loadSnapshot_roundtrip c r t h

/-- Witness for C4 at the three-member sample chart. -/
theorem serialize_roundtrip_isomorphic_witness :
    (serializeOrg chartRAB).isSome = true ∧
    (loadSnapshot chartRAB (serializeOrg chartRAB)).root = chartRAB.root ∧
    get (loadSnapshot chartRAB (serializeOrg chartRAB)).employees 2 =
      get chartRAB.employees 2 := by
  have h := serialize_roundtrip_isomorphic chartRAB 0 spineRAB
    ⟨by decide, by decide, by decide, by decide, by decide, by decide, by decide, by decide⟩
  exact ⟨h.1, h.2.1, h.2.2 2⟩

mutual

theorem subtreeAt_tid (t : IdT) (a : Nat) (sub : IdT) (hsub : subtreeAt t a = some sub) :
    sub.tid = a := by
  cases t with
  | node i ks =>
    rw [subtreeAt] at hsub
    by_cases h : i = a
    · rw [if_pos h] at hsub
      cases hsub
      exact h
    · rw [if_neg h] at hsub
      exact subtreeAtF_tid ks a sub hsub

theorem subtreeAtF_tid (ks : IdF) (a : Nat) (sub : IdT) (hsub : subtreeAtF ks a = some sub) :
    sub.tid = a := by
  cases ks with
  | nil => simp [subtreeAtF] at hsub
  | cons h tl =>
    rw [subtreeAtF] at hsub
    cases hh : subtreeAt h a with
    | some s =>
      rw [hh] at hsub
      cases hsub
      exact subtreeAt_tid h a _ hh
    | none =>
      rw [hh] at hsub
      exact subtreeAtF_tid tl a sub hsub

end

mutual

theorem subtreeAt_ids_subset (t : IdT) (a : Nat) (sub : IdT)
    (hsub : subtreeAt t a = some sub) : sub.ids ⊆ t.ids := by
  cases t with
  | node i ks =>
    rw [subtreeAt] at hsub
    by_cases h : i = a
    · rw [if_pos h] at hsub
      cases hsub
      exact fun x hx => hx
    · rw [if_neg h] at hsub
      intro x hx
      rw [IdT.ids_node]
      exact List.mem_cons_of_mem i (subtreeAtF_ids_subset ks a sub hsub hx)

theorem subtreeAtF_ids_subset (ks : IdF) (a : Nat) (sub : IdT)
    (hsub : subtreeAtF ks a = some sub) : sub.ids ⊆ ks.ids := by
  cases ks with
  | nil => simp [subtreeAtF] at hsub
  | cons h tl =>
    rw [subtreeAtF] at hsub
    cases hh : subtreeAt h a with
    | some s =>
      rw [hh] at hsub
      cases hsub
      intro x hx
      rw [IdF.ids_cons, List.mem_append]
      exact Or.inl (subtreeAt_ids_subset h a _ hh hx)
    | none =>
      rw [hh] at hsub
      intro x hx
      rw [IdF.ids_cons, List.mem_append]
      exact Or.inr (subtreeAtF_ids_subset tl a sub hsub hx)

end

mutual

theorem subtreeAt_isSome_of_mem (t : IdT) (a : Nat) (ha : a ∈ t.ids) :
    (subtreeAt t a).isSome = true := by
  cases t with
  | node i ks =>
    rw [subtreeAt]
    by_cases h : i = a
    · rw [if_pos h]
      rfl
    · rw [if_neg h]
      rw [IdT.ids_node, List.mem_cons] at ha
      rcases ha with ha | ha
      · exact absurd ha.symm h
      · exact subtreeAtF_isSome_of_mem ks a ha

theorem subtreeAtF_isSome_of_mem (ks : IdF) (a : Nat) (ha : a ∈ ks.ids) :
    (subtreeAtF ks a).isSome = true := by
  cases ks with
  | nil => simp [IdF.ids] at ha
  | cons h tl =>
    rw [subtreeAtF]
    rw [IdF.ids_cons, List.mem_append] at ha
    cases hh : subtreeAt h a with
    | some s => rfl
    | none =>
      rcases ha with ha | ha
      · have := subtreeAt_isSome_of_mem h a ha
        rw [hh] at this
        simp at this
      · exact subtreeAtF_isSome_of_mem tl a ha

end

mutual

theorem subtreeAt_shapeOk (st : Store) (t : IdT) (a : Nat) (sub : IdT)
    (hs : shapeOk st t = true) (hsub : subtreeAt t a = some sub) :
    shapeOk st sub = true := by
  cases t with
  | node i ks =>
    rw [subtreeAt] at hsub
    by_cases h : i = a
    · rw [if_pos h] at hsub
      cases hsub
      exact hs
    · rw [if_neg h] at hsub
      rw [shapeOk] at hs
      cases hg : get st i with
      | none => rw [hg] at hs; simp at hs
      | some e =>
        rw [hg] at hs
        simp only [Bool.and_eq_true] at hs
        exact subtreeAtF_shapeOk st ks a sub hs.2 hsub

theorem subtreeAtF_shapeOk (st : Store) (ks : IdF) (a : Nat) (sub : IdT)
    (hs : shapeOkF st ks = true) (hsub : subtreeAtF ks a = some sub) :
    shapeOk st sub = true := by
  cases ks with
  | nil => simp [subtreeAtF] at hsub
  | cons h tl =>
    rw [shapeOkF, Bool.and_eq_true] at hs
    rw [subtreeAtF] at hsub
    cases hh : subtreeAt h a with
    | some s =>
      rw [hh] at hsub
      cases hsub
      exact subtreeAt_shapeOk st h a _ hs.1 hh
    | none =>
      rw [hh] at hsub
      exact subtreeAtF_shapeOk st tl a sub hs.2 hsub

end

mutual

theorem subtreeAt_nodup (t : IdT) (a : Nat) (sub : IdT) (hnd : t.ids.Nodup)
    (hsub : subtreeAt t a = some sub) : sub.ids.Nodup := by
  cases t with
  | node i ks =>
    rw [subtreeAt] at hsub
    by_cases h : i = a
    · rw [if_pos h] at hsub
      cases hsub
      exact hnd
    · rw [if_neg h] at hsub
      rw [IdT.ids_node, List.nodup_cons] at hnd
      exact subtreeAtF_nodup ks a sub hnd.2 hsub

theorem subtreeAtF_nodup (ks : IdF) (a : Nat) (sub : IdT) (hnd : ks.ids.Nodup)
    (hsub : subtreeAtF ks a = some sub) : sub.ids.Nodup := by
  cases ks with
  | nil => simp [subtreeAtF] at hsub
  | cons h tl =>
    rw [IdF.ids_cons, List.nodup_append] at hnd
    rw [subtreeAtF] at hsub
    cases hh : subtreeAt h a with
    | some s =>
      rw [hh] at hsub
      cases hsub
      exact subtreeAt_nodup h a _ hnd.1 hh
    | none =>
      rw [hh] at hsub
      exact subtreeAtF_nodup tl a sub hnd.2.1 hsub

end

theorem IdT.ids_eq (t : IdT) : t.ids = t.tid :: t.properIds := by
  cases t with
  | node i ks => rfl

mutual

theorem isDescendant_iff (st : Store) (t : IdT) (cand : Nat)
    (hs : shapeOk st t = true) :
    ∀ fuel, t.size ≤ fuel →
      (isDescendant st fuel t.tid cand = true ↔ cand ∈ t.properIds) := by
  cases t with
  | node i ks =>
    intro fuel hfuel
    rw [shapeOk] at hs
    cases hg : get st i with
    | none => rw [hg] at hs; simp at hs
    | some e =>
      rw [hg] at hs
      simp only [Bool.and_eq_true, beq_iff_eq] at hs
      cases fuel with
      | zero => simp [IdT.size] at hfuel
      | succ f =>
        have hks : ks.size ≤ f := by
          have : 1 + ks.size ≤ f + 1 := by simpa [IdT.size] using hfuel
          omega
        show isDescendant st (f + 1) i cand = true ↔ cand ∈ IdF.ids ks
        rw [isDescendant, hg]
        show (e.reports.any fun rid => rid == cand || isDescendant st f rid cand) = true ↔
          cand ∈ IdF.ids ks
        rw [hs.1]
        exact isDescendantF_iff st ks cand hs.2 f hks

theorem isDescendantF_iff (st : Store) (ks : IdF) (cand : Nat)
    (hs : shapeOkF st ks = true) :
    ∀ fuel, ks.size ≤ fuel →
      (ks.kidIds.any (fun rid => rid == cand || isDescendant st fuel rid cand) = true ↔
        cand ∈ ks.ids) := by
  cases ks with
  | nil =>
    intro fuel _
    simp [IdF.kidIds, IdF.ids]
  | cons h tl =>
    intro fuel hfuel
    rw [shapeOkF, Bool.and_eq_true] at hs
    have h1 : h.size ≤ fuel := by
      have : h.size + tl.size ≤ fuel := by simpa [IdF.size] using hfuel
      omega
    have h2 : tl.size ≤ fuel := by
      have : h.size + tl.size ≤ fuel := by simpa [IdF.size] using hfuel
      omega
    have hh := isDescendant_iff st h cand hs.1 fuel h1
    have ht := isDescendantF_iff st tl cand hs.2 fuel h2
    have hmem : cand ∈ h.ids ↔ cand = h.tid ∨ cand ∈ h.properIds := by
      rw [IdT.ids_eq, List.mem_cons]
    show ((h.tid :: tl.kidIds).any fun rid => rid == cand || isDescendant st fuel rid cand)
        = true ↔ cand ∈ h.ids ++ tl.ids
    rw [List.any_cons]
    constructor
    · intro hyp
      simp only [Bool.or_eq_true, beq_iff_eq] at hyp
      rw [List.mem_append]
      rcases hyp with (hyp | hyp) | hyp
      · exact Or.inl (hmem.mpr (Or.inl hyp.symm))
      · exact Or.inl (hmem.mpr (Or.inr (hh.mp hyp)))
      · exact Or.inr (ht.mp hyp)
    · intro hyp
      rw [List.mem_append] at hyp
      simp only [Bool.or_eq_true, beq_iff_eq]
      rcases hyp with hyp | hyp
      · rcases hmem.mp hyp with hyp | hyp
        · exact Or.inl (Or.inl hyp.symm)
        · exact Or.inl (Or.inr (hh.mpr hyp))
      · exact Or.inr (ht.mpr hyp)

end

theorem foldl_orphan_get (rids : List Nat) (st : Store) (j : Nat) :
    get (rids.foldl (fun s rid => modify s rid (fun e => { e with manager := none })) st) j =
      if j ∈ rids then (get st j).map (fun e => { e with manager := none }) else get st j := by
  induction rids generalizing st with
  | nil => simp
  | cons r rs ih =>
    simp only [List.foldl_cons]
    rw [ih]
    by_cases hjr : j = r
    · subst hjr
      simp only [get_modify, if_pos rfl, List.mem_cons, true_or, if_pos]
      by_cases hj : j ∈ rs
      · simp only [hj, if_pos]
        cases hget : get st j <;> simp
      · simp only [hj, if_neg, ite_false]
    · rw [get_modify]
      simp only [hjr, ite_false, List.mem_cons, false_or]

theorem foldl_addReport_get (rids : List Nat) (st : Store) (x : Nat) (xE : Employee)
    (hx : get st x = some xE) (hnot : x ∉ rids) (j : Nat) :
    get (rids.foldl (fun s rid => addReportTo s x rid) st) j =
      if j = x then some { xE with reports := xE.reports ++ rids }
      else if j ∈ rids then
        (get st j).map (fun e => { e with manager := some x, level := xE.level + 1 })
      else get st j := by
  induction rids generalizing st xE with
  | nil =>
    by_cases hj : j = x
    · subst hj
      simpa using hx
    · simp [hj]
  | cons r rs ih =>
    simp only [List.mem_cons, not_or] at hnot
    obtain ⟨hxr, hxrs⟩ := hnot
    simp only [List.foldl_cons]
    have hstep : addReportTo st x r =
        modify (modify st r (fun e => { e with manager := some x, level := xE.level + 1 })) x
          (fun e => { e with reports := e.reports ++ [r] }) := by
      simp [addReportTo, hx]
    rw [hstep]
    have hx2 : get (modify (modify st r
        (fun e => { e with manager := some x, level := xE.level + 1 })) x
          (fun e => { e with reports := e.reports ++ [r] })) x =
        some { xE with reports := xE.reports ++ [r] } := by
      rw [get_modify, if_pos rfl, get_modify, if_neg hxr, hx]
      rfl
    rw [ih _ _ hx2 hxrs]
    simp only [get_modify]
    by_cases hj : j = x
    · subst hj
      simp [List.append_assoc]
    · by_cases hjr : j = r
      · subst hjr
        cases hget : get st j with
        | none => simp [hj, hget]
        | some ej => simp [hj, hget]
      · simp [hj, hjr]

/-- C10: every mutation that fails its validation (removeMember on the root
or an unknown id, editMember on an unknown id, moveSubtree on an unknown id,
the root, self, or a descendant target, addMember with no root) performs its
checks before `pushState`, so a failed operation returns the chart unchanged —
tree, history stack and future stack — and an `undo` issued after the failed
mutation behaves exactly as an `undo` issued before it (in particular, with at
least two history entries it still succeeds rather than acting as a no-op,
reverting the last successful mutation). -/
theorem failed_mutation_is_invisible (c : OrgChart) (i j newId : Nat) (o mArg : Option Nat)
    (p : Patch) (nm tt lb dv dp em : String) :
    ((removeEmployee c i o).2 = false →
      (removeEmployee c i o).1 = c ∧ undo (removeEmployee c i o).1 = undo c) ∧
    ((editEmployee c i p).2 = false →
      (editEmployee c i p).1 = c ∧ undo (editEmployee c i p).1 = undo c) ∧
    ((moveSubtree c i j).2 = false →
      (moveSubtree c i j).1 = c ∧ undo (moveSubtree c i j).1 = undo c) ∧
    ((addEmployee c newId nm tt mArg lb dv dp em).2 = none →
      (addEmployee c newId nm tt mArg lb dv dp em).1 = c) ∧
    (2 ≤ c.history.length → (undo c).2 = true) := by
  refine ⟨?_, ?_, ?_, ?_, ?_⟩
  · intro h
    by_cases hr : c.root = some i
    · simp [removeEmployee, hr]
    · cases hg : get c.employees i with
      | none => simp [removeEmployee, hr, hg]
      | some e =>
        exfalso
        simp [removeEmployee, hr, hg] at h
  · intro h
    cases hg : get c.employees i with
    | none => simp [editEmployee, hg]
    | some e =>
      exfalso
      simp [editEmployee, hg] at h
  · intro h
    cases hg1 : get c.employees i with
    | none => simp [moveSubtree, hg1]
    | some e1 =>
      cases hg2 : get c.employees j with
      | none => simp [moveSubtree, hg1, hg2]
      | some e2 =>
        by_cases hr : c.root = some i
        · simp [moveSubtree, hg1, hg2, hr]
        · by_cases hij : i = j
          · simp [moveSubtree, hg1, hg2, hr, hij]
          · by_cases hd : isDescendant c.employees (c.employees.length + 1) i j = true
            · simp [moveSubtree, hg1, hg2, hr, hij, hd]
            · exfalso
              simp [moveSubtree, hg1, hg2, hr, hij, hd] at h
  · intro h
    cases hroot : c.root with
    | none => simp [addEmployee, hroot]
    | some r =>
      cases mArg with
      | none =>
        cases hg : get c.employees r with
        | none => simp [addEmployee, hroot, hg]
        | some e =>
          exfalso
          simp [addEmployee, hroot, hg] at h
      | some m =>
        by_cases hm : (get c.employees m).isSome
        · cases hg : get c.employees m with
          | none => simp [hg] at hm
          | some e =>
            exfalso
            simp [addEmployee, hroot, hm, hg] at h
        · cases hg : get c.employees r with
          | none => simp [addEmployee, hroot, hm, hg]
          | some e =>
            exfalso
            simp [addEmployee, hroot, hm, hg] at h
  · intro h
    match hh : c.history with
    | [] => rw [hh] at h; simp at h
    | [a] => rw [hh] at h; simp at h
    | a :: b :: rest => simp [undo, hh]

/-- Witness for C10: removing the unknown id `99` from the sample chart fails
and leaves the chart untouched. -/
theorem failed_mutation_is_invisible_witness :
    (removeEmployee chartRAB 99 none).1 = chartRAB := by
  exact ((failed_mutation_is_invisible chartRAB 99 0 5 none none
    ⟨none, none, none, none, none, none⟩ "" "" "" "" "" "").1 (by decide)).1

/-- C8: `addEmployee` fails and changes nothing when the store has no root;
otherwise it resolves the given manager id to an existing member — falling
back to the root when the argument is omitted or does not resolve — and
creates the new member with `manager` pointing at the resolved manager and
`level` one more than that manager's level. -/
theorem addEmployee_resolves_manager (c : OrgChart) (newId : Nat)
    (nm tt lb dv dp em : String) (mArg : Option Nat) :
    (c.root = none → addEmployee c newId nm tt mArg lb dv dp em = (c, none)) ∧
    (∀ r rootE, c.root = some r → get c.employees r = some rootE →
      (∀ m mgrE, mArg = some m → get c.employees m = some mgrE →
        (addEmployee c newId nm tt mArg lb dv dp em).2 = some newId ∧
        get (addEmployee c newId nm tt mArg lb dv dp em).1.employees newId =
          some ⟨nm, tt, lb, dv, dp, em, some m, [], mgrE.level + 1⟩) ∧
      ((mArg = none ∨ ∃ m, mArg = some m ∧ get c.employees m = none) →
        (addEmployee c newId nm tt mArg lb dv dp em).2 = some newId ∧
        get (addEmployee c newId nm tt mArg lb dv dp em).1.employees newId =
          some ⟨nm, tt, lb, dv, dp, em, some r, [], rootE.level + 1⟩)) := by
  constructor
  · intro h
    simp [addEmployee, h]
  · intro r rootE hroot hrootE
    constructor
    · intro m mgrE hm hmg
      subst hm
      have hkey : (get c.employees m).isSome = true := by simp [hmg]
      simp [addEmployee, hroot, hkey, hmg, get_put]
    · rintro (hm | ⟨m, hm, hmg⟩)
      · subst hm
        simp [addEmployee, hroot, hrootE, get_put]
      · subst hm
        have hkey : (get c.employees m).isSome = false := by simp [hmg]
        simp [addEmployee, hroot, hkey, hrootE, get_put]

/-- Witness for C8: adding under the unresolvable manager id `99` falls back
to the root of the sample chart. -/
theorem addEmployee_resolves_manager_witness :
    (addEmployee chartR 5 "N" "T" (some 99) "" "" "" "").2 = some 5 ∧
    get (addEmployee chartR 5 "N" "T" (some 99) "" "" "" "").1.employees 5 =
      some ⟨"N", "T", "", "", "", "", some 0, [], 1⟩ := by
  exact (addEmployee_resolves_manager chartR 5 "N" "T" "" "" "" "" (some 99)).2 0
    ⟨"Root", "CEO", "", "", "", "", none, [], 0⟩ (by decide) (by decide)
    |>.2 (Or.inr ⟨99, rfl, by decide⟩)

/-- C7 counterexample: in the sample chart, member `1` (level 1) has direct
reports `2` and `3` (both level 2).  Removing `1` with `reassignToId = 2`
succeeds, but afterwards report `3` has level 4 while report `2` has level 3:
whether `X.level` is read before the removal (2) or after it (3), the claimed
postcondition `level = X.level + 1` fails for one of the two reports, because
`addReport` reads the reassignment target's current level while that level is
itself being rewritten. -/
theorem removeEmployee_reassign_counterexample :
    (get chartM.employees 1).map Employee.reports = some [2, 3] ∧
    chartM.root = some 0 ∧
    (get chartM.employees 2).map Employee.level = some 2 ∧
    (removeEmployee chartM 1 (some 2)).2 = true ∧
    (get (removeEmployee chartM 1 (some 2)).1.employees 2).map Employee.level = some 3 ∧
    (get (removeEmployee chartM 1 (some 2)).1.employees 3).map Employee.level = some 4 ∧
    (4 : Nat) ≠ 2 + 1 ∧ (3 : Nat) ≠ 3 + 1 := by decide

/-- C7 (amended): removing the root or an unknown id fails and changes
nothing.  Removing a non-root member `m` whose direct reports all exist:
with `reassignToId = X` for an existing member `X` that is not itself one of
`m`'s direct reports, every former direct report ends with `manager = X` and
`level = X.level + 1` (with `X.level` read before the removal) and `m` is
deleted; with `reassignToId` omitted every former direct report ends with
`manager = null`, and `m` is deleted. -/
theorem removeEmployee_spec (c : OrgChart) (mId x i : Nat) (o : Option Nat)
    (mE xE : Employee) :
    (c.root = some i → removeEmployee c i o = (c, false)) ∧
    (get c.employees i = none → removeEmployee c i o = (c, false)) ∧
    (c.root ≠ some mId → get c.employees mId = some mE → mId ∉ mE.reports →
      (∀ rid ∈ mE.reports, rid ∈ keys c.employees) →
      ((get c.employees x = some xE → x ∉ mE.reports →
        (removeEmployee c mId (some x)).2 = true ∧
        get (removeEmployee c mId (some x)).1.employees mId = none ∧
        (∀ rid ∈ mE.reports,
          ∃ e', get (removeEmployee c mId (some x)).1.employees rid = some e' ∧
            e'.manager = some x ∧ e'.level = xE.level + 1)) ∧
      ((removeEmployee c mId none).2 = true ∧
        get (removeEmployee c mId none).1.employees mId = none ∧
        ∀ rid ∈ mE.reports,
          ∃ e', get (removeEmployee c mId none).1.employees rid = some e' ∧
            e'.manager = none))) := by
  refine ⟨?_, ?_, ?_⟩
  · intro h
    simp [removeEmployee, h]
  · intro h
    by_cases hr : c.root = some i
    · simp [removeEmployee, hr]
    · simp [removeEmployee, hr, h]
  · intro hroot hm hmnot hkeys
    have hun : ∀ o, removeEmployee c mId o =
        ({ pushState c with employees := erase (detachFromManager (removeReports c.employees mE.reports o) mId) mId }, true) := by
      intro o
      simp [removeEmployee, hroot, hm, pushState]
    constructor
    · intro hx hxnot
      have hxs : (get c.employees x).isSome = true := by simp [hx]
      have hfold := fun j => foldl_addReport_get mE.reports c.employees x xE hx hxnot j
      have hrr : removeReports c.employees mE.reports (some x) =
          List.foldl (fun s rid => addReportTo s x rid) c.employees mE.reports := by
        simp [removeReports, hxs]
      rw [hun (some x), hrr]
      refine ⟨rfl, ?_, ?_⟩
      · simp [detachFromManager, get_erase]
      · intro rid hrid
        have hridx : ¬ rid = x := fun hh => hxnot (hh ▸ hrid)
        have hridm : ¬ rid = mId := fun hh => hmnot (hh ▸ hrid)
        have hst1 : get (List.foldl (fun s rid => addReportTo s x rid) c.employees mE.reports)
            rid = (get c.employees rid).map
              (fun e => { e with manager := some x, level := xE.level + 1 }) := by
          rw [hfold rid, if_neg hridx, if_pos hrid]
        have hsome : (get c.employees rid).isSome = true := by
          rw [get_isSome_iff_mem_keys]
          exact hkeys rid hrid
        cases hget : get c.employees rid with
        | none => rw [hget] at hsome; simp at hsome
        | some eR =>
          rw [hget] at hst1
          rw [detachFromManager]
          cases hmm : (get (List.foldl (fun s rid => addReportTo s x rid) c.employees
              mE.reports) mId).bind Employee.manager with
          | none =>
            refine ⟨{ eR with manager := some x, level := xE.level + 1 }, ?_, rfl, rfl⟩
            rw [get_erase, if_neg hridm, hst1]
            rfl
          | some mgr =>
            by_cases hrm : rid = mgr
            · refine ⟨{ eR with manager := some x, level := xE.level + 1, reports := List.filter (fun r => r != mId) eR.reports }, ?_, rfl, rfl⟩
              rw [get_erase, if_neg hridm, get_modify, if_pos hrm, ← hrm, hst1]
              rfl
            · refine ⟨{ eR with manager := some x, level := xE.level + 1 }, ?_, rfl, rfl⟩
              rw [get_erase, if_neg hridm, get_modify, if_neg hrm, hst1]
              rfl
    · have hfold := fun j => foldl_orphan_get mE.reports c.employees j
      have hrr : removeReports c.employees mE.reports none =
          List.foldl (fun s rid => modify s rid (fun e => { e with manager := none }))
            c.employees mE.reports := by
        simp [removeReports]
      rw [hun none, hrr]
      refine ⟨rfl, ?_, ?_⟩
      · simp [detachFromManager, get_erase]
      · intro rid hrid
        have hridm : ¬ rid = mId := fun hh => hmnot (hh ▸ hrid)
        have hst1 : get (List.foldl
            (fun s rid => modify s rid (fun e => { e with manager := none })) c.employees
            mE.reports) rid =
            (get c.employees rid).map (fun e => { e with manager := none }) := by
          rw [hfold rid, if_pos hrid]
        have hsome : (get c.employees rid).isSome = true := by
          rw [get_isSome_iff_mem_keys]
          exact hkeys rid hrid
        cases hget : get c.employees rid with
        | none => rw [hget] at hsome; simp at hsome
        | some eR =>
          rw [hget] at hst1
          rw [detachFromManager]
          cases hmm : (get (List.foldl
              (fun s rid => modify s rid (fun e => { e with manager := none })) c.employees
              mE.reports) mId).bind Employee.manager with
          | none =>
            refine ⟨{ eR with manager := none }, ?_, rfl⟩
            rw [get_erase, if_neg hridm, hst1]
            rfl
          | some mgr =>
            by_cases hrm : rid = mgr
            · refine ⟨{ eR with manager := none, reports := List.filter (fun r => r != mId) eR.reports }, ?_, rfl⟩
              rw [get_erase, if_neg hridm, get_modify, if_pos hrm, ← hrm, hst1]
              rfl
            · refine ⟨{ eR with manager := none }, ?_, rfl⟩
              rw [get_erase, if_neg hridm, get_modify, if_neg hrm, hst1]
              rfl

/-- Witness for C7 (amended): removing member `1` of the sample chart with
reassignment to the root gives both former reports `manager = 0` and
`level = 1`. -/
theorem removeEmployee_spec_witness :
    (removeEmployee chartM 1 (some 0)).2 = true ∧
    get (removeEmployee chartM 1 (some 0)).1.employees 1 = none ∧
    (removeEmployee chartM 1 none).2 = true := by
  have h := (removeEmployee_spec chartM 1 0 7 none
    ⟨"M", "Mgr", "", "", "", "", some 0, [2, 3], 1⟩
    ⟨"R", "CEO", "", "", "", "", none, [1], 0⟩).2.2
    (by decide) (by decide) (by decide) (by decide)
  exact ⟨(h.1 (by decide) (by decide)).1, (h.1 (by decide) (by decide)).2.1, h.2.1⟩

/-- C2 counterexample: starting from the chart with root and Alice, adding
Bob is a successful mutation; but `undo()` immediately afterwards does not
reproduce the pre-add serialized tree (it reloads the state from before the
previous mutation), and `redo()` after that undo does not reproduce the
post-add serialized tree (the post-add state was never snapshotted). -/
theorem undo_redo_roundtrip_counterexample :
    (addEmployee chartRA 2 "Bob" "Engineer" (some 1) "" "" "" "").2 = some 2 ∧
    (undo chartRAB).2 = true ∧
    serializeOrg (undo chartRAB).1 ≠ serializeOrg chartRA ∧
    (redo (undo chartRAB).1).2 = true ∧
    serializeOrg (redo (undo chartRAB).1).1 ≠ serializeOrg chartRAB := by decide

/-- C6 counterexample: with a root present, a row with an unresolvable
manager name is never attached under the root — it is left pending and
reported as a failed row; and with no root at all, the import aborts before
processing anything, so a manager-less record does not become the root. -/
theorem import_fallback_counterexample :
    (importFromCSV chartR 10 [ghostRow]).1.employees = chartR.employees ∧
    (importFromCSV chartR 10 [ghostRow]).2.2.1 = [ghostRow] ∧
    importFromCSV OrgChart.empty 10 [ghostRow] = (OrgChart.empty, false, [], 10) ∧
    importFromCSV OrgChart.empty 10 [noMgrRow] = (OrgChart.empty, false, [], 10) := by decide

theorem processRow_no_mgr (c : OrgChart) (ctr : Nat) (row : Row)
    (hname : row.name ≠ "") (htitle : row.title ≠ "") (hmgr : row.managerName = "") :
    processRow c ctr row =
      ((addEmployee c ctr row.name row.title c.root row.lob row.division row.dept
          row.email).1, ctr + 1, RowStatus.added) := by
  rw [processRow, if_neg (by simp [hname, htitle]), if_neg (by simp [hmgr])]

theorem processRow_unresolvable (c : OrgChart) (ctr : Nat) (row : Row)
    (hname : row.name ≠ "") (htitle : row.title ≠ "") (hmgr : row.managerName ≠ "")
    (hfind : c.employees.find?
      (fun p => jsToLower p.2.name == jsToLower row.managerName) = none) :
    processRow c ctr row = (c, ctr, RowStatus.skipped) := by
  rw [processRow, if_neg (by simp [hname, htitle]), if_pos hmgr, hfind]

theorem importLoop_one (c : OrgChart) (ctr : Nat) (row : Row) :
    importLoop c ctr 2 [row] =
      (match processRow c ctr row with
       | (c1, ctr1, RowStatus.skipped) => (c1, ctr1, [row])
       | (c1, ctr1, RowStatus.dropped) => (c1, ctr1, [])
       | (c1, ctr1, RowStatus.added) => (c1, ctr1, [])) := by
  show importLoop c ctr (1 + 1) [row] = _
  rw [importLoop]
  simp only [List.isEmpty_cons, Bool.false_eq_true, if_false, importPass, importPassRev,
    List.reverse_cons, List.reverse_nil, List.nil_append]
  cases hpr : processRow c ctr row with
  | mk c1 rest =>
    obtain ⟨ctr1, stat⟩ := rest
    cases stat <;> simp [importLoop]

theorem addEmployee_under_root (c : OrgChart) (newId : Nat)
    (nm tt lb dv dp em : String) (r : Nat) (rootE : Employee)
    (hroot : c.root = some r) (hrootE : get c.employees r = some rootE) :
    addEmployee c newId nm tt (some r) lb dv dp em =
      ({ pushState c with employees := put (addReportTo c.employees r newId) newId ⟨nm, tt, lb, dv, dp, em, some r, [], rootE.level + 1⟩ }, some newId) := by
  have hrs : (get c.employees r).isSome = true := by simp [hrootE]
  simp [addEmployee, hroot, hrs, hrootE, pushState]

theorem get_mem (st : Store) (i : Nat) (e : Employee) (h : get st i = some e) :
    (i, e) ∈ st := by
  induction st with
  | nil => simp [get] at h
  | cons a rest ih =>
    obtain ⟨k, e0⟩ := a
    by_cases hk : k = i
    · rw [get, if_pos hk] at h
      have he : e0 = e := Option.some.inj h
      rw [hk, he]
      exact List.mem_cons_self _ _
    · rw [get, if_neg hk] at h
      exact List.mem_cons_of_mem _ (ih h)

theorem mem_put_cases (st : Store) (k : Nat) (v : Employee) :
    ∀ p ∈ put st k v, p = (k, v) ∨ p ∈ st := by
  induction st with
  | nil =>
    intro p hp
    simp [put] at hp
    exact Or.inl hp
  | cons a rest ih =>
    obtain ⟨k0, e0⟩ := a
    intro p hp
    by_cases hk : k0 = k
    · rw [put, if_pos hk] at hp
      rcases List.mem_cons.mp hp with h | h
      · exact Or.inl h
      · exact Or.inr (List.mem_cons_of_mem _ h)
    · rw [put, if_neg hk] at hp
      rcases List.mem_cons.mp hp with h | h
      · rw [h]
        exact Or.inr (List.mem_cons_self _ _)
      · rcases ih p h with h2 | h2
        · exact Or.inl h2
        · exact Or.inr (List.mem_cons_of_mem _ h2)

theorem names_modify (st : Store) (k : Nat) (f : Employee → Employee)
    (hf : ∀ e, (f e).name = e.name) :
    ∀ p ∈ modify st k f, ∃ q ∈ st, p.2.name = q.2.name := by
  induction st with
  | nil =>
    intro p hp
    simp [modify] at hp
  | cons a rest ih =>
    obtain ⟨k0, e0⟩ := a
    intro p hp
    by_cases hk : k0 = k
    · rw [modify, if_pos hk] at hp
      rcases List.mem_cons.mp hp with h | h
      · exact ⟨(k0, e0), List.mem_cons_self _ _, by rw [h]; exact hf e0⟩
      · exact ⟨p, List.mem_cons_of_mem _ h, rfl⟩
    · rw [modify, if_neg hk] at hp
      rcases List.mem_cons.mp hp with h | h
      · exact ⟨p, by rw [h]; exact List.mem_cons_self _ _, rfl⟩
      · obtain ⟨q, hq, hname⟩ := ih p h
        exact ⟨q, List.mem_cons_of_mem _ hq, hname⟩

theorem addReportTo_none (st : Store) (m r : Nat) (h : get st m = none) :
    addReportTo st m r = st := by
  rw [addReportTo, h]

theorem addReportTo_some (st : Store) (m r : Nat) (mE : Employee)
    (h : get st m = some mE) :
    addReportTo st m r =
      modify (modify st r (fun e => { e with manager := some m, level := mE.level + 1 }))
        m (fun e => { e with reports := e.reports ++ [r] }) := by
  rw [addReportTo, h]

theorem names_addReportTo (st : Store) (m r : Nat) :
    ∀ p ∈ addReportTo st m r, ∃ q ∈ st, p.2.name = q.2.name := by
  intro p hp
  cases hg : get st m with
  | none =>
    rw [addReportTo_none st m r hg] at hp
    exact ⟨p, hp, rfl⟩
  | some mE =>
    rw [addReportTo_some st m r mE hg] at hp
    obtain ⟨q1, hq1, h1⟩ := names_modify _ m
      (fun e => { e with reports := e.reports ++ [r] }) (fun e => rfl) p hp
    obtain ⟨q2, hq2, h2⟩ := names_modify _ r
      (fun e => { e with manager := some m, level := mE.level + 1 }) (fun e => rfl) q1 hq1
    exact ⟨q2, hq2, h1.trans h2⟩

theorem keys_addReportTo (st : Store) (m r : Nat) :
    keys (addReportTo st m r) = keys st := by
  cases hg : get st m with
  | none => rw [addReportTo_none st m r hg]
  | some mE => rw [addReportTo_some st m r mE hg, keys_modify, keys_modify]

theorem keysBelow_keys (st : Store) (n : Nat) :
    KeysBelow st n ↔ ∀ k ∈ keys st, k < n := by
  constructor
  · intro h k hk
    rw [keys] at hk
    obtain ⟨p, hp, hpk⟩ := List.mem_map.mp hk
    exact hpk ▸ h p hp
  · intro h p hp
    exact h p.1 (by rw [keys]; exact List.mem_map.mpr ⟨p, hp, rfl⟩)

theorem keysBelow_mono (st : Store) (a b : Nat) (h : KeysBelow st a) (hab : a ≤ b) :
    KeysBelow st b :=
  fun p hp => Nat.lt_of_lt_of_le (h p hp) hab

theorem keysBelow_addReportTo (st : Store) (m r n : Nat) (h : KeysBelow st n) :
    KeysBelow (addReportTo st m r) n := by
  rw [keysBelow_keys] at h ⊢
  rw [keys_addReportTo]
  exact h

theorem keysBelow_put (st : Store) (k : Nat) (v : Employee) (n : Nat)
    (h : KeysBelow st n) (hkn : k < n) : KeysBelow (put st k v) n := by
  intro p hp
  rcases mem_put_cases st k v p hp with h2 | h2
  · rw [h2]
    exact hkn
  · exact h p h2

theorem persist_refl (st : Store) : Persist st st :=
  fun _ e h => ⟨e, h, rfl, rfl, rfl, rfl, rfl, rfl, rfl, rfl⟩

theorem persist_trans (s1 s2 s3 : Store) (h12 : Persist s1 s2) (h23 : Persist s2 s3) :
    Persist s1 s3 := by
  intro i e h
  obtain ⟨e2, hg2, a1, a2, a3, a4, a5, a6, a7, a8⟩ := h12 i e h
  obtain ⟨e3, hg3, b1, b2, b3, b4, b5, b6, b7, b8⟩ := h23 i e2 hg2
  exact ⟨e3, hg3, b1.trans a1, b2.trans a2, b3.trans a3, b4.trans a4, b5.trans a5,
    b6.trans a6, b7.trans a7, b8.trans a8⟩

/-- The store after `addEmployee`'s registration step keeps every existing
employee intact up to appended reports, allocates only the fresh id, and adds
no employee name beyond the new record's. -/
theorem add_store_step (st : Store) (K newId : Nat) (v : Employee)
    (hk : KeysBelow st newId) :
    Persist st (put (addReportTo st K newId) newId v) ∧
    KeysBelow (put (addReportTo st K newId) newId v) (newId + 1) ∧
    ∀ s, NameAbsent st s → jsToLower v.name ≠ s →
      NameAbsent (put (addReportTo st K newId) newId v) s := by
  refine ⟨?_, ?_, ?_⟩
  · intro i e hi
    have hne : i ≠ newId := Nat.ne_of_lt (hk (i, e) (get_mem st i e hi))
    cases hgK : get st K with
    | none =>
      rw [get_put, if_neg hne, addReportTo_none st K newId hgK]
      exact ⟨e, hi, rfl, rfl, rfl, rfl, rfl, rfl, rfl, rfl⟩
    | some mE =>
      rw [get_put, if_neg hne, addReportTo_some st K newId mE hgK]
      by_cases hiK : i = K
      · have hKne : ¬ K = newId := by rw [← hiK]; exact hne
        have hiK' : get st K = some e := by rw [← hiK]; exact hi
        have heM : e = mE := Option.some.inj (hiK'.symm.trans hgK)
        rw [get_modify, if_pos hiK, get_modify, if_neg hKne, hgK]
        refine ⟨{ mE with reports := mE.reports ++ [newId] }, rfl, ?_, ?_, ?_, ?_, ?_, ?_, ?_, ?_⟩ <;>
          rw [heM]
      · rw [get_modify, if_neg hiK, get_modify, if_neg hne, hi]
        exact ⟨e, rfl, rfl, rfl, rfl, rfl, rfl, rfl, rfl, rfl⟩
  · exact keysBelow_put _ _ _ _
      (keysBelow_addReportTo _ _ _ _ (keysBelow_mono _ _ _ hk (Nat.le_succ _)))
      (Nat.lt_succ_self _)
  · intro s hA hvn p hp
    rcases mem_put_cases _ newId v p hp with h | h
    · rw [h]
      exact hvn
    · obtain ⟨q, hq, hname⟩ := names_addReportTo st K newId p h
      rw [hname]
      exact hA q hq

/-- `addEmployee` either leaves the chart untouched (a failure path) or
registers the new employee under some existing manager key. -/
theorem addEmployee_cases (c : OrgChart) (newId : Nat) (nm tt : String)
    (mA : Option Nat) (lb dv dp em : String) :
    (addEmployee c newId nm tt mA lb dv dp em).1 = c ∨
    ∃ K mgrE, get c.employees K = some mgrE ∧
      (addEmployee c newId nm tt mA lb dv dp em).1 =
        { pushState c with employees := put (addReportTo c.employees K newId) newId (Employee.mk nm tt lb dv dp em (some K) [] (mgrE.level + 1)) } := by
  cases hr : c.root with
  | none =>
    left
    simp [addEmployee, hr]
  | some r =>
    cases mA with
    | none =>
      cases hg : get c.employees r with
      | none =>
        left
        simp [addEmployee, hr, hg]
      | some mgrE =>
        right
        exact ⟨r, mgrE, hg, by simp [addEmployee, hr, hg, pushState]⟩
    | some m =>
      by_cases hm : (get c.employees m).isSome = true
      · obtain ⟨mgrE, hg⟩ := Option.isSome_iff_exists.mp hm
        right
        exact ⟨m, mgrE, hg, by simp [addEmployee, hr, hm, hg, pushState]⟩
      · cases hg : get c.employees r with
        | none =>
          left
          simp [addEmployee, hr, hm, hg]
        | some mgrE =>
          right
          exact ⟨r, mgrE, hg, by simp [addEmployee, hr, hm, hg, pushState]⟩

/-- Chart-level invariant step for `addEmployee` under a fresh id: existing
employees persist (scalar fields intact), the root is unchanged, keys stay
below the bumped counter, and no new employee name appears beyond the added
record's own. -/
theorem addEmployee_store_step (c : OrgChart) (newId : Nat) (nm tt : String)
    (mA : Option Nat) (lb dv dp em : String) (hk : KeysBelow c.employees newId) :
    Persist c.employees (addEmployee c newId nm tt mA lb dv dp em).1.employees ∧
    (addEmployee c newId nm tt mA lb dv dp em).1.root = c.root ∧
    KeysBelow (addEmployee c newId nm tt mA lb dv dp em).1.employees (newId + 1) ∧
    ∀ s, NameAbsent c.employees s → jsToLower nm ≠ s →
      NameAbsent (addEmployee c newId nm tt mA lb dv dp em).1.employees s := by
  rcases addEmployee_cases c newId nm tt mA lb dv dp em with h | ⟨K, mgrE, hg, h⟩
  · rw [h]
    exact ⟨persist_refl _, rfl, keysBelow_mono _ _ _ hk (Nat.le_succ _), fun s hA _ => hA⟩
  · rw [h]
    have hstep := add_store_step c.employees K newId
      (Employee.mk nm tt lb dv dp em (some K) [] (mgrE.level + 1)) hk
    exact ⟨hstep.1, rfl, hstep.2.1, fun s hA hn => hstep.2.2 s hA hn⟩

/-- Invariant step for one visited pending row: the chart's employees persist,
the root is unchanged, keys stay below the returned counter, and the only
employee name possibly added is the row's own. -/
theorem processRow_step (c : OrgChart) (ctr : Nat) (row : Row)
    (hk : KeysBelow c.employees ctr) :
    Persist c.employees (processRow c ctr row).1.employees ∧
    (processRow c ctr row).1.root = c.root ∧
    KeysBelow (processRow c ctr row).1.employees (processRow c ctr row).2.1 ∧
    ∀ s, NameAbsent c.employees s → jsToLower row.name ≠ s →
      NameAbsent (processRow c ctr row).1.employees s := by
  rw [processRow]
  by_cases h1 : row.name = "" ∨ row.title = ""
  · rw [if_pos h1]
    exact ⟨persist_refl _, rfl, hk, fun s hA _ => hA⟩
  · rw [if_neg h1]
    by_cases h2 : row.managerName = ""
    · rw [if_neg (not_not_intro h2)]
      have hstep := addEmployee_store_step c ctr row.name row.title c.root
        row.lob row.division row.dept row.email hk
      exact ⟨hstep.1, hstep.2.1, hstep.2.2.1, hstep.2.2.2⟩
    · rw [if_pos h2]
      cases hf : c.employees.find? (fun p => jsToLower p.2.name == jsToLower row.managerName) with
      | none =>
        exact ⟨persist_refl _, rfl, hk, fun s hA _ => hA⟩
      | some kv =>
        have hstep := addEmployee_store_step c ctr row.name row.title (some kv.1)
          row.lob row.division row.dept row.email hk
        exact ⟨hstep.1, hstep.2.1, hstep.2.2.1, hstep.2.2.2⟩

theorem importPassRev_cons_skipped (c : OrgChart) (ctr : Nat) (r : Row) (rs : List Row)
    {c1 : OrgChart} {ctr1 : Nat} (hp : processRow c ctr r = (c1, ctr1, RowStatus.skipped)) :
    importPassRev c ctr (r :: rs) =
      ((importPassRev c1 ctr1 rs).1, (importPassRev c1 ctr1 rs).2.1,
       r :: (importPassRev c1 ctr1 rs).2.2.1, (importPassRev c1 ctr1 rs).2.2.2) := by
  have h0 : importPassRev c ctr (r :: rs) =
      (let p1 := processRow c ctr r
       let rest := importPassRev p1.1 p1.2.1 rs
       match p1.2.2 with
       | RowStatus.skipped => (rest.1, rest.2.1, r :: rest.2.2.1, rest.2.2.2)
       | RowStatus.dropped => (rest.1, rest.2.1, rest.2.2.1, rest.2.2.2)
       | RowStatus.added => (rest.1, rest.2.1, rest.2.2.1, true)) := rfl
  rw [h0, hp]

theorem importPassRev_cons_dropped (c : OrgChart) (ctr : Nat) (r : Row) (rs : List Row)
    {c1 : OrgChart} {ctr1 : Nat} (hp : processRow c ctr r = (c1, ctr1, RowStatus.dropped)) :
    importPassRev c ctr (r :: rs) =
      ((importPassRev c1 ctr1 rs).1, (importPassRev c1 ctr1 rs).2.1,
       (importPassRev c1 ctr1 rs).2.2.1, (importPassRev c1 ctr1 rs).2.2.2) := by
  have h0 : importPassRev c ctr (r :: rs) =
      (let p1 := processRow c ctr r
       let rest := importPassRev p1.1 p1.2.1 rs
       match p1.2.2 with
       | RowStatus.skipped => (rest.1, rest.2.1, r :: rest.2.2.1, rest.2.2.2)
       | RowStatus.dropped => (rest.1, rest.2.1, rest.2.2.1, rest.2.2.2)
       | RowStatus.added => (rest.1, rest.2.1, rest.2.2.1, true)) := rfl
  rw [h0, hp]

theorem importPassRev_cons_added (c : OrgChart) (ctr : Nat) (r : Row) (rs : List Row)
    {c1 : OrgChart} {ctr1 : Nat} (hp : processRow c ctr r = (c1, ctr1, RowStatus.added)) :
    importPassRev c ctr (r :: rs) =
      ((importPassRev c1 ctr1 rs).1, (importPassRev c1 ctr1 rs).2.1,
       (importPassRev c1 ctr1 rs).2.2.1, true) := by
  have h0 : importPassRev c ctr (r :: rs) =
      (let p1 := processRow c ctr r
       let rest := importPassRev p1.1 p1.2.1 rs
       match p1.2.2 with
       | RowStatus.skipped => (rest.1, rest.2.1, r :: rest.2.2.1, rest.2.2.2)
       | RowStatus.dropped => (rest.1, rest.2.1, rest.2.2.1, rest.2.2.2)
       | RowStatus.added => (rest.1, rest.2.1, rest.2.2.1, true)) := rfl
  rw [h0, hp]

theorem importLoop_zero (c : OrgChart) (ctr : Nat) (pending : List Row) :
    importLoop c ctr 0 pending = (c, ctr, pending) := rfl

theorem importLoop_succ_eq (c : OrgChart) (ctr fuel : Nat) (pending : List Row) :
    importLoop c ctr (fuel + 1) pending =
      if pending.isEmpty = true then (c, ctr, pending)
      else
        (if (importPass c ctr pending).2.2.2 = true then
          importLoop (importPass c ctr pending).1 (importPass c ctr pending).2.1 fuel
            (importPass c ctr pending).2.2.1
        else
          ((importPass c ctr pending).1, (importPass c ctr pending).2.1,
           (importPass c ctr pending).2.2.1)) := rfl

theorem importLoop_succ_empty (c : OrgChart) (ctr fuel : Nat) (pending : List Row)
    (h : pending.isEmpty = true) :
    importLoop c ctr (fuel + 1) pending = (c, ctr, pending) := by
  rw [importLoop_succ_eq, if_pos h]

theorem importLoop_succ_true (c : OrgChart) (ctr fuel : Nat) (pending : List Row)
    (h : pending.isEmpty = false) (hb : (importPass c ctr pending).2.2.2 = true) :
    importLoop c ctr (fuel + 1) pending =
      importLoop (importPass c ctr pending).1 (importPass c ctr pending).2.1 fuel
        (importPass c ctr pending).2.2.1 := by
  rw [importLoop_succ_eq, if_neg (by simp [h]), if_pos hb]

theorem importLoop_succ_false (c : OrgChart) (ctr fuel : Nat) (pending : List Row)
    (h : pending.isEmpty = false) (hb : (importPass c ctr pending).2.2.2 = false) :
    importLoop c ctr (fuel + 1) pending =
      ((importPass c ctr pending).1, (importPass c ctr pending).2.1,
       (importPass c ctr pending).2.2.1) := by
  rw [importLoop_succ_eq, if_neg (by simp [h]), if_neg (by simp [hb])]

/-- Invariant step for one whole pass over the (reversed) pending list:
entries persist, the root is unchanged, keys stay below the returned counter,
surviving rows all come from the input, and the pass adds no employee name
beyond the visited rows' own names. -/
theorem importPassRev_step (rows : List Row) : ∀ (c : OrgChart) (ctr : Nat),
    KeysBelow c.employees ctr →
    Persist c.employees (importPassRev c ctr rows).1.employees ∧
    (importPassRev c ctr rows).1.root = c.root ∧
    KeysBelow (importPassRev c ctr rows).1.employees (importPassRev c ctr rows).2.1 ∧
    (∀ q ∈ (importPassRev c ctr rows).2.2.1, q ∈ rows) ∧
    (∀ s, NameAbsent c.employees s → (∀ q ∈ rows, jsToLower q.name ≠ s) →
      NameAbsent (importPassRev c ctr rows).1.employees s) := by
  induction rows with
  | nil =>
    intro c ctr hk
    exact ⟨persist_refl _, rfl, hk, fun q hq => hq, fun s hA _ => hA⟩
  | cons r rs ih =>
    intro c ctr hk
    have hstep := processRow_step c ctr r hk
    cases hp : processRow c ctr r with
    | mk c1 rest1 =>
    obtain ⟨ctr1, stat⟩ := rest1
    rw [hp] at hstep
    have hrest := ih c1 ctr1 hstep.2.2.1
    have hpersist := persist_trans _ _ _ hstep.1 hrest.1
    have hroot := hrest.2.1.trans hstep.2.1
    have hnames : ∀ s, NameAbsent c.employees s → (∀ q ∈ r :: rs, jsToLower q.name ≠ s) →
        NameAbsent (importPassRev c1 ctr1 rs).1.employees s := by
      intro s hA hqs
      exact hrest.2.2.2.2 s (hstep.2.2.2 s hA (hqs r (List.mem_cons_self r rs)))
        (fun q hq => hqs q (List.mem_cons_of_mem r hq))
    cases stat with
    | skipped =>
      rw [importPassRev_cons_skipped c ctr r rs hp]
      refine ⟨hpersist, hroot, hrest.2.2.1, ?_, hnames⟩
      intro q hq
      rcases List.mem_cons.mp hq with h | h
      · exact List.mem_cons.mpr (Or.inl h)
      · exact List.mem_cons_of_mem r (hrest.2.2.2.1 q h)
    | dropped =>
      rw [importPassRev_cons_dropped c ctr r rs hp]
      exact ⟨hpersist, hroot, hrest.2.2.1,
        fun q hq => List.mem_cons_of_mem r (hrest.2.2.2.1 q hq), hnames⟩
    | added =>
      rw [importPassRev_cons_added c ctr r rs hp]
      exact ⟨hpersist, hroot, hrest.2.2.1,
        fun q hq => List.mem_cons_of_mem r (hrest.2.2.2.1 q hq), hnames⟩

/-- Invariant step for the whole multi-pass loop, for any fuel: entries
persist, the root is unchanged, keys stay below the returned counter, the
reported pending rows come from the input, and the loop adds no employee name
beyond the pending rows' own names. -/
theorem importLoop_step (fuel : Nat) : ∀ (pending : List Row) (c : OrgChart) (ctr : Nat),
    KeysBelow c.employees ctr →
    Persist c.employees (importLoop c ctr fuel pending).1.employees ∧
    (importLoop c ctr fuel pending).1.root = c.root ∧
    KeysBelow (importLoop c ctr fuel pending).1.employees (importLoop c ctr fuel pending).2.1 ∧
    (∀ q ∈ (importLoop c ctr fuel pending).2.2, q ∈ pending) ∧
    (∀ s, NameAbsent c.employees s → (∀ q ∈ pending, jsToLower q.name ≠ s) →
      NameAbsent (importLoop c ctr fuel pending).1.employees s) := by
  induction fuel with
  | zero =>
    intro pending c ctr hk
    rw [importLoop_zero]
    exact ⟨persist_refl _, rfl, hk, fun q hq => hq, fun s hA _ => hA⟩
  | succ fuel ih =>
    intro pending c ctr hk
    cases hpe : pending.isEmpty with
    | true =>
      rw [importLoop_succ_empty c ctr fuel pending hpe]
      exact ⟨persist_refl _, rfl, hk, fun q hq => hq, fun s hA _ => hA⟩
    | false =>
      have hpass := importPassRev_step pending.reverse c ctr hk
      have hsub : ∀ q ∈ (importPass c ctr pending).2.2.1, q ∈ pending := by
        intro q hq
        have hq0 : q ∈ ((importPassRev c ctr pending.reverse).2.2.1).reverse := hq
        exact List.mem_reverse.mp (hpass.2.2.2.1 q (List.mem_reverse.mp hq0))
      have hkp : KeysBelow (importPass c ctr pending).1.employees
          (importPass c ctr pending).2.1 := hpass.2.2.1
      have hpassP : Persist c.employees (importPass c ctr pending).1.employees := hpass.1
      have hpassR : (importPass c ctr pending).1.root = c.root := hpass.2.1
      have hpassN : ∀ s, NameAbsent c.employees s → (∀ q ∈ pending, jsToLower q.name ≠ s) →
          NameAbsent (importPass c ctr pending).1.employees s := by
        intro s hA hqs
        exact hpass.2.2.2.2 s hA (fun q hq => hqs q (List.mem_reverse.mp hq))
      cases hb : (importPass c ctr pending).2.2.2 with
      | true =>
        rw [importLoop_succ_true c ctr fuel pending hpe hb]
        have hloop := ih (importPass c ctr pending).2.2.1 (importPass c ctr pending).1
          (importPass c ctr pending).2.1 hkp
        refine ⟨persist_trans _ _ _ hpassP hloop.1, hloop.2.1.trans hpassR, hloop.2.2.1,
          fun q hq => hsub q (hloop.2.2.2.1 q hq), ?_⟩
        intro s hA hqs
        exact hloop.2.2.2.2 s (hpassN s hA hqs) (fun q hq => hqs q (hsub q hq))
      | false =>
        rw [importLoop_succ_false c ctr fuel pending hpe hb]
        exact ⟨hpassP, hpassR, hkp, hsub, hpassN⟩

/-- Within one pass, a row whose nonempty manager name matches no store
employee (case-insensitively) and no visited row's name is skipped and
survives in the pending list. -/
theorem importPassRev_skips (M : String) (rows : List Row) : ∀ (c : OrgChart) (ctr : Nat),
    KeysBelow c.employees ctr → NameAbsent c.employees M →
    (∀ q ∈ rows, jsToLower q.name ≠ M) →
    ∀ q ∈ rows, q.name ≠ "" → q.title ≠ "" → q.managerName ≠ "" →
      jsToLower q.managerName = M → q ∈ (importPassRev c ctr rows).2.2.1 := by
  induction rows with
  | nil =>
    intro c ctr _ _ _ q hq
    exact absurd hq (List.not_mem_nil q)
  | cons r rs ih =>
    intro c ctr hk hA hns q hq hn ht hm hqm
    have hstep := processRow_step c ctr r hk
    rcases List.mem_cons.mp hq with hqr | hqrs
    · rw [hqr] at hn ht hm hqm
      have hfind : c.employees.find?
          (fun p => jsToLower p.2.name == jsToLower r.managerName) = none := by
        apply List.find?_eq_none.mpr
        intro p hp
        simp only [beq_iff_eq]
        rw [hqm]
        exact hA p hp
      have hpr := processRow_unresolvable c ctr r hn ht hm hfind
      rw [hqr, importPassRev_cons_skipped c ctr r rs hpr]
      exact List.mem_cons_self r _
    · cases hp : processRow c ctr r with
      | mk c1 rest1 =>
      obtain ⟨ctr1, stat⟩ := rest1
      rw [hp] at hstep
      have hq1 := ih c1 ctr1 hstep.2.2.1
        (hstep.2.2.2 M hA (hns r (List.mem_cons_self r rs)))
        (fun q2 hq2 => hns q2 (List.mem_cons_of_mem r hq2))
        q hqrs hn ht hm hqm
      cases stat with
      | skipped =>
        rw [importPassRev_cons_skipped c ctr r rs hp]
        exact List.mem_cons_of_mem r hq1
      | dropped =>
        rw [importPassRev_cons_dropped c ctr r rs hp]
        exact hq1
      | added =>
        rw [importPassRev_cons_added c ctr r rs hp]
        exact hq1

/-- Across the whole multi-pass loop, a row whose nonempty manager name
matches no store employee and no pending row's name stays pending to the
end. -/
theorem importLoop_skips (M : String) (fuel : Nat) :
    ∀ (pending : List Row) (c : OrgChart) (ctr : Nat),
    KeysBelow c.employees ctr → NameAbsent c.employees M →
    (∀ q ∈ pending, jsToLower q.name ≠ M) →
    ∀ q ∈ pending, q.name ≠ "" → q.title ≠ "" → q.managerName ≠ "" →
      jsToLower q.managerName = M → q ∈ (importLoop c ctr fuel pending).2.2 := by
  induction fuel with
  | zero =>
    intro pending c ctr _ _ _ q hq _ _ _ _
    rw [importLoop_zero]
    exact hq
  | succ fuel ih =>
    intro pending c ctr hk hA hns q hq hn ht hm hqm
    cases hpe : pending.isEmpty with
    | true =>
      rw [importLoop_succ_empty c ctr fuel pending hpe]
      exact hq
    | false =>
      have hpass := importPassRev_step pending.reverse c ctr hk
      have hskip : q ∈ (importPassRev c ctr pending.reverse).2.2.1 :=
        importPassRev_skips M pending.reverse c ctr hk hA
          (fun q2 hq2 => hns q2 (List.mem_reverse.mp hq2))
          q (List.mem_reverse.mpr hq) hn ht hm hqm
      have hqp : q ∈ (importPass c ctr pending).2.2.1 := by
        have hq0 : q ∈ ((importPassRev c ctr pending.reverse).2.2.1).reverse :=
          List.mem_reverse.mpr hskip
        exact hq0
      cases hb : (importPass c ctr pending).2.2.2 with
      | false =>
        rw [importLoop_succ_false c ctr fuel pending hpe hb]
        exact hqp
      | true =>
        rw [importLoop_succ_true c ctr fuel pending hpe hb]
        have hsub : ∀ q2 ∈ (importPass c ctr pending).2.2.1, q2 ∈ pending := by
          intro q2 hq2
          have hq0 : q2 ∈ ((importPassRev c ctr pending.reverse).2.2.1).reverse := hq2
          exact List.mem_reverse.mp (hpass.2.2.2.1 q2 (List.mem_reverse.mp hq0))
        exact ih (importPass c ctr pending).2.2.1 (importPass c ctr pending).1
          (importPass c ctr pending).2.1 hpass.2.2.1
          (hpass.2.2.2.2 M hA (fun q2 hq2 => hns q2 (List.mem_reverse.mp hq2)))
          (fun q2 hq2 => hns q2 (hsub q2 hq2))
          q hqp hn ht hm hqm

/-- Within one pass over a rooted chart, a row with nonempty name and title
and an empty manager column is materialized under the root: the resulting
store holds an employee with the row's fields, manager pointing at the root
id, and level one below the root's. -/
theorem importPassRev_adds (r lvl : Nat) (rows : List Row) : ∀ (c : OrgChart) (ctr : Nat),
    KeysBelow c.employees ctr → c.root = some r →
    (∃ e0, get c.employees r = some e0 ∧ e0.level = lvl) →
    ∀ q ∈ rows, q.name ≠ "" → q.title ≠ "" → q.managerName = "" →
      ∃ idn e, get (importPassRev c ctr rows).1.employees idn = some e ∧
        e.name = q.name ∧ e.title = q.title ∧ e.lob = q.lob ∧ e.division = q.division ∧
        e.dept = q.dept ∧ e.email = q.email ∧ e.manager = some r ∧ e.level = lvl + 1 := by
  induction rows with
  | nil =>
    intro c ctr _ _ _ q hq
    exact absurd hq (List.not_mem_nil q)
  | cons a as ih =>
    intro c ctr hk hroot hre q hq hn ht hm
    rcases List.mem_cons.mp hq with hqa | hqas
    · rw [hqa] at hn ht hm
      obtain ⟨e0, hge0, hlvl⟩ := hre
      have hpr := processRow_no_mgr c ctr a hn ht hm
      rw [hroot] at hpr
      have hc1 : (addEmployee c ctr a.name a.title (some r) a.lob a.division a.dept a.email).1 =
          { pushState c with employees := put (addReportTo c.employees r ctr) ctr (Employee.mk a.name a.title a.lob a.division a.dept a.email (some r) [] (e0.level + 1)) } := by
        rw [addEmployee_under_root c ctr a.name a.title a.lob a.division a.dept a.email
          r e0 hroot hge0]
      rw [hc1] at hpr
      rw [hqa, importPassRev_cons_added c ctr a as hpr]
      have hk1 : KeysBelow ({ pushState c with employees := put (addReportTo c.employees r ctr) ctr (Employee.mk a.name a.title a.lob a.division a.dept a.email (some r) [] (e0.level + 1)) } : OrgChart).employees (ctr + 1) :=
        keysBelow_put _ _ _ _
          (keysBelow_addReportTo _ _ _ _ (keysBelow_mono _ _ _ hk (Nat.le_succ _)))
          (Nat.lt_succ_self _)
      have hkey : get ({ pushState c with employees := put (addReportTo c.employees r ctr) ctr (Employee.mk a.name a.title a.lob a.division a.dept a.email (some r) [] (e0.level + 1)) } : OrgChart).employees ctr = some (Employee.mk a.name a.title a.lob a.division a.dept a.email (some r) [] (e0.level + 1)) := by
        show get (put (addReportTo c.employees r ctr) ctr (Employee.mk a.name a.title a.lob a.division a.dept a.email (some r) [] (e0.level + 1))) ctr = _
        rw [get_put, if_pos rfl]
      obtain ⟨e1, hge1, b1, b2, b3, b4, b5, b6, b7, b8⟩ :=
        (importPassRev_step as { pushState c with employees := put (addReportTo c.employees r ctr) ctr (Employee.mk a.name a.title a.lob a.division a.dept a.email (some r) [] (e0.level + 1)) } (ctr + 1) hk1).1
          ctr (Employee.mk a.name a.title a.lob a.division a.dept a.email (some r) [] (e0.level + 1)) hkey
      refine ⟨ctr, e1, hge1, b1.trans rfl, b2.trans rfl, b3.trans rfl, b4.trans rfl,
        b5.trans rfl, b6.trans rfl, b7.trans rfl,
        b8.trans (by show e0.level + 1 = lvl + 1; rw [hlvl])⟩
    · cases hp : processRow c ctr a with
      | mk c1 rest1 =>
      obtain ⟨ctr1, stat⟩ := rest1
      have hstep := processRow_step c ctr a hk
      rw [hp] at hstep
      obtain ⟨e0, hge0, hlvl⟩ := hre
      obtain ⟨e2, hge2, d1, d2, d3, d4, d5, d6, d7, d8⟩ := hstep.1 r e0 hge0
      have hre1 : ∃ e3, get c1.employees r = some e3 ∧ e3.level = lvl :=
        ⟨e2, hge2, d8.trans hlvl⟩
      have hroot1 : c1.root = some r := by rw [← hroot]; exact hstep.2.1
      obtain ⟨idn, e, hg, he⟩ := ih c1 ctr1 hstep.2.2.1 hroot1 hre1 q hqas hn ht hm
      cases stat with
      | skipped =>
        rw [importPassRev_cons_skipped c ctr a as hp]
        exact ⟨idn, e, hg, he⟩
      | dropped =>
        rw [importPassRev_cons_dropped c ctr a as hp]
        exact ⟨idn, e, hg, he⟩
      | added =>
        rw [importPassRev_cons_added c ctr a as hp]
        exact ⟨idn, e, hg, he⟩

/-- Across the whole multi-pass loop (with at least one unit of fuel, as
`importFromCSV` always supplies), a pending row with an empty manager column
is materialized under the root in the first pass and its record persists to
the end. -/
theorem importLoop_adds (r lvl fuel : Nat) (pending : List Row) (c : OrgChart) (ctr : Nat)
    (hk : KeysBelow c.employees ctr) (hroot : c.root = some r)
    (hre : ∃ e0, get c.employees r = some e0 ∧ e0.level = lvl)
    (q : Row) (hq : q ∈ pending) (hn : q.name ≠ "") (ht : q.title ≠ "")
    (hm : q.managerName = "") :
    ∃ idn e, get (importLoop c ctr (fuel + 1) pending).1.employees idn = some e ∧
      e.name = q.name ∧ e.title = q.title ∧ e.lob = q.lob ∧ e.division = q.division ∧
      e.dept = q.dept ∧ e.email = q.email ∧ e.manager = some r ∧ e.level = lvl + 1 := by
  have hpe : pending.isEmpty = false := by
    cases pending with
    | nil => exact absurd hq (List.not_mem_nil q)
    | cons x xs => rfl
  have hpass := importPassRev_step pending.reverse c ctr hk
  obtain ⟨idn, e, hg, a1, a2, a3, a4, a5, a6, a7, a8⟩ :=
    importPassRev_adds r lvl pending.reverse c ctr hk hroot hre
      q (List.mem_reverse.mpr hq) hn ht hm
  cases hb : (importPass c ctr pending).2.2.2 with
  | false =>
    rw [importLoop_succ_false c ctr fuel pending hpe hb]
    exact ⟨idn, e, hg, a1, a2, a3, a4, a5, a6, a7, a8⟩
  | true =>
    rw [importLoop_succ_true c ctr fuel pending hpe hb]
    have hloop := importLoop_step fuel (importPass c ctr pending).2.2.1
      (importPass c ctr pending).1 (importPass c ctr pending).2.1 hpass.2.2.1
    obtain ⟨e2, hg2, b1, b2, b3, b4, b5, b6, b7, b8⟩ := hloop.1 idn e hg
    exact ⟨idn, e2, hg2, b1.trans a1, b2.trans a2, b3.trans a3, b4.trans a4,
      b5.trans a5, b6.trans a6, b7.trans a7, b8.trans a8⟩

/-- C6 (amended): during bulk import of any record list, a record whose
manager column is empty (after trimming) is attached under the current root
when a root exists — the resulting store holds an employee with the record's
trimmed fields, manager pointing at the root id and level `root.level + 1`;
a record whose manager column is nonempty but matches (case-insensitively)
no stored employee name and no imported record's name is never materialized —
the normalized record survives every pass and is reported in the failed-row
list, and its manager name still resolves to no employee afterwards; and when
no root exists the import fails before processing any record (serializing the
null root throws into the surrounding catch), so no record ever becomes the
root. -/
theorem importFromCSV_fallback (c : OrgChart) (ctr : Nat) (rows : List Row) :
    (c.root = none → importFromCSV c ctr rows = (c, false, [], ctr)) ∧
    (∀ snap r rootE, serializeOrg c = some snap → c.root = some r →
      get c.employees r = some rootE → KeysBelow c.employees ctr →
      ∀ row ∈ rows, jsTrim row.name ≠ "" → jsTrim row.title ≠ "" →
      ((jsTrim row.managerName = "" →
        (importFromCSV c ctr rows).2.1 = true ∧
        ∃ idn e, get (importFromCSV c ctr rows).1.employees idn = some e ∧
          e.name = jsTrim row.name ∧ e.title = jsTrim row.title ∧
          e.lob = jsTrim row.lob ∧ e.division = jsTrim row.division ∧
          e.dept = jsTrim row.dept ∧ e.email = jsTrim row.email ∧
          e.manager = some r ∧ e.level = rootE.level + 1) ∧
       (jsTrim row.managerName ≠ "" →
        NameAbsent c.employees (jsToLower (jsTrim row.managerName)) →
        (∀ q ∈ rows, jsToLower (jsTrim q.name) ≠ jsToLower (jsTrim row.managerName)) →
        (importFromCSV c ctr rows).2.1 = true ∧
        normalizeRow row ∈ (importFromCSV c ctr rows).2.2.1 ∧
        NameAbsent (importFromCSV c ctr rows).1.employees
          (jsToLower (jsTrim row.managerName))))) := by
  constructor
  · intro h
    cases rows with
    | nil => rfl
    | cons x xs => simp [importFromCSV, serializeOrg, h]
  · intro snap r rootE hs hroot hrootE hk row hrow hname htitle
    have hne : rows.isEmpty = false := by
      cases rows with
      | nil => exact absurd hrow (List.not_mem_nil row)
      | cons x xs => rfl
    have hunfold : importFromCSV c ctr rows =
        ((importLoop (pushState c) ctr (rows.length + 1) (rows.map normalizeRow)).1, true,
         (importLoop (pushState c) ctr (rows.length + 1) (rows.map normalizeRow)).2.2,
         (importLoop (pushState c) ctr (rows.length + 1) (rows.map normalizeRow)).2.1) := by
      rw [importFromCSV, if_neg (by simp [hne]), hs]
    have hflag : (importFromCSV c ctr rows).2.1 = true := by rw [hunfold]
    have hkl : KeysBelow (pushState c).employees ctr := hk
    have hrootl : (pushState c).root = some r := hroot
    constructor
    · intro hmgr
      obtain ⟨idn, e, hg, b1, b2, b3, b4, b5, b6, b7, b8⟩ :=
        importLoop_adds r rootE.level rows.length (rows.map normalizeRow)
          (pushState c) ctr hkl hrootl ⟨rootE, hrootE, rfl⟩ (normalizeRow row)
          (List.mem_map.mpr ⟨row, hrow, rfl⟩) hname htitle hmgr
      refine ⟨hflag, idn, e, ?_, b1, b2, b3, b4, b5, b6, b7, b8⟩
      rw [hunfold]
      exact hg
    · intro hmgr habs hqnames
      have habs1 : NameAbsent (pushState c).employees (jsToLower (jsTrim row.managerName)) :=
        habs
      have hnames1 : ∀ q ∈ rows.map normalizeRow,
          jsToLower q.name ≠ jsToLower (jsTrim row.managerName) := by
        intro q hq
        obtain ⟨q0, hq0, hq0eq⟩ := List.mem_map.mp hq
        rw [← hq0eq]
        exact hqnames q0 hq0
      have hskip := importLoop_skips (jsToLower (jsTrim row.managerName)) (rows.length + 1)
        (rows.map normalizeRow) (pushState c) ctr hkl habs1 hnames1 (normalizeRow row)
        (List.mem_map.mpr ⟨row, hrow, rfl⟩) hname htitle hmgr rfl
      have hstep := importLoop_step (rows.length + 1) (rows.map normalizeRow)
        (pushState c) ctr hkl
      refine ⟨hflag, ?_, ?_⟩
      · rw [hunfold]
        exact hskip
      · intro p hp
        have hstore : NameAbsent
            (importLoop (pushState c) ctr (rows.length + 1) (rows.map normalizeRow)).1.employees
            (jsToLower (jsTrim row.managerName)) :=
          hstep.2.2.2.2 _ habs1 hnames1
        rw [hunfold] at hp
        exact hstore p hp

/-- Witness for C6 (amended), on a genuinely multi-record import: pushing the
two-row list [ghostRow, noMgrRow] into the sample rooted chart, the
manager-less row B is attached under the root with level 1 while the Ghost
row is reported back as a failed row; and importing the same list into the
empty (rootless) chart aborts with nothing imported. -/
theorem importFromCSV_fallback_witness :
    importFromCSV OrgChart.empty 10 [ghostRow, noMgrRow] = (OrgChart.empty, false, [], 10) ∧
    ((importFromCSV chartR 10 [ghostRow, noMgrRow]).2.1 = true ∧
      ∃ idn e, get (importFromCSV chartR 10 [ghostRow, noMgrRow]).1.employees idn = some e ∧
        e.name = jsTrim noMgrRow.name ∧ e.title = jsTrim noMgrRow.title ∧
        e.lob = jsTrim noMgrRow.lob ∧ e.division = jsTrim noMgrRow.division ∧
        e.dept = jsTrim noMgrRow.dept ∧ e.email = jsTrim noMgrRow.email ∧
        e.manager = some 0 ∧ e.level = 0 + 1) ∧
    ((importFromCSV chartR 10 [ghostRow, noMgrRow]).2.1 = true ∧
      normalizeRow ghostRow ∈ (importFromCSV chartR 10 [ghostRow, noMgrRow]).2.2.1 ∧
      NameAbsent (importFromCSV chartR 10 [ghostRow, noMgrRow]).1.employees
        (jsToLower (jsTrim ghostRow.managerName))) := by
  refine ⟨(importFromCSV_fallback OrgChart.empty 10 [ghostRow, noMgrRow]).1 rfl, ?_, ?_⟩
  · exact ((importFromCSV_fallback chartR 10 [ghostRow, noMgrRow]).2
      (PNode.node 0 "Root" "CEO" "" "" "" "" 0 PForest.nil) 0
      ⟨"Root", "CEO", "", "", "", "", none, [], 0⟩
      (by decide) (by decide) (by decide) (by decide) noMgrRow (by decide)
      (by decide) (by decide)).1 (by decide)
  · exact ((importFromCSV_fallback chartR 10 [ghostRow, noMgrRow]).2
      (PNode.node 0 "Root" "CEO" "" "" "" "" 0 PForest.nil) 0
      ⟨"Root", "CEO", "", "", "", "", none, [], 0⟩
      (by decide) (by decide) (by decide) (by decide) ghostRow (by decide)
      (by decide) (by decide)).2 (by decide) (by decide) (by decide)

/-- C5: importing the dependency-ordered records and the fully reversed
records into the same rooted starting chart succeeds in both orders and
produces identical serialized trees (the multi-pass loop defers a record
until its manager has been materialized). -/
theorem import_order_independent :
    (importFromCSV chartR 10 csvRows1).2.1 = true ∧
    (importFromCSV chartR 10 csvRows2).2.1 = true ∧
    (serializeOrg (importFromCSV chartR 10 csvRows1).1).isSome = true ∧
    serializeOrg (importFromCSV chartR 10 csvRows1).1 =
      serializeOrg (importFromCSV chartR 10 csvRows2).1 := by decide


mutual

theorem withDepths_shift (t : IdT) (a : Nat) :
    withDepths t (a + 1) = (withDepths t a).map (fun p => (p.1, p.2 + 1)) := by
  cases t with
  | node i ks =>
    rw [withDepths, withDepths, List.map_cons, withDepthsF_shift ks (a + 1)]

theorem withDepthsF_shift (ks : IdF) (a : Nat) :
    withDepthsF ks (a + 1) = (withDepthsF ks a).map (fun p => (p.1, p.2 + 1)) := by
  cases ks with
  | nil => rfl
  | cons h t =>
    rw [withDepthsF, withDepthsF, List.map_append, withDepths_shift h a,
      withDepthsF_shift t a]

end

mutual

theorem updateLevels_get (st : Store) (t : IdT) (hs : shapeOk st t = true)
    (hnd : t.ids.Nodup) :
    ∀ fuel, t.size ≤ fuel → ∀ lvl,
      (∀ j d, (j, d) ∈ withDepths t 0 →
          get (updateLevels st fuel t.tid lvl) j
            = (get st j).map (fun e => { e with level := lvl + d })) ∧
      (∀ j, j ∉ t.ids → get (updateLevels st fuel t.tid lvl) j = get st j) := by
  cases t with
  | node i ks =>
    intro fuel hfuel lvl
    rw [shapeOk] at hs
    cases hg : get st i with
    | none => rw [hg] at hs; simp at hs
    | some e =>
      rw [hg] at hs
      simp only [Bool.and_eq_true, beq_iff_eq] at hs
      cases fuel with
      | zero => simp [IdT.size] at hfuel
      | succ f =>
        have hkf : ks.size ≤ f := by
          have h1 : 1 + ks.size ≤ f + 1 := by simpa [IdT.size] using hfuel
          omega
        have hnd1 : (i :: ks.ids).Nodup := by rw [IdT.ids_node] at hnd; exact hnd
        have hine : i ∉ ks.ids := (List.nodup_cons.mp hnd1).1
        have hndks : ks.ids.Nodup := (List.nodup_cons.mp hnd1).2
        have hfr1 : ∀ j, j ≠ i →
            get (modify st i (fun x => { x with level := lvl })) j = get st j := by
          intro j hj
          rw [get_modify, if_neg hj]
        have hshape1 :
            shapeOkF (modify st i (fun x => { x with level := lvl })) ks = true := by
          rw [shapeOkF_congr st (modify st i (fun x => { x with level := lvl })) ks
            (fun j hj => by rw [hfr1 j (fun hji => hine (hji ▸ hj))])]
          exact hs.2
        have IH := updateLevelsF_get (modify st i (fun x => { x with level := lvl }))
          ks hshape1 hndks f hkf (lvl + 1)
        have hunf : updateLevels st (f + 1) i lvl
            = ks.kidIds.foldl (fun s rid => updateLevels s f rid (lvl + 1))
                (modify st i (fun x => { x with level := lvl })) := by
          rw [updateLevels, hg]
          show e.reports.foldl (fun s rid => updateLevels s f rid (lvl + 1))
              (modify st i (fun x => { x with level := lvl })) = _
          rw [hs.1]
        constructor
        · intro j d hmem
          show get (updateLevels st (f + 1) i lvl) j = _
          rw [hunf]
          rw [withDepths] at hmem
          rcases List.mem_cons.mp hmem with hji | htail
          · rw [Prod.mk.injEq] at hji
            obtain ⟨hj, hd⟩ := hji
            subst hj
            subst hd
            rw [IH.2 j hine, get_modify, if_pos rfl, hg]
            simp
          · rw [show (0 : Nat) + 1 = 0 + 1 from rfl, withDepthsF_shift ks 0] at htail
            obtain ⟨⟨j1, d1⟩, hmem1, heq⟩ := List.mem_map.mp htail
            rw [Prod.mk.injEq] at heq
            obtain ⟨hj1, hd1⟩ := heq
            subst hj1
            subst hd1
            have hjks : j1 ∈ ks.ids := by
              rw [← withDepthsF_map_fst ks 0]
              exact List.mem_map.mpr ⟨(j1, d1), hmem1, rfl⟩
            rw [IH.1 j1 d1 hmem1, hfr1 j1 (fun hji => hine (hji ▸ hjks))]
            have harith : lvl + 1 + d1 = lvl + (d1 + 1) := by omega
            rw [harith]
        · intro j hj
          show get (updateLevels st (f + 1) i lvl) j = _
          rw [hunf]
          rw [IdT.ids_node] at hj
          have hj1 : j ≠ i := fun hh => hj (by rw [hh]; exact List.mem_cons_self i ks.ids)
          have hj2 : j ∉ ks.ids := fun hh => hj (List.mem_cons_of_mem i hh)
          rw [IH.2 j hj2, hfr1 j hj1]

theorem updateLevelsF_get (st : Store) (ks : IdF) (hs : shapeOkF st ks = true)
    (hnd : ks.ids.Nodup) :
    ∀ fuel, ks.size ≤ fuel → ∀ lvl,
      (∀ j d, (j, d) ∈ withDepthsF ks 0 →
          get (ks.kidIds.foldl (fun s rid => updateLevels s fuel rid lvl) st) j
            = (get st j).map (fun e => { e with level := lvl + d })) ∧
      (∀ j, j ∉ ks.ids →
          get (ks.kidIds.foldl (fun s rid => updateLevels s fuel rid lvl) st) j
            = get st j) := by
  cases ks with
  | nil =>
    intro fuel hfuel lvl
    constructor
    · intro j d hmem
      simp [withDepthsF] at hmem
    · intro j hj
      rfl
  | cons h tl =>
    intro fuel hfuel lvl
    rw [shapeOkF, Bool.and_eq_true] at hs
    have hszh : h.size ≤ fuel := by
      have h1 : h.size + tl.size ≤ fuel := by simpa [IdF.size] using hfuel
      omega
    have hsztl : tl.size ≤ fuel := by
      have h1 : h.size + tl.size ≤ fuel := by simpa [IdF.size] using hfuel
      omega
    have hnd1 : (h.ids ++ tl.ids).Nodup := by rw [IdF.ids_cons] at hnd; exact hnd
    obtain ⟨hndh, hndtl, hdisj⟩ := List.nodup_append.mp hnd1
    have IHh := updateLevels_get st h hs.1 hndh fuel hszh lvl
    have hshtl : shapeOkF (updateLevels st fuel h.tid lvl) tl = true := by
      rw [shapeOkF_congr st (updateLevels st fuel h.tid lvl) tl
        (fun j hj => by rw [IHh.2 j (fun hh => (hdisj hh hj).elim)])]
      exact hs.2
    have IHtl := updateLevelsF_get (updateLevels st fuel h.tid lvl) tl hshtl hndtl
      fuel hsztl lvl
    have hunf : (IdF.cons h tl).kidIds.foldl (fun s rid => updateLevels s fuel rid lvl) st
        = tl.kidIds.foldl (fun s rid => updateLevels s fuel rid lvl)
            (updateLevels st fuel h.tid lvl) := rfl
    constructor
    · intro j d hmem
      rw [hunf]
      rw [withDepthsF] at hmem
      rcases List.mem_append.mp hmem with hmh | hmt
      · have hjh : j ∈ h.ids := by
          rw [← withDepths_map_fst h 0]
          exact List.mem_map.mpr ⟨(j, d), hmh, rfl⟩
        have hjtl : j ∉ tl.ids := fun hh => (hdisj hjh hh).elim
        rw [IHtl.2 j hjtl]
        exact IHh.1 j d hmh
      · have hjtl : j ∈ tl.ids := by
          rw [← withDepthsF_map_fst tl 0]
          exact List.mem_map.mpr ⟨(j, d), hmt, rfl⟩
        have hjh : j ∉ h.ids := fun hh => (hdisj hh hjtl).elim
        rw [IHtl.1 j d hmt, IHh.2 j hjh]
    · intro j hj
      rw [hunf]
      rw [IdF.ids_cons] at hj
      have hjh : j ∉ h.ids := fun hh => hj (List.mem_append.mpr (Or.inl hh))
      have hjtl : j ∉ tl.ids := fun hh => hj (List.mem_append.mpr (Or.inr hh))
      rw [IHtl.2 j hjtl, IHh.2 j hjh]

end


theorem pairs_fst_unique {α : Type} : ∀ (l : List (Nat × α)), (l.map Prod.fst).Nodup →
    ∀ (j : Nat) (d1 d2 : α), (j, d1) ∈ l → (j, d2) ∈ l → d1 = d2
  | [], _, j, d1, d2, h1, _ => by simp at h1
  | p :: rest, h, j, d1, d2, h1, h2 => by
    rw [List.map_cons, List.nodup_cons] at h
    rcases List.mem_cons.mp h1 with e1 | m1
    · rcases List.mem_cons.mp h2 with e2 | m2
      · have h3 : (j, d1) = (j, d2) := e1.trans e2.symm
        exact ((Prod.mk.injEq j d1 j d2).mp h3).2
      · have hj : j ∈ rest.map Prod.fst := List.mem_map.mpr ⟨(j, d2), m2, rfl⟩
        rw [← e1] at h
        exact absurd hj h.1
    · rcases List.mem_cons.mp h2 with e2 | m2
      · have hj : j ∈ rest.map Prod.fst := List.mem_map.mpr ⟨(j, d1), m1, rfl⟩
        rw [← e2] at h
        exact absurd hj h.1
      · exact pairs_fst_unique rest h.2 j d1 d2 m1 m2

theorem mem_ids_withDepths (t : IdT) (D : Nat) (j : Nat) (hj : j ∈ t.ids) :
    ∃ d, (j, d) ∈ withDepths t D := by
  rw [← withDepths_map_fst t D] at hj
  obtain ⟨⟨a, b⟩, hp, he⟩ := List.mem_map.mp hj
  have he' : a = j := he
  subst he'
  exact ⟨b, hp⟩

theorem withDepths_head (t : IdT) (D : Nat) : (t.tid, D) ∈ withDepths t D := by
  cases t with
  | node i ks =>
    rw [withDepths]
    exact List.mem_cons_self _ _

mutual

theorem withDepths_depth_ge (t : IdT) (D : Nat) :
    ∀ j d, (j, d) ∈ withDepths t D → D ≤ d := by
  cases t with
  | node i ks =>
    intro j d hm
    rw [withDepths] at hm
    rcases List.mem_cons.mp hm with e | m
    · obtain ⟨h1, h2⟩ := (Prod.mk.injEq j d i D).mp e
      omega
    · have := withDepthsF_depth_ge ks (D + 1) j d m
      omega

theorem withDepthsF_depth_ge (ks : IdF) (D : Nat) :
    ∀ j d, (j, d) ∈ withDepthsF ks D → D ≤ d := by
  cases ks with
  | nil => intro j d hm; simp [withDepthsF] at hm
  | cons h tl =>
    intro j d hm
    rw [withDepthsF] at hm
    rcases List.mem_append.mp hm with m | m
    · exact withDepths_depth_ge h D j d m
    · exact withDepthsF_depth_ge tl D j d m

end

mutual

theorem subtreeAt_withDepths (t : IdT) (a : Nat) (sub : IdT)
    (hsub : subtreeAt t a = some sub) :
    ∀ D, ∃ dA, (a, dA) ∈ withDepths t D ∧
      ∀ p ∈ withDepths sub dA, p ∈ withDepths t D := by
  cases t with
  | node i ks =>
    intro D
    rw [subtreeAt] at hsub
    by_cases hia : i = a
    · rw [if_pos hia] at hsub
      have hsub' : sub = IdT.node i ks := (Option.some.inj hsub).symm
      subst hsub'
      subst hia
      exact ⟨D, withDepths_head (IdT.node i ks) D, fun p hp => hp⟩
    · rw [if_neg hia] at hsub
      obtain ⟨dA, hmem, hsubset⟩ := subtreeAtF_withDepths ks a sub hsub (D + 1)
      refine ⟨dA, ?_, ?_⟩
      · rw [withDepths]
        exact List.mem_cons_of_mem _ hmem
      · intro p hp
        rw [withDepths]
        exact List.mem_cons_of_mem _ (hsubset p hp)

theorem subtreeAtF_withDepths (ks : IdF) (a : Nat) (sub : IdT)
    (hsub : subtreeAtF ks a = some sub) :
    ∀ D, ∃ dA, (a, dA) ∈ withDepthsF ks D ∧
      ∀ p ∈ withDepths sub dA, p ∈ withDepthsF ks D := by
  cases ks with
  | nil => simp [subtreeAtF] at hsub
  | cons h tl =>
    intro D
    rw [subtreeAtF] at hsub
    cases hh : subtreeAt h a with
    | some s =>
      rw [hh] at hsub
      have hs : s = sub := Option.some.inj hsub
      rw [hs] at hh
      obtain ⟨dA, hmem, hsubset⟩ := subtreeAt_withDepths h a sub hh D
      refine ⟨dA, ?_, ?_⟩
      · rw [withDepthsF]
        exact List.mem_append.mpr (Or.inl hmem)
      · intro p hp
        rw [withDepthsF]
        exact List.mem_append.mpr (Or.inl (hsubset p hp))
    | none =>
      rw [hh] at hsub
      obtain ⟨dA, hmem, hsubset⟩ := subtreeAtF_withDepths tl a sub hsub D
      refine ⟨dA, ?_, ?_⟩
      · rw [withDepthsF]
        exact List.mem_append.mpr (Or.inr hmem)
      · intro p hp
        rw [withDepthsF]
        exact List.mem_append.mpr (Or.inr (hsubset p hp))

end

mutual

theorem mgrsOk_depth (st : Store) (t : IdT) (mgr : Option Nat)
    (hm : mgrsOk st t mgr = true) :
    ∀ D j d, (j, d) ∈ withDepths t D →
      ∃ e, get st j = some e ∧
        ((j = t.tid ∧ d = D ∧ e.manager = mgr) ∨
         (∃ p, e.manager = some p ∧ D + 1 ≤ d ∧ (p, d - 1) ∈ withDepths t D)) := by
  cases t with
  | node i ks =>
    intro D j d hmem
    rw [mgrsOk] at hm
    cases hg : get st i with
    | none => rw [hg] at hm; simp at hm
    | some e =>
      rw [hg] at hm
      simp only [Bool.and_eq_true, beq_iff_eq] at hm
      rw [withDepths] at hmem
      rcases List.mem_cons.mp hmem with e1 | m1
      · obtain ⟨hj, hd⟩ := (Prod.mk.injEq j d i D).mp e1
        subst hj
        subst hd
        exact ⟨e, hg, Or.inl ⟨rfl, rfl, hm.1⟩⟩
      · obtain ⟨e2, hge2, hcase⟩ := mgrsOkF_depth st ks i hm.2 (D + 1) j d m1
        refine ⟨e2, hge2, Or.inr ?_⟩
        rcases hcase with ⟨hd, hmgr⟩ | ⟨p, hmgr, hle, hp⟩
        · refine ⟨i, hmgr, ?_, ?_⟩
          · omega
          · have hd1 : d - 1 = D := by omega
            rw [hd1, withDepths]
            exact List.mem_cons_self _ _
        · refine ⟨p, hmgr, by omega, ?_⟩
          rw [withDepths]
          exact List.mem_cons_of_mem _ hp

theorem mgrsOkF_depth (st : Store) (ks : IdF) (q : Nat)
    (hm : mgrsOkF st ks (some q) = true) :
    ∀ D j d, (j, d) ∈ withDepthsF ks D →
      ∃ e, get st j = some e ∧
        ((d = D ∧ e.manager = some q) ∨
         (∃ p, e.manager = some p ∧ D + 1 ≤ d ∧ (p, d - 1) ∈ withDepthsF ks D)) := by
  cases ks with
  | nil => intro D j d hmem; simp [withDepthsF] at hmem
  | cons h tl =>
    intro D j d hmem
    rw [mgrsOkF, Bool.and_eq_true] at hm
    rw [withDepthsF] at hmem
    rcases List.mem_append.mp hmem with m1 | m1
    · obtain ⟨e2, hge2, hcase⟩ := mgrsOk_depth st h (some q) hm.1 D j d m1
      refine ⟨e2, hge2, ?_⟩
      rcases hcase with ⟨_, hd, hmgr⟩ | ⟨p, hmgr, hle, hp⟩
      · exact Or.inl ⟨hd, hmgr⟩
      · refine Or.inr ⟨p, hmgr, hle, ?_⟩
        rw [withDepthsF]
        exact List.mem_append.mpr (Or.inl hp)
    · obtain ⟨e2, hge2, hcase⟩ := mgrsOkF_depth st tl q hm.2 D j d m1
      refine ⟨e2, hge2, ?_⟩
      rcases hcase with ⟨hd, hmgr⟩ | ⟨p, hmgr, hle, hp⟩
      · exact Or.inl ⟨hd, hmgr⟩
      · refine Or.inr ⟨p, hmgr, hle, ?_⟩
        rw [withDepthsF]
        exact List.mem_append.mpr (Or.inr hp)

end


/-- C3: on a well-formed chart, `moveSubtree(A, B)` with both ids present
fails exactly when `B` lies in `A`'s subtree (including `B = A`, and the
root case, whose subtree is the whole tree); otherwise it succeeds, sets
`A`'s manager to `B`, and recomputes the level of every node of `A`'s
subtree to `B.level + 1` plus its depth below `A`. -/
theorem moveSubtree_spec (c : OrgChart) (r : Nat) (t : IdT) (w : WfAt c r t)
    (A B : Nat) (hA : A ∈ t.ids) (hB : B ∈ t.ids) (sub : IdT)
    (hsub : subtreeAt t A = some sub) :
    ((moveSubtree c A B).2 = false ↔ B ∈ sub.ids) ∧
    (B ∉ sub.ids →
      (moveSubtree c A B).2 = true ∧
      ∃ bE, get c.employees B = some bE ∧
        (get (moveSubtree c A B).1.employees A).map Employee.manager = some (some B) ∧
        ∀ j d, (j, d) ∈ withDepths sub 0 →
          (get (moveSubtree c A B).1.employees j).map Employee.level
            = some (bE.level + 1 + d)) := by
  obtain ⟨emp, hgA⟩ := Option.isSome_iff_exists.mp
    (shapeOk_get_isSome c.employees t w.shape A hA)
  obtain ⟨bE, hgB⟩ := Option.isSome_iff_exists.mp
    (shapeOk_get_isSome c.employees t w.shape B hB)
  have hsubtid : sub.tid = A := subtreeAt_tid t A sub hsub
  have hAsub : A ∈ sub.ids := hsubtid ▸ IdT.mem_ids_self sub
  have hshs : shapeOk c.employees sub = true :=
    subtreeAt_shapeOk c.employees t A sub w.shape hsub
  have hndsub : sub.ids.Nodup := subtreeAt_nodup t A sub w.nodup hsub
  have hfuel : sub.size ≤ c.employees.length + 1 := by
    have h1 : sub.ids.length ≤ t.ids.length :=
      nodup_subset_length sub.ids t.ids hndsub (subtreeAt_ids_subset t A sub hsub)
    have h2 := wfAt_size_le c r t w
    rw [IdT.size_eq_length] at h2
    rw [IdT.size_eq_length]
    omega
  have hdesc_iff :
      isDescendant c.employees (c.employees.length + 1) A B = true ↔
        B ∈ sub.properIds := by
    have h1 := isDescendant_iff c.employees sub B hshs (c.employees.length + 1) hfuel
    rw [hsubtid] at h1
    exact h1
  have hmem_iff : B ∈ sub.ids ↔ B = A ∨ B ∈ sub.properIds := by
    rw [IdT.ids_eq sub, hsubtid, List.mem_cons]
  by_cases hrA : c.root = some A
  · have hsubt : sub = t := by
      have ht : subtreeAt t A = some t := by
        cases t with
        | node i ks =>
          have hti : i = A := by
            have h1 : i = r := w.tid_eq
            have h2 : r = A := Option.some.inj ((w.root_eq).symm.trans hrA)
            rw [h1, h2]
          rw [subtreeAt, if_pos hti]
      exact Option.some.inj (hsub.symm.trans ht)
    have hBsub : B ∈ sub.ids := by rw [hsubt]; exact hB
    have hres : moveSubtree c A B = (c, false) := by
      simp only [moveSubtree, hgA, hgB]
      rw [if_pos hrA]
    constructor
    · rw [hres]
      exact ⟨fun _ => hBsub, fun _ => rfl⟩
    · intro hBn
      exact absurd hBsub hBn
  · by_cases hcond : A = B ∨ isDescendant c.employees (c.employees.length + 1) A B = true
    · have hBsub : B ∈ sub.ids := by
        rw [hmem_iff]
        rcases hcond with h | h
        · exact Or.inl h.symm
        · exact Or.inr (hdesc_iff.mp h)
      have hcond1 :
          (decide (A = B) || isDescendant c.employees (c.employees.length + 1) A B)
            = true := by
        simp only [Bool.or_eq_true, decide_eq_true_eq]
        exact hcond
      have hres : moveSubtree c A B = (c, false) := by
        simp only [moveSubtree, hgA, hgB]
        rw [if_neg hrA, if_pos hcond1]
      constructor
      · rw [hres]
        exact ⟨fun _ => hBsub, fun _ => rfl⟩
      · intro hBn
        exact absurd hBsub hBn
    · have hAB : ¬ A = B := fun h => hcond (Or.inl h)
      have hBA : ¬ B = A := fun h => hAB h.symm
      have hBn : B ∉ sub.ids := by
        rw [hmem_iff]
        rintro (h | h)
        · exact hBA h
        · exact hcond (Or.inr (hdesc_iff.mpr h))
      have hcond2 :
          ¬ ((decide (A = B) || isDescendant c.employees (c.employees.length + 1) A B)
            = true) := by
        simp only [Bool.or_eq_true, decide_eq_true_eq]
        rintro (h | h)
        · exact hAB h
        · exact hcond (Or.inr h)
      -- A is not the root, hence it has a stored manager m lying outside its subtree
      have htidA : ¬ A = t.tid := by
        intro h
        apply hrA
        rw [w.root_eq, ← w.tid_eq, h]
      obtain ⟨dA0, hdA0, hsubset0⟩ := subtreeAt_withDepths t A sub hsub 0
      obtain ⟨e0, hge0, hcases⟩ := mgrsOk_depth c.employees t none w.mgrs 0 A dA0 hdA0
      have he0 : e0 = emp := Option.some.inj ((hge0).symm.trans hgA)
      subst he0
      rcases hcases with ⟨hAt, _, _⟩ | ⟨m, hman, hdge, hmpair⟩
      · exact absurd hAt htidA
      have hndt : ((withDepths t 0).map Prod.fst).Nodup := by
        rw [withDepths_map_fst]
        exact w.nodup
      have hmnot : m ∉ sub.ids := by
        intro hmS
        obtain ⟨dm, hdm⟩ := mem_ids_withDepths sub dA0 m hmS
        have h1 : dA0 ≤ dm := withDepths_depth_ge sub dA0 m dm hdm
        have h2 : (m, dm) ∈ withDepths t 0 := hsubset0 (m, dm) hdm
        have h3 : dm = dA0 - 1 :=
          pairs_fst_unique (withDepths t 0) hndt m dm (dA0 - 1) h2 hmpair
        omega
      have hmA : ¬ A = m := fun h => hmnot (by rw [← h]; exact hAsub)
      -- the intermediate stores
      obtain ⟨nmE, hget1B, hnmlvl⟩ :
          ∃ nmE, get (modify c.employees m
              (fun e => { e with reports := e.reports.filter (fun r => r != A) })) B
            = some nmE ∧ nmE.level = bE.level := by
        rw [get_modify]
        by_cases hBm : B = m
        · rw [if_pos hBm, ← hBm, hgB]
          exact ⟨_, rfl, rfl⟩
        · rw [if_neg hBm, hgB]
          exact ⟨bE, rfl, rfl⟩
      have hgetStAB : get (modify (modify c.employees m
            (fun e => { e with reports := e.reports.filter (fun r => r != A) })) A
            (fun e => { e with manager := some B, level := nmE.level + 1 })) B
          = some nmE := by
        rw [get_modify, if_neg hBA]
        exact hget1B
      have hget2B : get (modify (modify (modify c.employees m
            (fun e => { e with reports := e.reports.filter (fun r => r != A) })) A
            (fun e => { e with manager := some B, level := nmE.level + 1 })) B
            (fun e => { e with reports := e.reports ++ [A] })) B
          = some { nmE with reports := nmE.reports ++ [A] } := by
        rw [get_modify, if_pos rfl, hgetStAB]
        rfl
      have hkey : (moveSubtree c A B).1.employees
            = updateLevels (modify (modify (modify c.employees m
                (fun e => { e with reports := e.reports.filter (fun r => r != A) })) A
                (fun e => { e with manager := some B, level := nmE.level + 1 })) B
                (fun e => { e with reports := e.reports ++ [A] }))
              (c.employees.length + 1) A (nmE.level + 1)
          ∧ (moveSubtree c A B).2 = true := by
        constructor
        · simp only [moveSubtree, hgA, hgB]
          rw [if_neg hrA, if_neg hcond2]
          simp only [show (pushState c).employees = c.employees from rfl, hman,
            hget1B, hget2B]
        · simp only [moveSubtree, hgA, hgB]
          rw [if_neg hrA, if_neg hcond2]
      -- shape of the subtree is unchanged in the pre-updateLevels store
      have hg2A : get (modify (modify (modify c.employees m
            (fun e => { e with reports := e.reports.filter (fun r => r != A) })) A
            (fun e => { e with manager := some B, level := nmE.level + 1 })) B
            (fun e => { e with reports := e.reports ++ [A] })) A
          = some { e0 with manager := some B, level := nmE.level + 1 } := by
        rw [get_modify, if_neg hAB, get_modify, if_pos rfl, get_modify, if_neg hmA, hgA]
        rfl
      have hsh2 : shapeOk (modify (modify (modify c.employees m
            (fun e => { e with reports := e.reports.filter (fun r => r != A) })) A
            (fun e => { e with manager := some B, level := nmE.level + 1 })) B
            (fun e => { e with reports := e.reports ++ [A] })) sub = true := by
        rw [shapeOk_congr c.employees _ sub ?hpw]
        · exact hshs
        case hpw =>
          intro j hj
          rw [get_modify, if_neg (fun h : j = B => hBn (h ▸ hj))]
          by_cases hjA : j = A
          · rw [get_modify, if_pos hjA, get_modify, if_neg hmA, hjA, hgA]
            rfl
          · rw [get_modify, if_neg hjA, get_modify,
              if_neg (fun h : j = m => hmnot (h ▸ hj))]
      have hul := updateLevels_get (modify (modify (modify c.employees m
          (fun e => { e with reports := e.reports.filter (fun r => r != A) })) A
          (fun e => { e with manager := some B, level := nmE.level + 1 })) B
          (fun e => { e with reports := e.reports ++ [A] })) sub hsh2 hndsub
        (c.employees.length + 1) hfuel (nmE.level + 1)
      rw [hsubtid] at hul
      constructor
      · rw [hkey.2]
        constructor
        · intro h
          simp at h
        · intro h
          exact absurd h hBn
      · intro _
        refine ⟨hkey.2, bE, hgB, ?_, ?_⟩
        · rw [hkey.1]
          rw [hul.1 A 0 (hsubtid ▸ withDepths_head sub 0), hg2A]
          rfl
        · intro j d hjd
          rw [hkey.1]
          rw [hul.1 j d hjd]
          have hjsub : j ∈ sub.ids := by
            rw [← withDepths_map_fst sub 0]
            exact List.mem_map.mpr ⟨(j, d), hjd, rfl⟩
          obtain ⟨x, hx⟩ := Option.isSome_iff_exists.mp
            (shapeOk_get_isSome _ sub hsh2 j hjsub)
          rw [hx]
          simp [hnmlvl]


/-- Witness for C3: on the four-member sample chart, moving member `2`
under member `3` (a sibling) succeeds and relevels, and the failure side of
the characterization is exercised by the subtree membership test. -/
theorem moveSubtree_spec_witness :
    ((moveSubtree chartM 2 3).2 = false ↔ 3 ∈ (IdT.node 2 IdF.nil).ids) ∧
    (3 ∉ (IdT.node 2 IdF.nil).ids →
      (moveSubtree chartM 2 3).2 = true ∧
      ∃ bE, get chartM.employees 3 = some bE ∧
        (get (moveSubtree chartM 2 3).1.employees 2).map Employee.manager
          = some (some 3) ∧
        ∀ j d, (j, d) ∈ withDepths (IdT.node 2 IdF.nil) 0 →
          (get (moveSubtree chartM 2 3).1.employees j).map Employee.level
            = some (bE.level + 1 + d)) :=
  moveSubtree_spec chartM 0 spineM
    ⟨by decide, by decide, by decide, by decide, by decide, by decide, by decide,
      by decide⟩
    2 3 (by decide) (by decide) (IdT.node 2 IdF.nil) (by decide)


/-- C9: the cycle guard compares ids, so it still works on a chart
reconstructed from a snapshot (`_loadSnapshot` of `_serializeOrg`, giving
fresh member records carrying the original ids): moving any member `A`
under any `B` inside `A`'s own subtree is rejected. -/
theorem moveSubtree_id_guard_after_reload (c : OrgChart) (r : Nat) (t : IdT)
    (w : WfAt c r t) (A B : Nat) (sub : IdT)
    (hsub : subtreeAt t A = some sub) (hB : B ∈ sub.ids) :
    (moveSubtree (loadSnapshot c (serializeOrg c)) A B).2 = false := by
  have w' := wfAt_loadSnapshot c r t w
  have hsubtid : sub.tid = A := subtreeAt_tid t A sub hsub
  have hAt : A ∈ t.ids :=
    subtreeAt_ids_subset t A sub hsub (hsubtid ▸ IdT.mem_ids_self sub)
  have hBt : B ∈ t.ids := subtreeAt_ids_subset t A sub hsub hB
  obtain ⟨emp, hgA⟩ := Option.isSome_iff_exists.mp
    (shapeOk_get_isSome (loadSnapshot c (serializeOrg c)).employees t w'.shape A hAt)
  obtain ⟨bE, hgB⟩ := Option.isSome_iff_exists.mp
    (shapeOk_get_isSome (loadSnapshot c (serializeOrg c)).employees t w'.shape B hBt)
  have hshs : shapeOk (loadSnapshot c (serializeOrg c)).employees sub = true :=
    subtreeAt_shapeOk (loadSnapshot c (serializeOrg c)).employees t A sub w'.shape hsub
  have hndsub : sub.ids.Nodup := subtreeAt_nodup t A sub w'.nodup hsub
  have hfuel : sub.size ≤ (loadSnapshot c (serializeOrg c)).employees.length + 1 := by
    have h1 : sub.ids.length ≤ t.ids.length :=
      nodup_subset_length sub.ids t.ids hndsub (subtreeAt_ids_subset t A sub hsub)
    have h2 := wfAt_size_le (loadSnapshot c (serializeOrg c)) r t w'
    rw [IdT.size_eq_length] at h2
    rw [IdT.size_eq_length]
    omega
  have hdesc_iff :
      isDescendant (loadSnapshot c (serializeOrg c)).employees
          ((loadSnapshot c (serializeOrg c)).employees.length + 1) A B = true ↔
        B ∈ sub.properIds := by
    have h1 := isDescendant_iff (loadSnapshot c (serializeOrg c)).employees sub B hshs
      ((loadSnapshot c (serializeOrg c)).employees.length + 1) hfuel
    rw [hsubtid] at h1
    exact h1
  have hBsplit : B = A ∨ B ∈ sub.properIds := by
    rw [IdT.ids_eq sub, hsubtid, List.mem_cons] at hB
    exact hB
  by_cases hrA : (loadSnapshot c (serializeOrg c)).root = some A
  · simp only [moveSubtree, hgA, hgB]
    rw [if_pos hrA]
  · have hcond1 :
        (decide (A = B) || isDescendant (loadSnapshot c (serializeOrg c)).employees
            ((loadSnapshot c (serializeOrg c)).employees.length + 1) A B) = true := by
      simp only [Bool.or_eq_true, decide_eq_true_eq]
      rcases hBsplit with h | h
      · exact Or.inl h.symm
      · exact Or.inr (hdesc_iff.mpr h)
    simp only [moveSubtree, hgA, hgB]
    rw [if_neg hrA, if_pos hcond1]

/-- Witness for C9: after a serialize/reload round-trip of the three-member
sample chart, moving member `1` under its own report `2` is rejected. -/
theorem moveSubtree_id_guard_after_reload_witness :
    (moveSubtree (loadSnapshot chartRAB (serializeOrg chartRAB)) 1 2).2 = false :=
  moveSubtree_id_guard_after_reload chartRAB 0 spineRAB
    ⟨by decide, by decide, by decide, by decide, by decide, by decide, by decide,
      by decide⟩
    1 2 (IdT.node 1 (IdF.cons (IdT.node 2 IdF.nil) IdF.nil)) (by decide) (by decide)


theorem loadSnapshot_future (x : OrgChart) (s : Option PNode) :
    (loadSnapshot x s).future = x.future := by
  cases s with
  | none => rfl
  | some p => rfl

theorem loadSnapshot_history (x : OrgChart) (s : Option PNode) :
    (loadSnapshot x s).history = x.history := by
  cases s with
  | none => rfl
  | some p => rfl

theorem loadSnapshot_congr (x y : OrgChart) (s : Option PNode) :
    (loadSnapshot x s).employees = (loadSnapshot y s).employees ∧
    (loadSnapshot x s).root = (loadSnapshot y s).root := by
  cases s with
  | none => exact ⟨rfl, rfl⟩
  | some p => exact ⟨rfl, rfl⟩

theorem serializeOrg_loadSnapshot_congr (x y : OrgChart) (s : Option PNode) :
    serializeOrg (loadSnapshot x s) = serializeOrg (loadSnapshot y s) := by
  cases s with
  | none => rfl
  | some p => rfl

/-- C2 (amended): `pushState` snapshots the pre-mutation state, so after a
successful snapshot-first mutation M (which leaves `history = serializeOrg S
:: old history` and `future = []`), `undo()` succeeds but loads the snapshot
that was on top *before* M — the state before the previous mutation — and
`redo()` after that undo succeeds but reloads the pre-M serialized tree, never
M's result; any chart whose `future` stack is empty, as after every fresh
mutation, fails `redo()`. -/
theorem undo_redo_behavior (c c2 : OrgChart) (r : Nat) (t : IdT) (w : WfAt c r t)
    (hh : c2.history = serializeOrg c :: c.history) (hf : c2.future = [])
    (h0 : Option PNode) (rest : List (Option PNode))
    (hprev : c.history = h0 :: rest)
    (c3 : OrgChart) (hf3 : c3.future = []) :
    (undo c2).2 = true ∧
    (undo c2).1.employees = (loadSnapshot c h0).employees ∧
    (undo c2).1.root = (loadSnapshot c h0).root ∧
    (redo (undo c2).1).2 = true ∧
    serializeOrg (redo (undo c2).1).1 = serializeOrg c ∧
    (redo c3).2 = false := by
  have hu : undo c2 = (loadSnapshot { c2 with history := h0 :: rest, future := serializeOrg c :: c2.future } h0, true) := by
    simp only [undo, hh, hprev]
  have hfu : (undo c2).1.future = [serializeOrg c] := by
    rw [hu]
    show (loadSnapshot { c2 with history := h0 :: rest, future := serializeOrg c :: c2.future } h0).future = [serializeOrg c]
    rw [loadSnapshot_future]
    show serializeOrg c :: c2.future = [serializeOrg c]
    rw [hf]
  have hr : redo (undo c2).1 = (loadSnapshot { (undo c2).1 with history := serializeOrg c :: (undo c2).1.history, future := [] } (serializeOrg c), true) := by
    simp only [redo, hfu]
  refine ⟨by rw [hu], ?_, ?_, by rw [hr], ?_, ?_⟩
  · rw [hu]
    exact (loadSnapshot_congr _ c h0).1
  · rw [hu]
    exact (loadSnapshot_congr _ c h0).2
  · rw [hr]
    show serializeOrg (loadSnapshot _ (serializeOrg c)) = serializeOrg c
    rw [serializeOrg_loadSnapshot_congr _ c (serializeOrg c)]
    exact serializeOrg_loadSnapshot c r t w
  · simp only [redo, hf3]

/-- Witness for C2 (amended): on the three-member sample chart, move member
`2` under the root (a successful mutation), undo, redo, and then add a fresh
member after an undo to see `redo()` fail. -/
theorem undo_redo_behavior_witness :
    (undo (moveSubtree chartRAB 2 0).1).2 = true ∧
    (undo (moveSubtree chartRAB 2 0).1).1.employees
      = (loadSnapshot chartRAB (serializeOrg chartRA)).employees ∧
    (undo (moveSubtree chartRAB 2 0).1).1.root
      = (loadSnapshot chartRAB (serializeOrg chartRA)).root ∧
    (redo (undo (moveSubtree chartRAB 2 0).1).1).2 = true ∧
    serializeOrg (redo (undo (moveSubtree chartRAB 2 0).1).1).1
      = serializeOrg chartRAB ∧
    (redo (addEmployee (undo (moveSubtree chartRAB 2 0).1).1 9
        "Nia" "Analyst" none "" "" "" "").1).2 = false :=
  undo_redo_behavior chartRAB (moveSubtree chartRAB 2 0).1 0 spineRAB
    ⟨by decide, by decide, by decide, by decide, by decide, by decide, by decide,
      by decide⟩
    (by decide) (by decide) (serializeOrg chartRA) chartRA.history (by decide)
    (addEmployee (undo (moveSubtree chartRAB 2 0).1).1 9
        "Nia" "Analyst" none "" "" "" "").1 (by decide)


theorem mem_keys_iff (st : Store) (j : Nat) :
    j ∈ keys st ↔ (get st j).isSome = true := by
  induction st with
  | nil => simp [keys, get]
  | cons p rest ih =>
    obtain ⟨k, e⟩ := p
    by_cases h : k = j
    · subst h
      simp [keys, get]
    · have h' : ¬ k = j := h
      simp only [keys, List.map_cons, List.mem_cons, get, if_neg h']
      rw [← keys] at *
      constructor
      · intro hh
        rcases hh with hh | hh
        · exact absurd hh.symm h'
        · exact ih.mp hh
      · intro hh
        exact Or.inr (ih.mpr hh)

mutual

theorem parentPairs_map_fst (t : IdT) (mgr : Option Nat) :
    (parentPairs t mgr).map Prod.fst = t.ids := by
  cases t with
  | node i ks =>
    simp [parentPairs, IdT.ids, parentPairsF_map_fst ks (some i)]

theorem parentPairsF_map_fst (ks : IdF) (mgr : Option Nat) :
    (parentPairsF ks mgr).map Prod.fst = ks.ids := by
  cases ks with
  | nil => rfl
  | cons h t =>
    simp [parentPairsF, IdF.ids, parentPairs_map_fst h mgr, parentPairsF_map_fst t mgr]

end

mutual

theorem reportPairs_map_fst (t : IdT) :
    (reportPairs t).map Prod.fst = t.ids := by
  cases t with
  | node i ks =>
    simp [reportPairs, IdT.ids, reportPairsF_map_fst ks]

theorem reportPairsF_map_fst (ks : IdF) :
    (reportPairsF ks).map Prod.fst = ks.ids := by
  cases ks with
  | nil => rfl
  | cons h t =>
    simp [reportPairsF, IdF.ids, reportPairs_map_fst h, reportPairsF_map_fst t]

end

mutual

theorem shapeOk_iff (st : Store) (t : IdT) :
    shapeOk st t = true ↔
      ∀ j rs, (j, rs) ∈ reportPairs t → ∃ e, get st j = some e ∧ e.reports = rs := by
  cases t with
  | node i ks =>
    rw [shapeOk, reportPairs]
    constructor
    · intro h j rs hm
      cases hg : get st i with
      | none => rw [hg] at h; simp at h
      | some e =>
        rw [hg] at h
        simp only [Bool.and_eq_true, beq_iff_eq] at h
        rcases List.mem_cons.mp hm with he | hm
        · obtain ⟨h1, h2⟩ := (Prod.mk.injEq j rs i ks.kidIds).mp he
          subst h1
          subst h2
          exact ⟨e, hg, h.1⟩
        · exact (shapeOkF_iff st ks).mp h.2 j rs hm
    · intro h
      obtain ⟨e, hg, hrep⟩ := h i ks.kidIds (List.mem_cons_self _ _)
      rw [hg]
      simp only [Bool.and_eq_true, beq_iff_eq]
      refine ⟨hrep, ?_⟩
      exact (shapeOkF_iff st ks).mpr (fun j rs hm => h j rs (List.mem_cons_of_mem _ hm))

theorem shapeOkF_iff (st : Store) (ks : IdF) :
    shapeOkF st ks = true ↔
      ∀ j rs, (j, rs) ∈ reportPairsF ks → ∃ e, get st j = some e ∧ e.reports = rs := by
  cases ks with
  | nil =>
    rw [shapeOkF]
    simp [reportPairsF]
  | cons h t =>
    rw [shapeOkF, Bool.and_eq_true, reportPairsF]
    rw [shapeOk_iff st h, shapeOkF_iff st t]
    constructor
    · intro hh j rs hm
      rcases List.mem_append.mp hm with hm | hm
      · exact hh.1 j rs hm
      · exact hh.2 j rs hm
    · intro hh
      constructor
      · intro j rs hm
        exact hh j rs (List.mem_append.mpr (Or.inl hm))
      · intro j rs hm
        exact hh j rs (List.mem_append.mpr (Or.inr hm))

end

mutual

theorem levelsOk_iff (st : Store) (t : IdT) (D : Nat) :
    levelsOk st t D = true ↔
      ∀ j d, (j, d) ∈ withDepths t D → ∃ e, get st j = some e ∧ e.level = d := by
  cases t with
  | node i ks =>
    rw [levelsOk, withDepths]
    constructor
    · intro h j d hm
      cases hg : get st i with
      | none => rw [hg] at h; simp at h
      | some e =>
        rw [hg] at h
        simp only [Bool.and_eq_true, beq_iff_eq] at h
        rcases List.mem_cons.mp hm with he | hm
        · obtain ⟨h1, h2⟩ := (Prod.mk.injEq j d i D).mp he
          subst h1
          subst h2
          exact ⟨e, hg, h.1⟩
        · exact (levelsOkF_iff st ks (D + 1)).mp h.2 j d hm
    · intro h
      obtain ⟨e, hg, hlvl⟩ := h i D (List.mem_cons_self _ _)
      rw [hg]
      simp only [Bool.and_eq_true, beq_iff_eq]
      refine ⟨hlvl, ?_⟩
      exact (levelsOkF_iff st ks (D + 1)).mpr
        (fun j d hm => h j d (List.mem_cons_of_mem _ hm))

theorem levelsOkF_iff (st : Store) (ks : IdF) (D : Nat) :
    levelsOkF st ks D = true ↔
      ∀ j d, (j, d) ∈ withDepthsF ks D → ∃ e, get st j = some e ∧ e.level = d := by
  cases ks with
  | nil =>
    rw [levelsOkF]
    simp [withDepthsF]
  | cons h t =>
    rw [levelsOkF, Bool.and_eq_true, withDepthsF]
    rw [levelsOk_iff st h D, levelsOkF_iff st t D]
    constructor
    · intro hh j d hm
      rcases List.mem_append.mp hm with hm | hm
      · exact hh.1 j d hm
      · exact hh.2 j d hm
    · intro hh
      constructor
      · intro j d hm
        exact hh j d (List.mem_append.mpr (Or.inl hm))
      · intro j d hm
        exact hh j d (List.mem_append.mpr (Or.inr hm))

end

mutual

theorem mgrsOk_iff (st : Store) (t : IdT) (mgr : Option Nat) :
    mgrsOk st t mgr = true ↔
      ∀ j q, (j, q) ∈ parentPairs t mgr → ∃ e, get st j = some e ∧ e.manager = q := by
  cases t with
  | node i ks =>
    rw [mgrsOk, parentPairs]
    constructor
    · intro h j q hm
      cases hg : get st i with
      | none => rw [hg] at h; simp at h
      | some e =>
        rw [hg] at h
        simp only [Bool.and_eq_true, beq_iff_eq] at h
        rcases List.mem_cons.mp hm with he | hm
        · obtain ⟨h1, h2⟩ := (Prod.mk.injEq j q i mgr).mp he
          subst h1
          subst h2
          exact ⟨e, hg, h.1⟩
        · exact (mgrsOkF_iff st ks (some i)).mp h.2 j q hm
    · intro h
      obtain ⟨e, hg, hmgr⟩ := h i mgr (List.mem_cons_self _ _)
      rw [hg]
      simp only [Bool.and_eq_true, beq_iff_eq]
      refine ⟨hmgr, ?_⟩
      exact (mgrsOkF_iff st ks (some i)).mpr
        (fun j q hm => h j q (List.mem_cons_of_mem _ hm))

theorem mgrsOkF_iff (st : Store) (ks : IdF) (mgr : Option Nat) :
    mgrsOkF st ks mgr = true ↔
      ∀ j q, (j, q) ∈ parentPairsF ks mgr → ∃ e, get st j = some e ∧ e.manager = q := by
  cases ks with
  | nil =>
    rw [mgrsOkF]
    simp [parentPairsF]
  | cons h t =>
    rw [mgrsOkF, Bool.and_eq_true, parentPairsF]
    rw [mgrsOk_iff st h mgr, mgrsOkF_iff st t mgr]
    constructor
    · intro hh j q hm
      rcases List.mem_append.mp hm with hm | hm
      · exact hh.1 j q hm
      · exact hh.2 j q hm
    · intro hh
      constructor
      · intro j q hm
        exact hh j q (List.mem_append.mpr (Or.inl hm))
      · intro j q hm
        exact hh j q (List.mem_append.mpr (Or.inr hm))

end


theorem IdF.ids_snoc : ∀ (ks : IdF) (s : IdT), (IdF.snoc ks s).ids = ks.ids ++ s.ids
  | .nil, s => by simp [IdF.snoc, IdF.ids]
  | .cons h t, s => by
    rw [IdF.snoc, IdF.ids_cons, IdF.ids_cons, IdF.ids_snoc t s, List.append_assoc]

theorem IdF.kidIds_snoc : ∀ (ks : IdF) (s : IdT),
    (IdF.snoc ks s).kidIds = ks.kidIds ++ [s.tid]
  | .nil, s => rfl
  | .cons h t, s => by
    rw [IdF.snoc, IdF.kidIds, IdF.kidIds, IdF.kidIds_snoc t s]
    rfl

theorem withDepthsF_snoc : ∀ (ks : IdF) (s : IdT) (D : Nat),
    withDepthsF (IdF.snoc ks s) D = withDepthsF ks D ++ withDepths s D
  | .nil, s, D => by simp [IdF.snoc, withDepthsF]
  | .cons h t, s, D => by
    rw [IdF.snoc, withDepthsF, withDepthsF, withDepthsF_snoc t s D, List.append_assoc]

theorem parentPairsF_snoc : ∀ (ks : IdF) (s : IdT) (mgr : Option Nat),
    parentPairsF (IdF.snoc ks s) mgr = parentPairsF ks mgr ++ parentPairs s mgr
  | .nil, s, mgr => by simp [IdF.snoc, parentPairsF]
  | .cons h t, s, mgr => by
    rw [IdF.snoc, parentPairsF, parentPairsF, parentPairsF_snoc t s mgr,
      List.append_assoc]

theorem reportPairsF_snoc : ∀ (ks : IdF) (s : IdT),
    reportPairsF (IdF.snoc ks s) = reportPairsF ks ++ reportPairs s
  | .nil, s => by simp [IdF.snoc, reportPairsF]
  | .cons h t, s => by
    rw [IdF.snoc, reportPairsF, reportPairsF, reportPairsF_snoc t s, List.append_assoc]

theorem graft_tid (t : IdT) (b : Nat) (s : IdT) : (graft t b s).tid = t.tid := by
  cases t with
  | node i ks =>
    rw [graft]
    by_cases h : i = b
    · rw [if_pos h]
      rfl
    · rw [if_neg h]
      rfl

theorem detach_tid (t : IdT) (a : Nat) : (detach t a).tid = t.tid := by
  cases t with
  | node i ks => rfl

mutual

theorem graft_not_mem (t : IdT) (b : Nat) (s : IdT) (hb : b ∉ t.ids) :
    graft t b s = t := by
  cases t with
  | node i ks =>
    rw [IdT.ids_node] at hb
    have h1 : ¬ i = b := fun h => hb (h ▸ List.mem_cons_self i ks.ids)
    have h2 : b ∉ ks.ids := fun h => hb (List.mem_cons_of_mem i h)
    rw [graft, if_neg h1, graftF_not_mem ks b s h2]

theorem graftF_not_mem (ks : IdF) (b : Nat) (s : IdT) (hb : b ∉ ks.ids) :
    graftF ks b s = ks := by
  cases ks with
  | nil => rfl
  | cons h t =>
    rw [IdF.ids_cons] at hb
    have h1 : b ∉ h.ids := fun hh => hb (List.mem_append.mpr (Or.inl hh))
    have h2 : b ∉ t.ids := fun hh => hb (List.mem_append.mpr (Or.inr hh))
    rw [graftF, graft_not_mem h b s h1, graftF_not_mem t b s h2]

end

mutual

theorem detach_not_mem (t : IdT) (a : Nat) (ha : a ∉ t.ids) : detach t a = t := by
  cases t with
  | node i ks =>
    rw [IdT.ids_node] at ha
    have h2 : a ∉ ks.ids := fun h => ha (List.mem_cons_of_mem i h)
    rw [detach, detachF_not_mem ks a h2]

theorem detachF_not_mem (ks : IdF) (a : Nat) (ha : a ∉ ks.ids) : detachF ks a = ks := by
  cases ks with
  | nil => rfl
  | cons h t =>
    rw [IdF.ids_cons] at ha
    have h1 : a ∉ h.ids := fun hh => ha (List.mem_append.mpr (Or.inl hh))
    have h2 : a ∉ t.ids := fun hh => ha (List.mem_append.mpr (Or.inr hh))
    have h3 : ¬ h.tid = a := fun hh => h1 (hh ▸ IdT.mem_ids_self h)
    rw [detachF, if_neg h3, detach_not_mem h a h1, detachF_not_mem t a h2]

end

theorem subtreeAt_mem (t : IdT) (a : Nat) (sub : IdT)
    (h : subtreeAt t a = some sub) : a ∈ t.ids :=
  subtreeAt_ids_subset t a sub h
    (by rw [← subtreeAt_tid t a sub h]; exact IdT.mem_ids_self sub)

theorem subtreeAtF_mem (ks : IdF) (a : Nat) (sub : IdT)
    (h : subtreeAtF ks a = some sub) : a ∈ ks.ids :=
  subtreeAtF_ids_subset ks a sub h
    (by rw [← subtreeAtF_tid ks a sub h]; exact IdT.mem_ids_self sub)

theorem kidIds_graftF : ∀ (ks : IdF) (b : Nat) (s : IdT),
    (graftF ks b s).kidIds = ks.kidIds
  | .nil, _, _ => rfl
  | .cons h t, b, s => by
    rw [graftF, IdF.kidIds, IdF.kidIds, kidIds_graftF t b s, graft_tid]

theorem kidIds_detachF : ∀ (ks : IdF) (a : Nat),
    (detachF ks a).kidIds = ks.kidIds.filter (fun r => r != a)
  | .nil, a => rfl
  | .cons h t, a => by
    rw [detachF]
    by_cases hh : h.tid = a
    · rw [if_pos hh, kidIds_detachF t a, IdF.kidIds, List.filter_cons]
      simp [hh]
    · rw [if_neg hh, IdF.kidIds, IdF.kidIds, kidIds_detachF t a, detach_tid,
        List.filter_cons]
      simp [hh]

mutual

theorem graft_ids_sub (t : IdT) (b : Nat) (s : IdT) :
    ∀ x, x ∈ (graft t b s).ids → x ∈ t.ids ∨ x ∈ s.ids := by
  cases t with
  | node i ks =>
    intro x hx
    rw [graft] at hx
    by_cases h : i = b
    · rw [if_pos h, IdT.ids_node, IdF.ids_snoc] at hx
      rcases List.mem_cons.mp hx with he | hm
      · exact Or.inl (he ▸ List.mem_cons_self i ks.ids)
      · rcases List.mem_append.mp hm with hm | hm
        · rcases graftF_ids_sub ks b s x hm with hm | hm
          · exact Or.inl (List.mem_cons_of_mem i hm)
          · exact Or.inr hm
        · exact Or.inr hm
    · rw [if_neg h, IdT.ids_node] at hx
      rcases List.mem_cons.mp hx with he | hm
      · exact Or.inl (he ▸ List.mem_cons_self i ks.ids)
      · rcases graftF_ids_sub ks b s x hm with hm | hm
        · exact Or.inl (List.mem_cons_of_mem i hm)
        · exact Or.inr hm

theorem graftF_ids_sub (ks : IdF) (b : Nat) (s : IdT) :
    ∀ x, x ∈ (graftF ks b s).ids → x ∈ ks.ids ∨ x ∈ s.ids := by
  cases ks with
  | nil => intro x hx; simp [graftF, IdF.ids] at hx
  | cons h t =>
    intro x hx
    rw [graftF, IdF.ids_cons] at hx
    rw [IdF.ids_cons]
    rcases List.mem_append.mp hx with hm | hm
    · rcases graft_ids_sub h b s x hm with hm | hm
      · exact Or.inl (List.mem_append.mpr (Or.inl hm))
      · exact Or.inr hm
    · rcases graftF_ids_sub t b s x hm with hm | hm
      · exact Or.inl (List.mem_append.mpr (Or.inr hm))
      · exact Or.inr hm

end

theorem removeReports_nil (st : Store) (nm : Option Nat) :
    removeReports st [] nm = st := by
  cases nm with
  | none => rfl
  | some x =>
    rw [removeReports]
    by_cases h : (get st x).isSome = true
    · rw [if_pos h]
      rfl
    · rw [if_neg h]
      rfl


mutual

theorem graft_withDepths (t : IdT) (b : Nat) (s : IdT)
    (hnd : t.ids.Nodup) (hb : b ∈ t.ids) :
    ∀ D db, (b, db) ∈ withDepths t D →
      ∀ x, x ∈ withDepths (graft t b s) D ↔
        (x ∈ withDepths t D ∨ x ∈ withDepths s (db + 1)) := by
  cases t with
  | node i ks =>
    intro D db hdb x
    have hnd1 : (i :: ks.ids).Nodup := by rw [IdT.ids_node] at hnd; exact hnd
    have hine : i ∉ ks.ids := (List.nodup_cons.mp hnd1).1
    have hndks : ks.ids.Nodup := (List.nodup_cons.mp hnd1).2
    rw [graft]
    by_cases hib : i = b
    · subst hib
      rw [if_pos rfl, graftF_not_mem ks i s hine]
      have hdbD : db = D := by
        rw [withDepths] at hdb
        rcases List.mem_cons.mp hdb with he | hm
        · exact ((Prod.mk.injEq i db i D).mp he).2
        · exfalso
          apply hine
          rw [← withDepthsF_map_fst ks (D + 1)]
          exact List.mem_map.mpr ⟨(i, db), hm, rfl⟩
      subst hdbD
      rw [withDepths, withDepths, withDepthsF_snoc]
      simp only [List.mem_cons, List.mem_append]
      tauto
    · rw [if_neg hib]
      have hbks : b ∈ ks.ids := by
        rw [IdT.ids_node] at hb
        rcases List.mem_cons.mp hb with h | h
        · exact absurd h.symm hib
        · exact h
      have hdbF : (b, db) ∈ withDepthsF ks (D + 1) := by
        rw [withDepths] at hdb
        rcases List.mem_cons.mp hdb with he | hm
        · exact absurd ((Prod.mk.injEq b db i D).mp he).1 (fun h => hib h.symm)
        · exact hm
      rw [withDepths, withDepths]
      simp only [List.mem_cons]
      rw [graftF_withDepths ks b s hndks hbks (D + 1) db hdbF x]
      tauto

theorem graftF_withDepths (ks : IdF) (b : Nat) (s : IdT)
    (hnd : ks.ids.Nodup) (hb : b ∈ ks.ids) :
    ∀ D db, (b, db) ∈ withDepthsF ks D →
      ∀ x, x ∈ withDepthsF (graftF ks b s) D ↔
        (x ∈ withDepthsF ks D ∨ x ∈ withDepths s (db + 1)) := by
  cases ks with
  | nil => intro D db hdb x; simp [IdF.ids] at hb
  | cons h tl =>
    intro D db hdb x
    have hnd1 : (h.ids ++ tl.ids).Nodup := by rw [IdF.ids_cons] at hnd; exact hnd
    obtain ⟨hndh, hndtl, hdisj⟩ := List.nodup_append.mp hnd1
    rw [graftF, withDepthsF, withDepthsF]
    rw [withDepthsF] at hdb
    have hbsplit : b ∈ h.ids ∨ b ∈ tl.ids := by
      rw [IdF.ids_cons, List.mem_append] at hb
      exact hb
    rcases hbsplit with hbh | hbtl
    · have hbtl' : b ∉ tl.ids := fun hh => (hdisj hbh hh).elim
      rw [graftF_not_mem tl b s hbtl']
      have hdbh : (b, db) ∈ withDepths h D := by
        rcases List.mem_append.mp hdb with hm | hm
        · exact hm
        · exfalso
          apply hbtl'
          rw [← withDepthsF_map_fst tl D]
          exact List.mem_map.mpr ⟨(b, db), hm, rfl⟩
      simp only [List.mem_append]
      rw [graft_withDepths h b s hndh hbh D db hdbh x]
      tauto
    · have hbh' : b ∉ h.ids := fun hh => (hdisj hh hbtl).elim
      rw [graft_not_mem h b s hbh']
      have hdbtl : (b, db) ∈ withDepthsF tl D := by
        rcases List.mem_append.mp hdb with hm | hm
        · exfalso
          apply hbh'
          rw [← withDepths_map_fst h D]
          exact List.mem_map.mpr ⟨(b, db), hm, rfl⟩
        · exact hm
      simp only [List.mem_append]
      rw [graftF_withDepths tl b s hndtl hbtl D db hdbtl x]
      tauto

end

mutual

theorem graft_parentPairs (t : IdT) (b : Nat) (s : IdT)
    (hnd : t.ids.Nodup) (hb : b ∈ t.ids) :
    ∀ mgr x, x ∈ parentPairs (graft t b s) mgr ↔
      (x ∈ parentPairs t mgr ∨ x ∈ parentPairs s (some b)) := by
  cases t with
  | node i ks =>
    intro mgr x
    have hnd1 : (i :: ks.ids).Nodup := by rw [IdT.ids_node] at hnd; exact hnd
    have hine : i ∉ ks.ids := (List.nodup_cons.mp hnd1).1
    have hndks : ks.ids.Nodup := (List.nodup_cons.mp hnd1).2
    rw [graft]
    by_cases hib : i = b
    · subst hib
      rw [if_pos rfl, graftF_not_mem ks i s hine]
      rw [parentPairs, parentPairs, parentPairsF_snoc]
      simp only [List.mem_cons, List.mem_append]
      tauto
    · rw [if_neg hib]
      have hbks : b ∈ ks.ids := by
        rw [IdT.ids_node] at hb
        rcases List.mem_cons.mp hb with h | h
        · exact absurd h.symm hib
        · exact h
      rw [parentPairs, parentPairs]
      simp only [List.mem_cons]
      rw [graftF_parentPairs ks b s hndks hbks (some i) x]
      tauto

theorem graftF_parentPairs (ks : IdF) (b : Nat) (s : IdT)
    (hnd : ks.ids.Nodup) (hb : b ∈ ks.ids) :
    ∀ mgr x, x ∈ parentPairsF (graftF ks b s) mgr ↔
      (x ∈ parentPairsF ks mgr ∨ x ∈ parentPairs s (some b)) := by
  cases ks with
  | nil => intro mgr x; simp [IdF.ids] at hb
  | cons h tl =>
    intro mgr x
    have hnd1 : (h.ids ++ tl.ids).Nodup := by rw [IdF.ids_cons] at hnd; exact hnd
    obtain ⟨hndh, hndtl, hdisj⟩ := List.nodup_append.mp hnd1
    rw [graftF, parentPairsF, parentPairsF]
    have hbsplit : b ∈ h.ids ∨ b ∈ tl.ids := by
      rw [IdF.ids_cons, List.mem_append] at hb
      exact hb
    rcases hbsplit with hbh | hbtl
    · have hbtl' : b ∉ tl.ids := fun hh => (hdisj hbh hh).elim
      rw [graftF_not_mem tl b s hbtl']
      simp only [List.mem_append]
      rw [graft_parentPairs h b s hndh hbh mgr x]
      tauto
    · have hbh' : b ∉ h.ids := fun hh => (hdisj hh hbtl).elim
      rw [graft_not_mem h b s hbh']
      simp only [List.mem_append]
      rw [graftF_parentPairs tl b s hndtl hbtl mgr x]
      tauto

end

mutual

theorem graft_reportPairs (t : IdT) (b : Nat) (s : IdT)
    (hnd : t.ids.Nodup) (hb : b ∈ t.ids) :
    ∀ j rs, (j, rs) ∈ reportPairs (graft t b s) ↔
      ((j = b ∧ ∃ rs0, (b, rs0) ∈ reportPairs t ∧ rs = rs0 ++ [s.tid]) ∨
       ((j, rs) ∈ reportPairs t ∧ j ≠ b) ∨
       (j, rs) ∈ reportPairs s) := by
  cases t with
  | node i ks =>
    intro j rs
    have hnd1 : (i :: ks.ids).Nodup := by rw [IdT.ids_node] at hnd; exact hnd
    have hine : i ∉ ks.ids := (List.nodup_cons.mp hnd1).1
    have hndks : ks.ids.Nodup := (List.nodup_cons.mp hnd1).2
    rw [graft]
    by_cases hib : i = b
    · subst hib
      rw [if_pos rfl, graftF_not_mem ks i s hine]
      rw [reportPairs, reportPairs, reportPairsF_snoc, IdF.kidIds_snoc]
      simp only [List.mem_cons, List.mem_append]
      constructor
      · rintro (he | hm | hm)
        · obtain ⟨h1, h2⟩ := (Prod.mk.injEq j rs i (ks.kidIds ++ [s.tid])).mp he
          exact Or.inl ⟨h1, ks.kidIds, Or.inl rfl, h2⟩
        · refine Or.inr (Or.inl ⟨Or.inr hm, ?_⟩)
          intro hji
          apply hine
          rw [← reportPairsF_map_fst ks]
          exact List.mem_map.mpr ⟨(j, rs), hm, hji⟩
        · exact Or.inr (Or.inr hm)
      · rintro (⟨hji, rs0, hrs0, hrs⟩ | ⟨hm, hji⟩ | hm)
        · subst hji
          rcases hrs0 with he | hm
          · obtain ⟨h1, h2⟩ := (Prod.mk.injEq j rs0 j ks.kidIds).mp he
            subst h2
            exact Or.inl (by rw [hrs])
          · exfalso
            apply hine
            rw [← reportPairsF_map_fst ks]
            exact List.mem_map.mpr ⟨(j, rs0), hm, rfl⟩
        · rcases hm with he | hm
          · obtain ⟨h1, _⟩ := (Prod.mk.injEq j rs i ks.kidIds).mp he
            exact absurd h1 hji
          · exact Or.inr (Or.inl hm)
        · exact Or.inr (Or.inr hm)
    · rw [if_neg hib]
      have hbks : b ∈ ks.ids := by
        rw [IdT.ids_node] at hb
        rcases List.mem_cons.mp hb with h | h
        · exact absurd h.symm hib
        · exact h
      rw [reportPairs, reportPairs, kidIds_graftF]
      simp only [List.mem_cons]
      rw [graftF_reportPairs ks b s hndks hbks j rs]
      constructor
      · rintro (he | hm)
        · obtain ⟨h1, h2⟩ := (Prod.mk.injEq j rs i ks.kidIds).mp he
          subst h1
          subst h2
          exact Or.inr (Or.inl ⟨Or.inl rfl, hib⟩)
        · rcases hm with ⟨hji, rs0, hrs0, hrs⟩ | ⟨hm, hji⟩ | hm
          · exact Or.inl ⟨hji, rs0, Or.inr hrs0, hrs⟩
          · exact Or.inr (Or.inl ⟨Or.inr hm, hji⟩)
          · exact Or.inr (Or.inr hm)
      · rintro (⟨hji, rs0, hrs0, hrs⟩ | ⟨hm, hji⟩ | hm)
        · subst hji
          rcases hrs0 with he | hm
          · exact absurd ((Prod.mk.injEq j rs0 i ks.kidIds).mp he).1.symm hib
          · exact Or.inr (Or.inl ⟨rfl, rs0, hm, hrs⟩)
        · rcases hm with he | hm
          · exact Or.inl he
          · exact Or.inr (Or.inr (Or.inl ⟨hm, hji⟩))
        · exact Or.inr (Or.inr (Or.inr hm))

theorem graftF_reportPairs (ks : IdF) (b : Nat) (s : IdT)
    (hnd : ks.ids.Nodup) (hb : b ∈ ks.ids) :
    ∀ j rs, (j, rs) ∈ reportPairsF (graftF ks b s) ↔
      ((j = b ∧ ∃ rs0, (b, rs0) ∈ reportPairsF ks ∧ rs = rs0 ++ [s.tid]) ∨
       ((j, rs) ∈ reportPairsF ks ∧ j ≠ b) ∨
       (j, rs) ∈ reportPairs s) := by
  cases ks with
  | nil => intro j rs; simp [IdF.ids] at hb
  | cons h tl =>
    intro j rs
    have hnd1 : (h.ids ++ tl.ids).Nodup := by rw [IdF.ids_cons] at hnd; exact hnd
    obtain ⟨hndh, hndtl, hdisj⟩ := List.nodup_append.mp hnd1
    rw [graftF, reportPairsF, reportPairsF]
    have hbsplit : b ∈ h.ids ∨ b ∈ tl.ids := by
      rw [IdF.ids_cons, List.mem_append] at hb
      exact hb
    rcases hbsplit with hbh | hbtl
    · have hbtl' : b ∉ tl.ids := fun hh => (hdisj hbh hh).elim
      rw [graftF_not_mem tl b s hbtl']
      simp only [List.mem_append]
      rw [graft_reportPairs h b s hndh hbh j rs]
      constructor
      · rintro (hm | hm)
        · rcases hm with ⟨hji, rs0, hrs0, hrs⟩ | ⟨hm, hji⟩ | hm
          · exact Or.inl ⟨hji, rs0, Or.inl hrs0, hrs⟩
          · exact Or.inr (Or.inl ⟨Or.inl hm, hji⟩)
          · exact Or.inr (Or.inr hm)
        · refine Or.inr (Or.inl ⟨Or.inr hm, ?_⟩)
          intro hji
          apply hbtl'
          rw [← reportPairsF_map_fst tl]
          exact List.mem_map.mpr ⟨(j, rs), hm, hji⟩
      · rintro (⟨hji, rs0, hrs0, hrs⟩ | ⟨hm, hji⟩ | hm)
        · subst hji
          rcases hrs0 with hm | hm
          · exact Or.inl (Or.inl ⟨rfl, rs0, hm, hrs⟩)
          · exfalso
            apply hbtl'
            rw [← reportPairsF_map_fst tl]
            exact List.mem_map.mpr ⟨(j, rs0), hm, rfl⟩
        · rcases hm with hm | hm
          · exact Or.inl (Or.inr (Or.inl ⟨hm, hji⟩))
          · exact Or.inr hm
        · exact Or.inl (Or.inr (Or.inr hm))
    · have hbh' : b ∉ h.ids := fun hh => (hdisj hh hbtl).elim
      rw [graft_not_mem h b s hbh']
      simp only [List.mem_append]
      rw [graftF_reportPairs tl b s hndtl hbtl j rs]
      constructor
      · rintro (hm | hm)
        · refine Or.inr (Or.inl ⟨Or.inl hm, ?_⟩)
          intro hji
          apply hbh'
          rw [← reportPairs_map_fst h]
          exact List.mem_map.mpr ⟨(j, rs), hm, hji⟩
        · rcases hm with ⟨hji, rs0, hrs0, hrs⟩ | ⟨hm, hji⟩ | hm
          · exact Or.inl ⟨hji, rs0, Or.inr hrs0, hrs⟩
          · exact Or.inr (Or.inl ⟨Or.inr hm, hji⟩)
          · exact Or.inr (Or.inr hm)
      · rintro (⟨hji, rs0, hrs0, hrs⟩ | ⟨hm, hji⟩ | hm)
        · subst hji
          rcases hrs0 with hm | hm
          · exfalso
            apply hbh'
            rw [← reportPairs_map_fst h]
            exact List.mem_map.mpr ⟨(j, rs0), hm, rfl⟩
          · exact Or.inr (Or.inl ⟨rfl, rs0, hm, hrs⟩)
        · rcases hm with hm | hm
          · exact Or.inl hm
          · exact Or.inr (Or.inr (Or.inl ⟨hm, hji⟩))
        · exact Or.inr (Or.inr (Or.inr hm))

end

mutual

theorem graft_nodup (t : IdT) (b : Nat) (s : IdT)
    (hnd : t.ids.Nodup) (hs : s.ids.Nodup) (hdisj : ∀ x ∈ s.ids, x ∉ t.ids) :
    (graft t b s).ids.Nodup := by
  cases t with
  | node i ks =>
    have hnd1 : (i :: ks.ids).Nodup := by rw [IdT.ids_node] at hnd; exact hnd
    have hine : i ∉ ks.ids := (List.nodup_cons.mp hnd1).1
    have hndks : ks.ids.Nodup := (List.nodup_cons.mp hnd1).2
    have hdisjks : ∀ x ∈ s.ids, x ∉ ks.ids := by
      intro x hx hc
      exact hdisj x hx (by rw [IdT.ids_node]; exact List.mem_cons_of_mem i hc)
    rw [graft]
    by_cases hib : i = b
    · rw [if_pos hib, IdT.ids_node, graftF_not_mem ks b s (hib ▸ hine), IdF.ids_snoc]
      rw [List.nodup_cons, List.nodup_append]
      refine ⟨?_, hndks, hs, ?_⟩
      · intro hc
        rcases List.mem_append.mp hc with hc | hc
        · exact hine hc
        · exact hdisj i hc (by rw [IdT.ids_node]; exact List.mem_cons_self i ks.ids)
      · intro x hx hc
        exact hdisjks x hc hx
    · rw [if_neg hib, IdT.ids_node, List.nodup_cons]
      constructor
      · intro hc
        rcases graftF_ids_sub ks b s i hc with hc | hc
        · exact hine hc
        · exact hdisj i hc (by rw [IdT.ids_node]; exact List.mem_cons_self i ks.ids)
      · exact graftF_nodup ks b s hndks hs hdisjks

theorem graftF_nodup (ks : IdF) (b : Nat) (s : IdT)
    (hnd : ks.ids.Nodup) (hs : s.ids.Nodup) (hdisj : ∀ x ∈ s.ids, x ∉ ks.ids) :
    (graftF ks b s).ids.Nodup := by
  cases ks with
  | nil => simp [graftF, IdF.ids]
  | cons h tl =>
    have hnd1 : (h.ids ++ tl.ids).Nodup := by rw [IdF.ids_cons] at hnd; exact hnd
    obtain ⟨hndh, hndtl, hd⟩ := List.nodup_append.mp hnd1
    have hdh : ∀ x ∈ s.ids, x ∉ h.ids := by
      intro x hx hc
      exact hdisj x hx (by rw [IdF.ids_cons]; exact List.mem_append.mpr (Or.inl hc))
    have hdtl : ∀ x ∈ s.ids, x ∉ tl.ids := by
      intro x hx hc
      exact hdisj x hx (by rw [IdF.ids_cons]; exact List.mem_append.mpr (Or.inr hc))
    rw [graftF, IdF.ids_cons]
    by_cases hbh : b ∈ h.ids
    · have hbtl : b ∉ tl.ids := fun hh => (hd hbh hh).elim
      rw [graftF_not_mem tl b s hbtl]
      rw [List.nodup_append]
      refine ⟨graft_nodup h b s hndh hs hdh, hndtl, ?_⟩
      intro x hx hc
      rcases graft_ids_sub h b s x hx with hm | hm
      · exact (hd hm hc).elim
      · exact (hdtl x hm hc).elim
    · rw [graft_not_mem h b s hbh]
      rw [List.nodup_append]
      refine ⟨hndh, graftF_nodup tl b s hndtl hs hdtl, ?_⟩
      intro x hx hc
      rcases graftF_ids_sub tl b s x hc with hm | hm
      · exact (hd hx hm).elim
      · exact (hdh x hm hx).elim

end


theorem kidIds_subset_ids : ∀ (ks : IdF), ∀ y ∈ ks.kidIds, y ∈ ks.ids
  | .nil => by intro y hy; simp [IdF.kidIds] at hy
  | .cons h t => by
    intro y hy
    rw [IdF.kidIds] at hy
    rw [IdF.ids_cons]
    rcases List.mem_cons.mp hy with he | hm
    · exact List.mem_append.mpr (Or.inl (he ▸ IdT.mem_ids_self h))
    · exact List.mem_append.mpr (Or.inr (kidIds_subset_ids t y hm))

mutual

theorem reportPairs_mem_ids (t : IdT) :
    ∀ j rs, (j, rs) ∈ reportPairs t → ∀ y ∈ rs, y ∈ t.ids := by
  cases t with
  | node i ks =>
    intro j rs hm y hy
    rw [reportPairs] at hm
    rw [IdT.ids_node]
    rcases List.mem_cons.mp hm with he | hm
    · obtain ⟨h1, h2⟩ := (Prod.mk.injEq j rs i ks.kidIds).mp he
      subst h2
      exact List.mem_cons_of_mem i (kidIds_subset_ids ks y hy)
    · exact List.mem_cons_of_mem i (reportPairsF_mem_ids ks j rs hm y hy)

theorem reportPairsF_mem_ids (ks : IdF) :
    ∀ j rs, (j, rs) ∈ reportPairsF ks → ∀ y ∈ rs, y ∈ ks.ids := by
  cases ks with
  | nil => intro j rs hm; simp [reportPairsF] at hm
  | cons h t =>
    intro j rs hm y hy
    rw [reportPairsF] at hm
    rw [IdF.ids_cons]
    rcases List.mem_append.mp hm with hm | hm
    · exact List.mem_append.mpr (Or.inl (reportPairs_mem_ids h j rs hm y hy))
    · exact List.mem_append.mpr (Or.inr (reportPairsF_mem_ids t j rs hm y hy))

end

theorem kidIds_parentPairsF : ∀ (ks : IdF) (q : Option Nat) (y : Nat),
    y ∈ ks.kidIds → (y, q) ∈ parentPairsF ks q
  | .nil, q, y => by intro hy; simp [IdF.kidIds] at hy
  | .cons h t, q, y => by
    intro hy
    rw [IdF.kidIds] at hy
    rw [parentPairsF]
    rcases List.mem_cons.mp hy with he | hm
    · subst he
      apply List.mem_append.mpr
      left
      cases h with
      | node hi hks =>
        rw [parentPairs]
        exact List.mem_cons_self _ _
    · exact List.mem_append.mpr (Or.inr (kidIds_parentPairsF t q y hm))

mutual

theorem reportPairs_child_parent (t : IdT) :
    ∀ (mgr : Option Nat) j rs y, (j, rs) ∈ reportPairs t → y ∈ rs →
      (y, some j) ∈ parentPairs t mgr := by
  cases t with
  | node i ks =>
    intro mgr j rs y hm hy
    rw [reportPairs] at hm
    rw [parentPairs]
    rcases List.mem_cons.mp hm with he | hm
    · obtain ⟨h1, h2⟩ := (Prod.mk.injEq j rs i ks.kidIds).mp he
      subst h1
      subst h2
      exact List.mem_cons_of_mem _ (kidIds_parentPairsF ks (some j) y hy)
    · exact List.mem_cons_of_mem _ (reportPairsF_child_parent ks (some i) j rs y hm hy)

theorem reportPairsF_child_parent (ks : IdF) :
    ∀ (mgr : Option Nat) j rs y, (j, rs) ∈ reportPairsF ks → y ∈ rs →
      (y, some j) ∈ parentPairsF ks mgr := by
  cases ks with
  | nil => intro mgr j rs y hm; simp [reportPairsF] at hm
  | cons h t =>
    intro mgr j rs y hm hy
    rw [reportPairsF] at hm
    rw [parentPairsF]
    rcases List.mem_append.mp hm with hm | hm
    · exact List.mem_append.mpr (Or.inl (reportPairs_child_parent h mgr j rs y hm hy))
    · exact List.mem_append.mpr (Or.inr (reportPairsF_child_parent t mgr j rs y hm hy))

end

mutual

theorem parentPairs_snd_ne_none (t : IdT) (p : Nat) :
    ∀ x, x ∈ parentPairs t (some p) → x.2 ≠ none := by
  cases t with
  | node i ks =>
    intro x hx
    rw [parentPairs] at hx
    rcases List.mem_cons.mp hx with he | hm
    · rw [he]
      simp
    · exact parentPairsF_snd_ne_none ks i x hm

theorem parentPairsF_snd_ne_none (ks : IdF) (p : Nat) :
    ∀ x, x ∈ parentPairsF ks (some p) → x.2 ≠ none := by
  cases ks with
  | nil => intro x hx; simp [parentPairsF] at hx
  | cons h t =>
    intro x hx
    rw [parentPairsF] at hx
    rcases List.mem_append.mp hx with hm | hm
    · exact parentPairs_snd_ne_none h p x hm
    · exact parentPairsF_snd_ne_none t p x hm

end


mutual

theorem detach_withDepths (t : IdT) (a : Nat) (sub : IdT)
    (hnd : t.ids.Nodup) (hsub : subtreeAt t a = some sub) (ha : ¬ a = t.tid) :
    ∀ D, withDepths (detach t a) D
      = (withDepths t D).filter (fun q => decide (q.1 ∉ sub.ids)) := by
  cases t with
  | node i ks =>
    intro D
    have hnd1 : (i :: ks.ids).Nodup := by rw [IdT.ids_node] at hnd; exact hnd
    have hine : i ∉ ks.ids := (List.nodup_cons.mp hnd1).1
    have hndks : ks.ids.Nodup := (List.nodup_cons.mp hnd1).2
    have hia : ¬ i = a := fun h => ha h.symm
    rw [subtreeAt, if_neg hia] at hsub
    have hisub : i ∉ sub.ids := fun hh => hine (subtreeAtF_ids_subset ks a sub hsub hh)
    rw [detach, withDepths, withDepths]
    rw [List.filter_cons_of_pos (by simpa using hisub)]
    rw [detachF_withDepths ks a sub hndks hsub (D + 1)]

theorem detachF_withDepths (ks : IdF) (a : Nat) (sub : IdT)
    (hnd : ks.ids.Nodup) (hsub : subtreeAtF ks a = some sub) :
    ∀ D, withDepthsF (detachF ks a) D
      = (withDepthsF ks D).filter (fun q => decide (q.1 ∉ sub.ids)) := by
  cases ks with
  | nil => simp [subtreeAtF] at hsub
  | cons h tl =>
    intro D
    have hnd1 : (h.ids ++ tl.ids).Nodup := by rw [IdF.ids_cons] at hnd; exact hnd
    obtain ⟨hndh, hndtl, hdisj⟩ := List.nodup_append.mp hnd1
    rw [subtreeAtF] at hsub
    rw [detachF, withDepthsF, List.filter_append]
    cases hh : subtreeAt h a with
    | some s1 =>
      rw [hh] at hsub
      have hs1 : s1 = sub := Option.some.inj hsub
      rw [hs1] at hh
      have hah : a ∈ h.ids := subtreeAt_mem h a sub hh
      have hnatl : a ∉ tl.ids := fun hc => (hdisj hah hc).elim
      have hsubh : ∀ y ∈ sub.ids, y ∈ h.ids := subtreeAt_ids_subset h a sub hh
      have htlfix : (withDepthsF tl D).filter (fun q => decide (q.1 ∉ sub.ids))
          = withDepthsF tl D := by
        rw [List.filter_eq_self]
        intro x hx
        have hx1 : x.1 ∈ tl.ids := by
          rw [← withDepthsF_map_fst tl D]
          exact List.mem_map.mpr ⟨x, hx, rfl⟩
        simp only [decide_eq_true_eq]
        exact fun hc => (hdisj (hsubh _ hc) hx1).elim
      by_cases htid : h.tid = a
      · rw [if_pos htid, detachF_not_mem tl a hnatl]
        have hsubeq : sub = h := by
          cases h with
          | node hi hks =>
            have hia : hi = a := htid
            rw [subtreeAt, if_pos hia] at hh
            exact (Option.some.inj hh).symm
        have hhead : (withDepths h D).filter (fun q => decide (q.1 ∉ sub.ids)) = [] := by
          rw [List.filter_eq_nil_iff]
          intro x hx
          have hx1 : x.1 ∈ h.ids := by
            rw [← withDepths_map_fst h D]
            exact List.mem_map.mpr ⟨x, hx, rfl⟩
          simp only [decide_eq_true_eq, Decidable.not_not]
          rw [hsubeq]
          exact hx1
        rw [hhead, htlfix, List.nil_append]
      · rw [if_neg htid, withDepthsF, detachF_not_mem tl a hnatl, htlfix]
        rw [detach_withDepths h a sub hndh hh (fun hc => htid hc.symm) D]

    | none =>
      rw [hh] at hsub
      have hsub2 : subtreeAtF tl a = some sub := hsub
      have hnah : a ∉ h.ids := by
        intro hc
        have h1 := subtreeAt_isSome_of_mem h a hc
        rw [hh] at h1
        simp at h1
      have htid : ¬ h.tid = a := fun hc => hnah (hc ▸ IdT.mem_ids_self h)
      have hsubtl : ∀ y ∈ sub.ids, y ∈ tl.ids := subtreeAtF_ids_subset tl a sub hsub2
      have hhfix : (withDepths h D).filter (fun q => decide (q.1 ∉ sub.ids))
          = withDepths h D := by
        rw [List.filter_eq_self]
        intro x hx
        have hx1 : x.1 ∈ h.ids := by
          rw [← withDepths_map_fst h D]
          exact List.mem_map.mpr ⟨x, hx, rfl⟩
        simp only [decide_eq_true_eq]
        exact fun hc => (hdisj hx1 (hsubtl _ hc)).elim
      rw [if_neg htid, withDepthsF, detach_not_mem h a hnah, hhfix]
      rw [detachF_withDepths tl a sub hndtl hsub2 D]

end


theorem map_eq_self_of_forall {α : Type} (l : List α) (f : α → α)
    (h : ∀ x ∈ l, f x = x) : l.map f = l := by
  induction l with
  | nil => rfl
  | cons x xs ih =>
    rw [List.map_cons, h x (List.mem_cons_self x xs),
      ih (fun y hy => h y (List.mem_cons_of_mem x hy))]

mutual

theorem detach_parentPairs (t : IdT) (a : Nat) (sub : IdT)
    (hnd : t.ids.Nodup) (hsub : subtreeAt t a = some sub) (ha : ¬ a = t.tid) :
    ∀ mgr, parentPairs (detach t a) mgr
      = (parentPairs t mgr).filter (fun q => decide (q.1 ∉ sub.ids)) := by
  cases t with
  | node i ks =>
    intro mgr
    have hnd1 : (i :: ks.ids).Nodup := by rw [IdT.ids_node] at hnd; exact hnd
    have hine : i ∉ ks.ids := (List.nodup_cons.mp hnd1).1
    have hndks : ks.ids.Nodup := (List.nodup_cons.mp hnd1).2
    have hia : ¬ i = a := fun h => ha h.symm
    rw [subtreeAt, if_neg hia] at hsub
    have hisub : i ∉ sub.ids := fun hh => hine (subtreeAtF_ids_subset ks a sub hsub hh)
    rw [detach, parentPairs, parentPairs]
    rw [List.filter_cons_of_pos (by simpa using hisub)]
    rw [detachF_parentPairs ks a sub hndks hsub (some i)]

theorem detachF_parentPairs (ks : IdF) (a : Nat) (sub : IdT)
    (hnd : ks.ids.Nodup) (hsub : subtreeAtF ks a = some sub) :
    ∀ mgr, parentPairsF (detachF ks a) mgr
      = (parentPairsF ks mgr).filter (fun q => decide (q.1 ∉ sub.ids)) := by
  cases ks with
  | nil => simp [subtreeAtF] at hsub
  | cons h tl =>
    intro mgr
    have hnd1 : (h.ids ++ tl.ids).Nodup := by rw [IdF.ids_cons] at hnd; exact hnd
    obtain ⟨hndh, hndtl, hdisj⟩ := List.nodup_append.mp hnd1
    rw [subtreeAtF] at hsub
    rw [detachF, parentPairsF, List.filter_append]
    cases hh : subtreeAt h a with
    | some s1 =>
      rw [hh] at hsub
      have hs1 : s1 = sub := Option.some.inj hsub
      rw [hs1] at hh
      have hah : a ∈ h.ids := subtreeAt_mem h a sub hh
      have hnatl : a ∉ tl.ids := fun hc => (hdisj hah hc).elim
      have hsubh : ∀ y ∈ sub.ids, y ∈ h.ids := subtreeAt_ids_subset h a sub hh
      have htlfix : (parentPairsF tl mgr).filter (fun q => decide (q.1 ∉ sub.ids))
          = parentPairsF tl mgr := by
        rw [List.filter_eq_self]
        intro x hx
        have hx1 : x.1 ∈ tl.ids := by
          rw [← parentPairsF_map_fst tl mgr]
          exact List.mem_map.mpr ⟨x, hx, rfl⟩
        simp only [decide_eq_true_eq]
        exact fun hc => (hdisj (hsubh _ hc) hx1).elim
      by_cases htid : h.tid = a
      · rw [if_pos htid, detachF_not_mem tl a hnatl]
        have hsubeq : sub = h := by
          cases h with
          | node hi hks =>
            have hia : hi = a := htid
            rw [subtreeAt, if_pos hia] at hh
            exact (Option.some.inj hh).symm
        have hhead : (parentPairs h mgr).filter (fun q => decide (q.1 ∉ sub.ids))
            = [] := by
          rw [List.filter_eq_nil_iff]
          intro x hx
          have hx1 : x.1 ∈ h.ids := by
            rw [← parentPairs_map_fst h mgr]
            exact List.mem_map.mpr ⟨x, hx, rfl⟩
          simp only [decide_eq_true_eq, Decidable.not_not]
          rw [hsubeq]
          exact hx1
        rw [hhead, htlfix, List.nil_append]
      · rw [if_neg htid, parentPairsF, detachF_not_mem tl a hnatl, htlfix]
        rw [detach_parentPairs h a sub hndh hh (fun hc => htid hc.symm) mgr]
    | none =>
      rw [hh] at hsub
      have hsub2 : subtreeAtF tl a = some sub := hsub
      have hnah : a ∉ h.ids := by
        intro hc
        have h1 := subtreeAt_isSome_of_mem h a hc
        rw [hh] at h1
        simp at h1
      have htid : ¬ h.tid = a := fun hc => hnah (hc ▸ IdT.mem_ids_self h)
      have hsubtl : ∀ y ∈ sub.ids, y ∈ tl.ids := subtreeAtF_ids_subset tl a sub hsub2
      have hhfix : (parentPairs h mgr).filter (fun q => decide (q.1 ∉ sub.ids))
          = parentPairs h mgr := by
        rw [List.filter_eq_self]
        intro x hx
        have hx1 : x.1 ∈ h.ids := by
          rw [← parentPairs_map_fst h mgr]
          exact List.mem_map.mpr ⟨x, hx, rfl⟩
        simp only [decide_eq_true_eq]
        exact fun hc => (hdisj hx1 (hsubtl _ hc)).elim
      rw [if_neg htid, parentPairsF, detach_not_mem h a hnah, hhfix]
      rw [detachF_parentPairs tl a sub hndtl hsub2 mgr]

end

mutual

theorem detach_reportPairs (t : IdT) (a : Nat) (sub : IdT)
    (hnd : t.ids.Nodup) (hsub : subtreeAt t a = some sub) (ha : ¬ a = t.tid) :
    reportPairs (detach t a)
      = ((reportPairs t).filter (fun q => decide (q.1 ∉ sub.ids))).map
          (fun q => (q.1, q.2.filter (fun r => r != a))) := by
  cases t with
  | node i ks =>
    have hnd1 : (i :: ks.ids).Nodup := by rw [IdT.ids_node] at hnd; exact hnd
    have hine : i ∉ ks.ids := (List.nodup_cons.mp hnd1).1
    have hndks : ks.ids.Nodup := (List.nodup_cons.mp hnd1).2
    have hia : ¬ i = a := fun h => ha h.symm
    rw [subtreeAt, if_neg hia] at hsub
    have hisub : i ∉ sub.ids := fun hh => hine (subtreeAtF_ids_subset ks a sub hsub hh)
    rw [detach, reportPairs, reportPairs]
    rw [List.filter_cons_of_pos (by simpa using hisub), List.map_cons]
    rw [kidIds_detachF, detachF_reportPairs ks a sub hndks hsub]

theorem detachF_reportPairs (ks : IdF) (a : Nat) (sub : IdT)
    (hnd : ks.ids.Nodup) (hsub : subtreeAtF ks a = some sub) :
    reportPairsF (detachF ks a)
      = ((reportPairsF ks).filter (fun q => decide (q.1 ∉ sub.ids))).map
          (fun q => (q.1, q.2.filter (fun r => r != a))) := by
  cases ks with
  | nil => simp [subtreeAtF] at hsub
  | cons h tl =>
    have hnd1 : (h.ids ++ tl.ids).Nodup := by rw [IdF.ids_cons] at hnd; exact hnd
    obtain ⟨hndh, hndtl, hdisj⟩ := List.nodup_append.mp hnd1
    rw [subtreeAtF] at hsub
    rw [detachF, reportPairsF, List.filter_append, List.map_append]
    cases hh : subtreeAt h a with
    | some s1 =>
      rw [hh] at hsub
      have hs1 : s1 = sub := Option.some.inj hsub
      rw [hs1] at hh
      have hah : a ∈ h.ids := subtreeAt_mem h a sub hh
      have hnatl : a ∉ tl.ids := fun hc => (hdisj hah hc).elim
      have hsubh : ∀ y ∈ sub.ids, y ∈ h.ids := subtreeAt_ids_subset h a sub hh
      have htlfix : (((reportPairsF tl).filter (fun q => decide (q.1 ∉ sub.ids))).map
            (fun q => (q.1, q.2.filter (fun r => r != a))))
          = reportPairsF tl := by
        have h1 : (reportPairsF tl).filter (fun q => decide (q.1 ∉ sub.ids))
            = reportPairsF tl := by
          rw [List.filter_eq_self]
          intro x hx
          have hx1 : x.1 ∈ tl.ids := by
            rw [← reportPairsF_map_fst tl]
            exact List.mem_map.mpr ⟨x, hx, rfl⟩
          simp only [decide_eq_true_eq]
          exact fun hc => (hdisj (hsubh _ hc) hx1).elim
        rw [h1]
        apply map_eq_self_of_forall
        intro x hx
        obtain ⟨j, rs⟩ := x
        have hrs : ∀ y ∈ rs, y ∈ tl.ids := reportPairsF_mem_ids tl j rs hx
        have hfa : rs.filter (fun r => r != a) = rs := by
          rw [List.filter_eq_self]
          intro y hy
          simp only [bne_iff_ne, ne_eq, decide_eq_true_eq]
          exact fun hc => hnatl (hc ▸ hrs y hy)
        simp only [hfa]
      by_cases htid : h.tid = a
      · rw [if_pos htid, detachF_not_mem tl a hnatl]
        have hsubeq : sub = h := by
          cases h with
          | node hi hks =>
            have hia : hi = a := htid
            rw [subtreeAt, if_pos hia] at hh
            exact (Option.some.inj hh).symm
        have hhead : (reportPairs h).filter (fun q => decide (q.1 ∉ sub.ids)) = [] := by
          rw [List.filter_eq_nil_iff]
          intro x hx
          have hx1 : x.1 ∈ h.ids := by
            rw [← reportPairs_map_fst h]
            exact List.mem_map.mpr ⟨x, hx, rfl⟩
          simp only [decide_eq_true_eq, Decidable.not_not]
          rw [hsubeq]
          exact hx1
        rw [hhead, htlfix]
        rfl
      · rw [if_neg htid, reportPairsF, detachF_not_mem tl a hnatl, htlfix]
        rw [detach_reportPairs h a sub hndh hh (fun hc => htid hc.symm)]
    | none =>
      rw [hh] at hsub
      have hsub2 : subtreeAtF tl a = some sub := hsub
      have hnah : a ∉ h.ids := by
        intro hc
        have h1 := subtreeAt_isSome_of_mem h a hc
        rw [hh] at h1
        simp at h1
      have htid : ¬ h.tid = a := fun hc => hnah (hc ▸ IdT.mem_ids_self h)
      have hsubtl : ∀ y ∈ sub.ids, y ∈ tl.ids := subtreeAtF_ids_subset tl a sub hsub2
      have hhfix : (((reportPairs h).filter (fun q => decide (q.1 ∉ sub.ids))).map
            (fun q => (q.1, q.2.filter (fun r => r != a))))
          = reportPairs h := by
        have h1 : (reportPairs h).filter (fun q => decide (q.1 ∉ sub.ids))
            = reportPairs h := by
          rw [List.filter_eq_self]
          intro x hx
          have hx1 : x.1 ∈ h.ids := by
            rw [← reportPairs_map_fst h]
            exact List.mem_map.mpr ⟨x, hx, rfl⟩
          simp only [decide_eq_true_eq]
          exact fun hc => (hdisj hx1 (hsubtl _ hc)).elim
        rw [h1]
        apply map_eq_self_of_forall
        intro x hx
        obtain ⟨j, rs⟩ := x
        have hrs : ∀ y ∈ rs, y ∈ h.ids := reportPairs_mem_ids h j rs hx
        have hfa : rs.filter (fun r => r != a) = rs := by
          rw [List.filter_eq_self]
          intro y hy
          simp only [bne_iff_ne, ne_eq, decide_eq_true_eq]
          exact fun hc => hnah (hc ▸ hrs y hy)
        simp only [hfa]
      rw [if_neg htid, reportPairsF, detach_not_mem h a hnah, hhfix]
      rw [detachF_reportPairs tl a sub hndtl hsub2]

end


theorem parentPairs_head (t : IdT) (mgr : Option Nat) :
    (t.tid, mgr) ∈ parentPairs t mgr := by
  cases t with
  | node i ks =>
    rw [parentPairs]
    exact List.mem_cons_self _ _

theorem parentPairs_none_eq_tid (t : IdT) (k : Nat)
    (h : (k, (none : Option Nat)) ∈ parentPairs t none) : k = t.tid := by
  cases t with
  | node i ks =>
    rw [parentPairs] at h
    rcases List.mem_cons.mp h with he | hm
    · exact ((Prod.mk.injEq k none i none).mp he).1
    · exact absurd rfl (parentPairsF_snd_ne_none ks i (k, none) hm)

theorem wfAt_mem_pair (c : OrgChart) (r : Nat) (t : IdT) (w : WfAt c r t)
    (k : Nat) (e : Employee) (hge : get c.employees k = some e) :
    ∃ q, (k, q) ∈ parentPairs t none ∧ e.manager = q := by
  have hk : k ∈ t.ids := w.keys_sub ((mem_keys_iff c.employees k).mpr (by simp [hge]))
  have hk2 : k ∈ (parentPairs t none).map Prod.fst := by
    rw [parentPairs_map_fst]
    exact hk
  obtain ⟨⟨k1, q⟩, hmem, hfst⟩ := List.mem_map.mp hk2
  have hk1 : k1 = k := hfst
  subst hk1
  obtain ⟨e1, hge1, hm1⟩ := (mgrsOk_iff c.employees t none).mp w.mgrs k1 q hmem
  have he1 : e1 = e := Option.some.inj (hge1.symm.trans hge)
  subst he1
  exact ⟨q, hmem, hm1⟩

/-- Invariant 1 from well-formedness. -/
theorem wfAt_inv1 (c : OrgChart) (r : Nat) (t : IdT) (w : WfAt c r t) : inv1 c := by
  right
  obtain ⟨e, hge, hmgr⟩ := (mgrsOk_iff c.employees t none).mp w.mgrs t.tid none
    (parentPairs_head t none)
  refine ⟨r, e, w.root_eq, by rw [← w.tid_eq]; exact hge, hmgr, ?_⟩
  intro k e' hge' hm'
  obtain ⟨q, hmem, hq⟩ := wfAt_mem_pair c r t w k e' hge'
  rw [hm'] at hq
  rw [← w.tid_eq]
  exact parentPairs_none_eq_tid t k (hq ▸ hmem)

/-- Invariant 4 from well-formedness. -/
theorem wfAt_inv4 (c : OrgChart) (r : Nat) (t : IdT) (w : WfAt c r t) : inv4 c := by
  intro k e m hge hm
  have hk : k ∈ t.ids := w.keys_sub ((mem_keys_iff c.employees k).mpr (by simp [hge]))
  obtain ⟨d, hd⟩ := mem_ids_withDepths t 0 k hk
  obtain ⟨e0, hge0, hcase⟩ := mgrsOk_depth c.employees t none w.mgrs 0 k d hd
  have he0 : e0 = e := Option.some.inj (hge0.symm.trans hge)
  subst he0
  rcases hcase with ⟨_, _, hnone⟩ | ⟨p, hp, _, hppair⟩
  · rw [hm] at hnone
    exact absurd hnone (by simp)
  · have hpm : p = m := by
      rw [hm] at hp
      exact (Option.some.inj hp).symm
    subst hpm
    have : p ∈ t.ids := by
      rw [← withDepths_map_fst t 0]
      exact List.mem_map.mpr ⟨(p, d - 1), hppair, rfl⟩
    exact w.ids_sub this

/-- Invariant 3 from well-formedness. -/
theorem wfAt_inv3 (c : OrgChart) (r : Nat) (t : IdT) (w : WfAt c r t) : inv3 c := by
  intro k e hge
  have hk : k ∈ t.ids := w.keys_sub ((mem_keys_iff c.employees k).mpr (by simp [hge]))
  obtain ⟨d, hd⟩ := mem_ids_withDepths t 0 k hk
  have hndw : ((withDepths t 0).map Prod.fst).Nodup := by
    rw [withDepths_map_fst]
    exact w.nodup
  obtain ⟨e1, hge1, hlvl⟩ := (levelsOk_iff c.employees t 0).mp w.levels k d hd
  have he1 : e1 = e := Option.some.inj (hge1.symm.trans hge)
  subst he1
  constructor
  · intro hnone
    obtain ⟨q, hmem, hq⟩ := wfAt_mem_pair c r t w k e1 hge
    rw [hnone] at hq
    have hkt : k = t.tid := parentPairs_none_eq_tid t k (hq ▸ hmem)
    subst hkt
    have h0 : (t.tid, 0) ∈ withDepths t 0 := by
      have := withDepths_head t 0
      exact this
    have hd0 : d = 0 := pairs_fst_unique (withDepths t 0) hndw t.tid d 0 hd h0
    rw [hlvl, hd0]
  · intro m me hm hgm
    obtain ⟨e0, hge0, hcase⟩ := mgrsOk_depth c.employees t none w.mgrs 0 k d hd
    have he0 : e0 = e1 := Option.some.inj (hge0.symm.trans hge)
    subst he0
    rcases hcase with ⟨_, _, hnone⟩ | ⟨p, hp, hge1', hppair⟩
    · rw [hm] at hnone
      exact absurd hnone (by simp)
    · have hpm : p = m := by
        rw [hm] at hp
        exact (Option.some.inj hp).symm
      subst hpm
      obtain ⟨em, hgem, hlvlm⟩ := (levelsOk_iff c.employees t 0).mp w.levels p (d - 1) hppair
      have hem : em = me := Option.some.inj (hgem.symm.trans hgm)
      subst hem
      rw [hlvl, hlvlm]
      omega

/-- The manager walk from a node at depth `d` reaches the root in `d` steps. -/
theorem wfAt_mgrIter (c : OrgChart) (r : Nat) (t : IdT) (w : WfAt c r t) :
    ∀ d k, (k, d) ∈ withDepths t 0 → mgrIter c.employees d k = some t.tid := by
  intro d
  induction d with
  | zero =>
    intro k hk
    cases t with
    | node i ks =>
      rw [withDepths] at hk
      rcases List.mem_cons.mp hk with he | hm
      · have hki : k = i := ((Prod.mk.injEq k 0 i 0).mp he).1
        rw [mgrIter, hki]
        rfl
      · have := withDepthsF_depth_ge ks 1 k 0 hm
        omega
  | succ n ih =>
    intro k hk
    obtain ⟨e, hge, hcase⟩ := mgrsOk_depth c.employees t none w.mgrs 0 k (n + 1) hk
    rcases hcase with ⟨hkt, hd0, _⟩ | ⟨p, hp, _, hppair⟩
    · omega
    · have hppair' : (p, n) ∈ withDepths t 0 := by
        have harith : n + 1 - 1 = n := by omega
        rw [harith] at hppair
        exact hppair
      have hstep : mgrIter c.employees (n + 1) k = mgrIter c.employees n p := by
        rw [mgrIter, hge]
        show (match e.manager with
          | none => none
          | some m => mgrIter c.employees n m) = mgrIter c.employees n p
        rw [hp]
      rw [hstep]
      exact ih p hppair'

/-- Invariant 2 from well-formedness. -/
theorem wfAt_inv2 (c : OrgChart) (r : Nat) (t : IdT) (w : WfAt c r t) : inv2 c := by
  intro k hk
  have hkt : k ∈ t.ids := w.keys_sub hk
  obtain ⟨d, hd⟩ := mem_ids_withDepths t 0 k hkt
  refine ⟨d, r, w.root_eq, ?_⟩
  rw [wfAt_mgrIter c r t w d k hd, w.tid_eq]

/-- All four invariants from well-formedness. -/
theorem wf_invs (c : OrgChart) (h : WF c) : inv1 c ∧ inv2 c ∧ inv3 c ∧ inv4 c := by
  rcases h with ⟨hroot, hemp⟩ | ⟨r, t, w⟩
  · refine ⟨Or.inl hemp, ?_, ?_, ?_⟩
    · intro k hk
      rw [hemp] at hk
      simp [keys] at hk
    · intro k e hge
      rw [hemp] at hge
      simp [get] at hge
    · intro k e m hge
      rw [hemp] at hge
      simp [get] at hge
  · exact ⟨wfAt_inv1 c r t w, wfAt_inv2 c r t w, wfAt_inv3 c r t w, wfAt_inv4 c r t w⟩


theorem withDepths_add (t : IdT) : ∀ k, withDepths t k
    = (withDepths t 0).map (fun p => (p.1, p.2 + k)) := by
  intro k
  induction k with
  | zero =>
    symm
    apply map_eq_self_of_forall
    intro x _
    simp
  | succ n ih =>
    have h1 : withDepths t (n + 1)
        = (withDepths t n).map (fun p => (p.1, p.2 + 1)) := withDepths_shift t n
    rw [h1, ih, List.map_map]
    apply List.map_congr_left
    intro x _
    show (x.1, x.2 + n + 1) = (x.1, x.2 + (n + 1))
    rw [Nat.add_assoc]

theorem detach_mem_ids (t : IdT) (a : Nat) (sub : IdT)
    (hnd : t.ids.Nodup) (hsub : subtreeAt t a = some sub) (ha : ¬ a = t.tid) :
    ∀ x, x ∈ (detach t a).ids ↔ (x ∈ t.ids ∧ x ∉ sub.ids) := by
  intro x
  constructor
  · intro hx
    obtain ⟨d, hd⟩ := mem_ids_withDepths (detach t a) 0 x hx
    rw [detach_withDepths t a sub hnd hsub ha 0] at hd
    obtain ⟨hmem, hdec⟩ := List.mem_filter.mp hd
    simp only [decide_eq_true_eq] at hdec
    refine ⟨?_, hdec⟩
    rw [← withDepths_map_fst t 0]
    exact List.mem_map.mpr ⟨(x, d), hmem, rfl⟩
  · rintro ⟨hx, hns⟩
    obtain ⟨d, hd⟩ := mem_ids_withDepths t 0 x hx
    rw [← withDepths_map_fst (detach t a) 0]
    refine List.mem_map.mpr ⟨(x, d), ?_, rfl⟩
    rw [detach_withDepths t a sub hnd hsub ha 0]
    exact List.mem_filter.mpr ⟨hd, by simpa using hns⟩

theorem detach_ids_nodup (t : IdT) (a : Nat) (sub : IdT)
    (hnd : t.ids.Nodup) (hsub : subtreeAt t a = some sub) (ha : ¬ a = t.tid) :
    (detach t a).ids.Nodup := by
  have h1 : (detach t a).ids
      = ((withDepths t 0).filter (fun q => decide (q.1 ∉ sub.ids))).map Prod.fst := by
    rw [← detach_withDepths t a sub hnd hsub ha 0, withDepths_map_fst]
  rw [h1]
  have h2 : ((withDepths t 0).filter
      (fun q => decide (q.1 ∉ sub.ids))).map Prod.fst |>.Sublist t.ids := by
    rw [← withDepths_map_fst t 0]
    exact List.Sublist.map Prod.fst (List.filter_sublist _)
  exact h2.nodup hnd

theorem graft_mem_ids (t : IdT) (b : Nat) (s : IdT)
    (hnd : t.ids.Nodup) (hb : b ∈ t.ids) :
    ∀ x, x ∈ (graft t b s).ids ↔ (x ∈ t.ids ∨ x ∈ s.ids) := by
  intro x
  obtain ⟨db, hdb⟩ := mem_ids_withDepths t 0 b hb
  constructor
  · intro hx
    obtain ⟨d, hd⟩ := mem_ids_withDepths (graft t b s) 0 x hx
    rcases (graft_withDepths t b s hnd hb 0 db hdb (x, d)).mp hd with hm | hm
    · left
      rw [← withDepths_map_fst t 0]
      exact List.mem_map.mpr ⟨(x, d), hm, rfl⟩
    · right
      rw [← withDepths_map_fst s (db + 1)]
      exact List.mem_map.mpr ⟨(x, d), hm, rfl⟩
  · intro hx
    rw [← withDepths_map_fst (graft t b s) 0]
    rcases hx with hx | hx
    · obtain ⟨d, hd⟩ := mem_ids_withDepths t 0 x hx
      exact List.mem_map.mpr
        ⟨(x, d), (graft_withDepths t b s hnd hb 0 db hdb (x, d)).mpr (Or.inl hd), rfl⟩
    · obtain ⟨d, hd⟩ := mem_ids_withDepths s (db + 1) x hx
      exact List.mem_map.mpr
        ⟨(x, d), (graft_withDepths t b s hnd hb 0 db hdb (x, d)).mpr (Or.inr hd), rfl⟩

mutual

theorem subtreeAt_reportPairs (t : IdT) (a : Nat) (sub : IdT)
    (hsub : subtreeAt t a = some sub) :
    ∀ x, x ∈ reportPairs sub → x ∈ reportPairs t := by
  cases t with
  | node i ks =>
    intro x hx
    rw [subtreeAt] at hsub
    by_cases hia : i = a
    · rw [if_pos hia] at hsub
      rw [Option.some.inj hsub]
      exact hx
    · rw [if_neg hia] at hsub
      rw [reportPairs]
      exact List.mem_cons_of_mem _ (subtreeAtF_reportPairs ks a sub hsub x hx)

theorem subtreeAtF_reportPairs (ks : IdF) (a : Nat) (sub : IdT)
    (hsub : subtreeAtF ks a = some sub) :
    ∀ x, x ∈ reportPairs sub → x ∈ reportPairsF ks := by
  cases ks with
  | nil => simp [subtreeAtF] at hsub
  | cons h tl =>
    intro x hx
    rw [subtreeAtF] at hsub
    rw [reportPairsF]
    cases hh : subtreeAt h a with
    | some s1 =>
      rw [hh] at hsub
      have hs1 : s1 = sub := Option.some.inj hsub
      rw [hs1] at hh
      exact List.mem_append.mpr (Or.inl (subtreeAt_reportPairs h a sub hh x hx))
    | none =>
      rw [hh] at hsub
      exact List.mem_append.mpr (Or.inr (subtreeAtF_reportPairs tl a sub hsub x hx))

end

mutual

theorem subtreeAt_parentPairs (t : IdT) (a : Nat) (sub : IdT)
    (hsub : subtreeAt t a = some sub) :
    ∀ (mgr q : Option Nat) x, x ∈ parentPairs sub q → x.1 ≠ a →
      x ∈ parentPairs t mgr := by
  cases t with
  | node i ks =>
    intro mgr q x hx hxa
    rw [subtreeAt] at hsub
    by_cases hia : i = a
    · rw [if_pos hia] at hsub
      have hst : sub = IdT.node i ks := (Option.some.inj hsub).symm
      subst hst
      rw [parentPairs] at hx
      rw [parentPairs]
      rcases List.mem_cons.mp hx with he | hm
      · exfalso
        apply hxa
        rw [he]
        exact hia
      · exact List.mem_cons_of_mem _ hm
    · rw [if_neg hia] at hsub
      rw [parentPairs]
      exact List.mem_cons_of_mem _
        (subtreeAtF_parentPairs ks a sub hsub (some i) q x hx hxa)

theorem subtreeAtF_parentPairs (ks : IdF) (a : Nat) (sub : IdT)
    (hsub : subtreeAtF ks a = some sub) :
    ∀ (mgr q : Option Nat) x, x ∈ parentPairs sub q → x.1 ≠ a →
      x ∈ parentPairsF ks mgr := by
  cases ks with
  | nil => simp [subtreeAtF] at hsub
  | cons h tl =>
    intro mgr q x hx hxa
    rw [subtreeAtF] at hsub
    rw [parentPairsF]
    cases hh : subtreeAt h a with
    | some s1 =>
      rw [hh] at hsub
      have hs1 : s1 = sub := Option.some.inj hsub
      rw [hs1] at hh
      exact List.mem_append.mpr (Or.inl (subtreeAt_parentPairs h a sub hh mgr q x hx hxa))
    | none =>
      rw [hh] at hsub
      exact List.mem_append.mpr
        (Or.inr (subtreeAtF_parentPairs tl a sub hsub mgr q x hx hxa))

end


/-- `setRoot` on an empty store produces a well-formed singleton chart. -/
theorem setRoot_wf (c : OrgChart) (hemp : c.employees = [])
    (i : Nat) (n ti l dv dp em : String) :
    WF (setRoot c i n ti l dv dp em) := by
  right
  have hroot : (setRoot c i n ti l dv dp em).root = some i := rfl
  have hst : (setRoot c i n ti l dv dp em).employees
      = [(i, ⟨n, ti, l, dv, dp, em, none, [], 0⟩)] := by
    show put c.employees i _ = _
    rw [hemp]
    rfl
  refine ⟨i, IdT.node i IdF.nil, hroot, rfl, ?_, ?_, ?_, ?_, ?_, ?_⟩
  · rw [hst]
    simp [shapeOk, get, shapeOkF, IdF.kidIds]
  · rw [hst]
    simp [levelsOk, get, levelsOkF]
  · rw [hst]
    simp [mgrsOk, get, mgrsOkF]
  · simp [IdT.ids, IdF.ids]
  · rw [hst]
    intro x hx
    simp [keys] at hx
    simp [IdT.ids, IdF.ids, hx]
  · rw [hst]
    intro x hx
    simp [IdT.ids, IdF.ids] at hx
    simp [keys, hx]

/-- `editEmployee` preserves well-formedness: it only rewrites text fields. -/
theorem editEmployee_wf (c : OrgChart) (h : WF c) (i : Nat) (p : Patch) :
    WF (editEmployee c i p).1 := by
  cases hg : get c.employees i with
  | none =>
    have hres : (editEmployee c i p).1 = c := by
      simp only [editEmployee, hg]
    rw [hres]
    exact h
  | some e0 =>
    rcases h with ⟨hroot, hemp⟩ | ⟨r, t, w⟩
    · rw [hemp] at hg
      simp [get] at hg
    · have hres : (editEmployee c i p).1.employees
          = modify c.employees i (fun e =>
            { e with
              name := applyField p.name e.name, title := applyField p.title e.title,
              lob := applyField p.lob e.lob, division := applyField p.division e.division,
              dept := applyField p.dept e.dept, email := applyField p.email e.email })
          ∧ (editEmployee c i p).1.root = c.root := by
        constructor
        · simp only [editEmployee, hg]
          rfl
        · simp only [editEmployee, hg]
          rfl
      right
      refine ⟨r, t, ?_, w.tid_eq, ?_, ?_, ?_, w.nodup, ?_, ?_⟩
      · rw [hres.2]
        exact w.root_eq
      · rw [hres.1]
        rw [shapeOk_congr c.employees _ t (fun j _ => by
          rw [get_modify]
          by_cases hj : j = i
          · rw [if_pos hj, hj, hg]
            rfl
          · rw [if_neg hj])]
        exact w.shape
      · rw [hres.1]
        rw [levelsOk_congr c.employees _ t 0 (fun j _ => by
          rw [get_modify]
          by_cases hj : j = i
          · rw [if_pos hj, hj, hg]
            rfl
          · rw [if_neg hj])]
        exact w.levels
      · rw [hres.1]
        rw [mgrsOk_congr c.employees _ t none (fun j _ => by
          rw [get_modify]
          by_cases hj : j = i
          · rw [if_pos hj, hj, hg]
            rfl
          · rw [if_neg hj])]
        exact w.mgrs
      · rw [hres.1]
        intro x hx
        apply w.keys_sub
        rw [mem_keys_iff] at hx ⊢
        rw [get_modify] at hx
        by_cases hj : x = i
        · rw [hj, hg]
          rfl
        · rw [if_neg hj] at hx
          exact hx
      · rw [hres.1]
        intro x hx
        have h1 := w.ids_sub hx
        rw [mem_keys_iff] at h1 ⊢
        rw [get_modify]
        by_cases hj : x = i
        · rw [if_pos hj, hg]
          rfl
        · rw [if_neg hj]
          exact h1


/-- Removing a member without direct reports preserves well-formedness. -/
theorem removeEmployee_wf (c : OrgChart) (h : WF c) (i : Nat) (rs : Option Nat)
    (hok : mutOk c (.remove i rs) = true) : WF (removeEmployee c i rs).1 := by
  by_cases hri : c.root = some i
  · have hres : (removeEmployee c i rs).1 = c := by
      simp only [removeEmployee, if_pos hri]
    rw [hres]
    exact h
  · cases hg : get c.employees i with
    | none =>
      have hres : (removeEmployee c i rs).1 = c := by
        simp only [removeEmployee, if_neg hri, hg]
      rw [hres]
      exact h
    | some emp =>
      rcases h with ⟨hroot, hemp⟩ | ⟨r, t, w⟩
      · rw [hemp] at hg
        simp [get] at hg
      have hrep : emp.reports = [] := by
        have h1 : mutOk c (.remove i rs) = true := hok
        rw [mutOk, hg] at h1
        have h2 : emp.reports.isEmpty = true := h1
        cases hr : emp.reports with
        | nil => rfl
        | cons y ys =>
          rw [hr] at h2
          simp [List.isEmpty] at h2
      have hit : i ∈ t.ids := w.keys_sub ((mem_keys_iff _ _).mpr (by simp [hg]))
      have hir : ¬ i = t.tid := by
        intro hh
        apply hri
        rw [w.root_eq, ← w.tid_eq, hh]
      obtain ⟨sub, hsub⟩ := Option.isSome_iff_exists.mp (subtreeAt_isSome_of_mem t i hit)
      have hstid : sub.tid = i := subtreeAt_tid t i sub hsub
      have hshp : shapeOk c.employees sub = true :=
        subtreeAt_shapeOk c.employees t i sub w.shape hsub
      have hsubeq : sub = IdT.node i IdF.nil := by
        cases sub with
        | node j ks =>
          have hj : j = i := hstid
          subst hj
          rw [shapeOk, hg] at hshp
          simp only [Bool.and_eq_true, beq_iff_eq] at hshp
          have hkid : ks.kidIds = [] := by rw [← hshp.1, hrep]
          cases ks with
          | nil => rfl
          | cons h1 t1 => simp [IdF.kidIds] at hkid
      subst hsubeq
      have hsubids : ∀ x, x ∈ (IdT.node i IdF.nil).ids ↔ x = i := by
        intro x
        simp [IdT.ids, IdF.ids]
      obtain ⟨dA, hdA⟩ := mem_ids_withDepths t 0 i hit
      obtain ⟨e0, hge0, hcase⟩ := mgrsOk_depth c.employees t none w.mgrs 0 i dA hdA
      have he0 : e0 = emp := Option.some.inj (hge0.symm.trans hg)
      subst he0
      rcases hcase with ⟨hitid, _, _⟩ | ⟨m, hman, hdge, hmpair⟩
      · exact absurd hitid hir
      have hndw : ((withDepths t 0).map Prod.fst).Nodup := by
        rw [withDepths_map_fst]
        exact w.nodup
      have hndp : ((parentPairs t none).map Prod.fst).Nodup := by
        rw [parentPairs_map_fst]
        exact w.nodup
      have hipair : (i, some m) ∈ parentPairs t none := by
        obtain ⟨q, hqm, hq⟩ := wfAt_mem_pair c r t w i e0 hg
        rw [hman] at hq
        rw [← hq] at hqm
        exact hqm
      have hmi : ¬ m = i := by
        intro hh
        have := pairs_fst_unique (withDepths t 0) hndw i dA (dA - 1) hdA (hh ▸ hmpair)
        omega
      have hbind : (get c.employees i).bind Employee.manager = some m := by
        rw [hg]
        exact hman
      have hdet : detachFromManager c.employees i
          = modify c.employees m
              (fun e => { e with reports := e.reports.filter (fun r => r != i) }) := by
        simp only [detachFromManager, hbind]
      have hres : (removeEmployee c i rs).1.employees
            = erase (modify c.employees m
                (fun e => { e with reports := e.reports.filter (fun r => r != i) })) i
          ∧ (removeEmployee c i rs).1.root = c.root := by
        constructor
        · simp only [removeEmployee, if_neg hri, hg]
          show erase (detachFromManager
            (removeReports (pushState c).employees e0.reports rs) i) i = _
          rw [hrep, show (pushState c).employees = c.employees from rfl,
            removeReports_nil, hdet]
        · simp only [removeEmployee, if_neg hri, hg]
          rfl
      have hget' : ∀ j, get (erase (modify c.employees m
            (fun e => { e with reports := e.reports.filter (fun r => r != i) })) i) j
          = if j = i then none
            else if j = m then (get c.employees m).map
              (fun e => { e with reports := e.reports.filter (fun r => r != i) })
            else get c.employees j := by
        intro j
        rw [get_erase, get_modify]
      right
      refine ⟨r, detach t i, ?_, ?_, ?_, ?_, ?_, ?_, ?_, ?_⟩
      · rw [hres.2]
        exact w.root_eq
      · rw [detach_tid]
        exact w.tid_eq
      · rw [hres.1, shapeOk_iff]
        intro j rsx hjr
        rw [detach_reportPairs t i (IdT.node i IdF.nil) w.nodup hsub hir] at hjr
        obtain ⟨q, hqmem, hqeq⟩ := List.mem_map.mp hjr
        obtain ⟨hqt, hqdec⟩ := List.mem_filter.mp hqmem
        obtain ⟨j0, rs0⟩ := q
        simp only [decide_eq_true_eq] at hqdec
        obtain ⟨hj0, hrsx⟩ := (Prod.mk.injEq j0 (rs0.filter (fun r => r != i)) j rsx).mp hqeq
        subst hj0
        have hji : ¬ j0 = i := by
          intro hh
          exact hqdec ((hsubids j0).mpr hh)
        obtain ⟨e1, hge1, hrep1⟩ := (shapeOk_iff c.employees t).mp w.shape j0 rs0 hqt
        rw [hget' j0, if_neg hji]
        by_cases hjm : j0 = m
        · rw [if_pos hjm]
          rw [hjm] at hge1
          rw [hge1]
          refine ⟨_, rfl, ?_⟩
          show e1.reports.filter (fun r => r != i) = rsx
          rw [hrep1, hrsx]
        · rw [if_neg hjm]
          refine ⟨e1, hge1, ?_⟩
          have hnotin : ∀ y ∈ rs0, (fun r => r != i) y = true := by
            intro y hy
            simp only [bne_iff_ne, ne_eq, decide_eq_true_eq]
            intro hyi
            subst hyi
            have hpj := reportPairs_child_parent t none j0 rs0 y hqt hy
            have := pairs_fst_unique (parentPairs t none) hndp y (some j0) (some m)
              hpj hipair
            exact hjm (Option.some.inj this)
          rw [hrep1, ← hrsx, List.filter_eq_self.mpr hnotin]
      · rw [hres.1, levelsOk_iff]
        intro j d hjd
        rw [detach_withDepths t i (IdT.node i IdF.nil) w.nodup hsub hir 0] at hjd
        obtain ⟨hmem, hdec⟩ := List.mem_filter.mp hjd
        simp only [decide_eq_true_eq] at hdec
        have hji : ¬ j = i := by
          intro hh
          exact hdec ((hsubids j).mpr hh)
        obtain ⟨e1, hge1, hlvl⟩ := (levelsOk_iff c.employees t 0).mp w.levels j d hmem
        rw [hget' j, if_neg hji]
        by_cases hjm : j = m
        · rw [if_pos hjm]
          rw [hjm] at hge1
          rw [hge1]
          exact ⟨_, rfl, hlvl⟩
        · rw [if_neg hjm]
          exact ⟨e1, hge1, hlvl⟩
      · rw [hres.1, mgrsOk_iff]
        intro j q hjq
        rw [detach_parentPairs t i (IdT.node i IdF.nil) w.nodup hsub hir none] at hjq
        obtain ⟨hmem, hdec⟩ := List.mem_filter.mp hjq
        simp only [decide_eq_true_eq] at hdec
        have hji : ¬ j = i := by
          intro hh
          exact hdec ((hsubids j).mpr hh)
        obtain ⟨e1, hge1, hmgr1⟩ := (mgrsOk_iff c.employees t none).mp w.mgrs j q hmem
        rw [hget' j, if_neg hji]
        by_cases hjm : j = m
        · rw [if_pos hjm]
          rw [hjm] at hge1
          rw [hge1]
          exact ⟨_, rfl, hmgr1⟩
        · rw [if_neg hjm]
          exact ⟨e1, hge1, hmgr1⟩
      · exact detach_ids_nodup t i (IdT.node i IdF.nil) w.nodup hsub hir
      · rw [hres.1]
        intro x hx
        rw [mem_keys_iff, hget' x] at hx
        by_cases hxi : x = i
        · rw [if_pos hxi] at hx
          simp at hx
        · rw [if_neg hxi] at hx
          have hxt : x ∈ t.ids := by
            apply w.keys_sub
            rw [mem_keys_iff]
            by_cases hxm : x = m
            · rw [if_pos hxm] at hx
              rw [hxm]
              cases hgm : get c.employees m with
              | none => rw [hgm] at hx; simp at hx
              | some y => simp
            · rw [if_neg hxm] at hx
              exact hx
          rw [detach_mem_ids t i (IdT.node i IdF.nil) w.nodup hsub hir x]
          exact ⟨hxt, fun hh => hxi ((hsubids x).mp hh)⟩
      · rw [hres.1]
        intro x hx
        rw [detach_mem_ids t i (IdT.node i IdF.nil) w.nodup hsub hir x] at hx
        obtain ⟨hxt, hxni⟩ := hx
        have hxi : ¬ x = i := fun hh => hxni ((hsubids x).mpr hh)
        have h1 := w.ids_sub hxt
        rw [mem_keys_iff] at h1 ⊢
        rw [hget' x, if_neg hxi]
        by_cases hxm : x = m
        · rw [if_pos hxm]
          rw [hxm] at h1
          cases hgm : get c.employees m with
          | none => rw [hgm] at h1; simp at h1
          | some y => simp [hgm]
        · rw [if_neg hxm]
          exact h1


/-- Adding a member with a fresh id preserves well-formedness. -/
theorem addEmployee_wf (c : OrgChart) (h : WF c) (newId : Nat)
    (n ti : String) (mA : Option Nat) (l dv dp em : String)
    (hfresh : (get c.employees newId).isNone = true) :
    WF (addEmployee c newId n ti mA l dv dp em).1 := by
  cases hcr : c.root with
  | none =>
    have hres : (addEmployee c newId n ti mA l dv dp em).1 = c := by
      simp only [addEmployee, hcr]
    rw [hres]
    exact h
  | some r0 =>
    rcases h with ⟨hroot, hemp⟩ | ⟨r, t, w⟩
    · rw [hroot] at hcr
      simp at hcr
    have hr0 : r0 = r := by
      rw [w.root_eq] at hcr
      exact (Option.some.inj hcr).symm
    subst hr0
    obtain ⟨K, hKdef, hKt⟩ : ∃ mgrKey, (match mA with
        | some m => if (get c.employees m).isSome then m else r0
        | none => r0) = mgrKey ∧ mgrKey ∈ t.ids := by
      cases mA with
      | none => exact ⟨r0, rfl, by rw [← w.tid_eq]; exact IdT.mem_ids_self t⟩
      | some m0 =>
        by_cases hm0 : (get c.employees m0).isSome = true
        · refine ⟨m0, ?_, ?_⟩
          · show (if (get c.employees m0).isSome = true then m0 else r0) = m0
            rw [if_pos hm0]
          · exact w.keys_sub ((mem_keys_iff _ _).mpr hm0)
        · refine ⟨r0, ?_, ?_⟩
          · show (if (get c.employees m0).isSome = true then m0 else r0) = r0
            rw [if_neg hm0]
          · rw [← w.tid_eq]
            exact IdT.mem_ids_self t
    obtain ⟨mgrE, hgK⟩ := Option.isSome_iff_exists.mp
      (shapeOk_get_isSome c.employees t w.shape K hKt)
    have hgnew : get c.employees newId = none := by
      cases hgn : get c.employees newId with
      | none => rfl
      | some y => rw [hgn] at hfresh; simp at hfresh
    have hnid : newId ∉ t.ids := by
      intro hc
      have h1 := w.ids_sub hc
      rw [mem_keys_iff, hgnew] at h1
      simp at h1
    have hKnew : ¬ K = newId := by
      intro hh
      rw [hh, hgnew] at hgK
      simp at hgK
    have hnewK : ¬ newId = K := fun hh => hKnew hh.symm
    have hst1 : ∀ j, get (addReportTo c.employees K newId) j
        = if j = K then some { mgrE with reports := mgrE.reports ++ [newId] }
          else get c.employees j := by
      intro j
      simp only [addReportTo, hgK]
      rw [get_modify]
      by_cases hjK : j = K
      · rw [if_pos hjK, if_pos hjK, get_modify, if_neg hKnew, hgK]
        rfl
      · rw [if_neg hjK, if_neg hjK, get_modify]
        by_cases hjn : j = newId
        · rw [if_pos hjn, hjn, hgnew]
          rfl
        · rw [if_neg hjn]
    have hres : (addEmployee c newId n ti mA l dv dp em).1.employees
          = put (addReportTo c.employees K newId) newId { name := n, title := ti, lob := l, division := dv, dept := dp, email := em, manager := some K, reports := [], level := mgrE.level + 1 }
        ∧ (addEmployee c newId n ti mA l dv dp em).1.root = c.root := by
      constructor
      · simp only [addEmployee, hcr, hKdef, hgK,
          show (pushState c).employees = c.employees from rfl]
      · simp only [addEmployee, hcr, hKdef, hgK]
        show c.root = some r0
        exact hcr
    have hget' : ∀ j, get (addEmployee c newId n ti mA l dv dp em).1.employees j
        = if j = newId then some { name := n, title := ti, lob := l, division := dv, dept := dp, email := em, manager := some K, reports := [], level := mgrE.level + 1 }
          else if j = K then some { mgrE with reports := mgrE.reports ++ [newId] }
          else get c.employees j := by
      intro j
      rw [hres.1, get_put]
      by_cases hjn : j = newId
      · rw [if_pos hjn, if_pos hjn]
      · rw [if_neg hjn, if_neg hjn, hst1 j]
    obtain ⟨db, hdb⟩ := mem_ids_withDepths t 0 K hKt
    have hndp : ((parentPairs t none).map Prod.fst).Nodup := by
      rw [parentPairs_map_fst]
      exact w.nodup
    have hndr : ((reportPairs t).map Prod.fst).Nodup := by
      rw [reportPairs_map_fst]
      exact w.nodup
    have hmgrElvl : mgrE.level = db := by
      obtain ⟨e1, hge1, hlvl⟩ := (levelsOk_iff c.employees t 0).mp w.levels K db hdb
      have he1 : e1 = mgrE := Option.some.inj (hge1.symm.trans hgK)
      rw [he1] at hlvl
      exact hlvl
    have hdisjleaf : ∀ x ∈ (IdT.node newId IdF.nil).ids, x ∉ t.ids := by
      intro x hx
      simp [IdT.ids, IdF.ids] at hx
      rw [hx]
      exact hnid
    refine Or.inr ⟨r0, graft t K (IdT.node newId IdF.nil), ?_, ?_, ?_, ?_, ?_, ?_, ?_, ?_⟩
    · rw [hres.2]
      exact w.root_eq
    · rw [graft_tid]
      exact w.tid_eq
    · rw [shapeOk_iff]
      intro j rsx hjr
      rw [graft_reportPairs t K (IdT.node newId IdF.nil) w.nodup hKt j rsx] at hjr
      rcases hjr with ⟨hjK, rs0, hrs0mem, hrsx⟩ | ⟨hmem, hjK⟩ | hmem
      · subst hjK
        obtain ⟨e1, hge1, hrep1⟩ := (shapeOk_iff c.employees t).mp w.shape j rs0 hrs0mem
        have he1 : e1 = mgrE := Option.some.inj (hge1.symm.trans hgK)
        rw [hget' j, if_neg hKnew, if_pos rfl]
        refine ⟨_, rfl, ?_⟩
        show mgrE.reports ++ [newId] = rsx
        rw [hrsx, ← hrep1, he1]
        rfl
      · have hjt : j ∈ t.ids := by
          rw [← reportPairs_map_fst t]
          exact List.mem_map.mpr ⟨(j, rsx), hmem, rfl⟩
        have hjn : ¬ j = newId := fun hh => hnid (hh ▸ hjt)
        rw [hget' j, if_neg hjn, if_neg hjK]
        exact (shapeOk_iff c.employees t).mp w.shape j rsx hmem
      · simp only [reportPairs, reportPairsF, IdF.kidIds, List.mem_cons,
          List.not_mem_nil, or_false] at hmem
        obtain ⟨hj, hrsx⟩ := (Prod.mk.injEq j rsx newId ([] : List Nat)).mp hmem
        subst hj
        subst hrsx
        rw [hget' j, if_pos rfl]
        exact ⟨_, rfl, rfl⟩
    · rw [levelsOk_iff]
      intro j d hjd
      rw [graft_withDepths t K (IdT.node newId IdF.nil) w.nodup hKt 0 db hdb (j, d)] at hjd
      rcases hjd with hmem | hmem
      · have hjt : j ∈ t.ids := by
          rw [← withDepths_map_fst t 0]
          exact List.mem_map.mpr ⟨(j, d), hmem, rfl⟩
        have hjn : ¬ j = newId := fun hh => hnid (hh ▸ hjt)
        obtain ⟨e1, hge1, hlvl⟩ := (levelsOk_iff c.employees t 0).mp w.levels j d hmem
        rw [hget' j, if_neg hjn]
        by_cases hjK : j = K
        · rw [if_pos hjK]
          rw [hjK] at hge1
          have he1 : e1 = mgrE := Option.some.inj (hge1.symm.trans hgK)
          refine ⟨_, rfl, ?_⟩
          show mgrE.level = d
          rw [← he1]
          exact hlvl
        · rw [if_neg hjK]
          exact ⟨e1, hge1, hlvl⟩
      · simp only [withDepths, withDepthsF, List.mem_cons, List.not_mem_nil,
          or_false] at hmem
        obtain ⟨hj, hd⟩ := (Prod.mk.injEq j d newId (db + 1)).mp hmem
        subst hj
        subst hd
        rw [hget' j, if_pos rfl]
        refine ⟨_, rfl, ?_⟩
        show mgrE.level + 1 = db + 1
        rw [hmgrElvl]
    · rw [mgrsOk_iff]
      intro j q hjq
      rw [graft_parentPairs t K (IdT.node newId IdF.nil) w.nodup hKt none (j, q)] at hjq
      rcases hjq with hmem | hmem
      · have hjt : j ∈ t.ids := by
          rw [← parentPairs_map_fst t none]
          exact List.mem_map.mpr ⟨(j, q), hmem, rfl⟩
        have hjn : ¬ j = newId := fun hh => hnid (hh ▸ hjt)
        obtain ⟨e1, hge1, hmgr1⟩ := (mgrsOk_iff c.employees t none).mp w.mgrs j q hmem
        rw [hget' j, if_neg hjn]
        by_cases hjK : j = K
        · rw [if_pos hjK]
          rw [hjK] at hge1
          have he1 : e1 = mgrE := Option.some.inj (hge1.symm.trans hgK)
          refine ⟨_, rfl, ?_⟩
          show mgrE.manager = q
          rw [← he1]
          exact hmgr1
        · rw [if_neg hjK]
          exact ⟨e1, hge1, hmgr1⟩
      · simp only [parentPairs, parentPairsF, List.mem_cons, List.not_mem_nil,
          or_false] at hmem
        obtain ⟨hj, hq⟩ := (Prod.mk.injEq j q newId (some K)).mp hmem
        subst hj
        subst hq
        rw [hget' j, if_pos rfl]
        exact ⟨_, rfl, rfl⟩
    · exact graft_nodup t K (IdT.node newId IdF.nil) w.nodup
        (by simp [IdT.ids, IdF.ids]) hdisjleaf
    · intro x hx
      rw [mem_keys_iff, hget' x] at hx
      rw [graft_mem_ids t K (IdT.node newId IdF.nil) w.nodup hKt x]
      by_cases hxn : x = newId
      · right
        simp [IdT.ids, IdF.ids, hxn]
      · rw [if_neg hxn] at hx
        left
        apply w.keys_sub
        rw [mem_keys_iff]
        by_cases hxK : x = K
        · rw [hxK, hgK]
          rfl
        · rw [if_neg hxK] at hx
          exact hx
    · intro x hx
      rw [graft_mem_ids t K (IdT.node newId IdF.nil) w.nodup hKt x] at hx
      rw [mem_keys_iff, hget' x]
      rcases hx with hx | hx
      · have hxn : ¬ x = newId := fun hh => hnid (hh ▸ hx)
        rw [if_neg hxn]
        by_cases hxK : x = K
        · rw [if_pos hxK]
          rfl
        · rw [if_neg hxK]
          rw [← mem_keys_iff]
          exact w.ids_sub hx
      · simp [IdT.ids, IdF.ids] at hx
        rw [if_pos hx]
        rfl


/-- `moveSubtree` preserves well-formedness: failures leave the chart
unchanged, and a successful move re-hangs the subtree with its managers,
reports and recomputed levels all consistent. -/
theorem moveSubtree_wf (c : OrgChart) (h : WF c) (A B : Nat) :
    WF (moveSubtree c A B).1 := by
  cases hgA : get c.employees A with
  | none =>
    have hres : (moveSubtree c A B).1 = c := by
      simp only [moveSubtree, hgA]
    rw [hres]
    exact h
  | some e0 =>
    cases hgB : get c.employees B with
    | none =>
      have hres : (moveSubtree c A B).1 = c := by
        simp only [moveSubtree, hgA, hgB]
      rw [hres]
      exact h
    | some bE =>
      rcases h with ⟨hroot, hemp⟩ | ⟨r, t, w⟩
      · rw [hemp] at hgA
        simp [get] at hgA
      by_cases hrA : c.root = some A
      · have hres : (moveSubtree c A B).1 = c := by
          simp only [moveSubtree, hgA, hgB]
          rw [if_pos hrA]
        rw [hres]
        exact Or.inr ⟨r, t, w⟩
      · by_cases hcond : A = B ∨ isDescendant c.employees (c.employees.length + 1) A B = true
        · have hcond1 :
              (decide (A = B) || isDescendant c.employees (c.employees.length + 1) A B)
                = true := by
            simp only [Bool.or_eq_true, decide_eq_true_eq]
            exact hcond
          have hres : (moveSubtree c A B).1 = c := by
            simp only [moveSubtree, hgA, hgB]
            rw [if_neg hrA, if_pos hcond1]
          rw [hres]
          exact Or.inr ⟨r, t, w⟩
        · -- success case
          have hAB : ¬ A = B := fun hh => hcond (Or.inl hh)
          have hBA : ¬ B = A := fun hh => hAB hh.symm
          have hcond2 :
              ¬ ((decide (A = B) || isDescendant c.employees (c.employees.length + 1) A B)
                = true) := by
            simp only [Bool.or_eq_true, decide_eq_true_eq]
            rintro (hh | hh)
            · exact hAB hh
            · exact hcond (Or.inr hh)
          have hAt : A ∈ t.ids := w.keys_sub ((mem_keys_iff _ _).mpr (by simp [hgA]))
          have hBt : B ∈ t.ids := w.keys_sub ((mem_keys_iff _ _).mpr (by simp [hgB]))
          obtain ⟨sub, hsub⟩ := Option.isSome_iff_exists.mp
            (subtreeAt_isSome_of_mem t A hAt)
          have hsubtid : sub.tid = A := subtreeAt_tid t A sub hsub
          have hAsub : A ∈ sub.ids := hsubtid ▸ IdT.mem_ids_self sub
          have hshs : shapeOk c.employees sub = true :=
            subtreeAt_shapeOk c.employees t A sub w.shape hsub
          have hndsub : sub.ids.Nodup := subtreeAt_nodup t A sub w.nodup hsub
          have hfuel : sub.size ≤ c.employees.length + 1 := by
            have h1 : sub.ids.length ≤ t.ids.length :=
              nodup_subset_length sub.ids t.ids hndsub (subtreeAt_ids_subset t A sub hsub)
            have h2 := wfAt_size_le c r t w
            rw [IdT.size_eq_length] at h2
            rw [IdT.size_eq_length]
            omega
          have hBn : B ∉ sub.ids := by
            intro hBs
            rw [IdT.ids_eq sub, hsubtid, List.mem_cons] at hBs
            rcases hBs with hh | hh
            · exact hBA hh
            · have hd := (isDescendant_iff c.employees sub B hshs
                (c.employees.length + 1) hfuel)
              rw [hsubtid] at hd
              exact hcond (Or.inr (hd.mpr hh))
          have htidA : ¬ A = t.tid := by
            intro hh
            apply hrA
            rw [w.root_eq, ← w.tid_eq, hh]
          obtain ⟨dA0, hdA0, hsubset0⟩ := subtreeAt_withDepths t A sub hsub 0
          obtain ⟨e1, hge1, hcases⟩ := mgrsOk_depth c.employees t none w.mgrs 0 A dA0 hdA0
          have he1 : e1 = e0 := Option.some.inj (hge1.symm.trans hgA)
          rw [he1] at hcases
          rcases hcases with ⟨hAt1, _, _⟩ | ⟨m, hman, hdge, hmpair⟩
          · exact absurd hAt1 htidA
          have hndw : ((withDepths t 0).map Prod.fst).Nodup := by
            rw [withDepths_map_fst]
            exact w.nodup
          have hndp : ((parentPairs t none).map Prod.fst).Nodup := by
            rw [parentPairs_map_fst]
            exact w.nodup
          have hndr : ((reportPairs t).map Prod.fst).Nodup := by
            rw [reportPairs_map_fst]
            exact w.nodup
          have hmnot : m ∉ sub.ids := by
            intro hmS
            obtain ⟨dm, hdm⟩ := mem_ids_withDepths sub dA0 m hmS
            have h1 : dA0 ≤ dm := withDepths_depth_ge sub dA0 m dm hdm
            have h2 : (m, dm) ∈ withDepths t 0 := hsubset0 (m, dm) hdm
            have h3 : dm = dA0 - 1 :=
              pairs_fst_unique (withDepths t 0) hndw m dm (dA0 - 1) h2 hmpair
            omega
          have hmA : ¬ A = m := fun hh => hmnot (by rw [← hh]; exact hAsub)
          have hipast : (A, some m) ∈ parentPairs t none := by
            obtain ⟨q, hqm, hq⟩ := wfAt_mem_pair c r t w A e0 hgA
            rw [hman] at hq
            rw [← hq] at hqm
            exact hqm
          have hAfilter : ∀ (j : Nat) (rs0 : List Nat), (j, rs0) ∈ reportPairs t →
              ¬ j = m → rs0.filter (fun r => r != A) = rs0 := by
            intro j rs0 hmem hjm
            rw [List.filter_eq_self]
            intro y hy
            simp only [bne_iff_ne, ne_eq, decide_eq_true_eq]
            intro hyA
            subst hyA
            have hpj := reportPairs_child_parent t none j rs0 y hmem hy
            have h2 := pairs_fst_unique (parentPairs t none) hndp y (some j) (some m)
              hpj hipast
            exact hjm (Option.some.inj h2)
          obtain ⟨rsB, hrsBpair, hrep1⟩ :
              ∃ rsB, (B, rsB) ∈ reportPairs t ∧ bE.reports = rsB := by
            have h1 : B ∈ (reportPairs t).map Prod.fst := by
              rw [reportPairs_map_fst]
              exact hBt
            obtain ⟨⟨B1, rsB⟩, hmem, hfst⟩ := List.mem_map.mp h1
            have hB1 : B1 = B := hfst
            subst hB1
            obtain ⟨e2, hge2, hrep2⟩ := (shapeOk_iff c.employees t).mp w.shape B1 rsB hmem
            have he2 : e2 = bE := Option.some.inj (hge2.symm.trans hgB)
            subst he2
            exact ⟨rsB, hmem, hrep2⟩
          obtain ⟨nmE, hget1B, hnmlvl, hnmmgr, hnmrep⟩ :
              ∃ nmE, get (modify c.employees m
                  (fun e => { e with reports := e.reports.filter (fun r => r != A) })) B
                = some nmE ∧ nmE.level = bE.level ∧ nmE.manager = bE.manager ∧
                  nmE.reports = bE.reports.filter (fun r => r != A) := by
            rw [get_modify]
            by_cases hBm : B = m
            · rw [if_pos hBm, ← hBm, hgB]
              exact ⟨_, rfl, rfl, rfl, rfl⟩
            · rw [if_neg hBm, hgB]
              refine ⟨bE, rfl, rfl, rfl, ?_⟩
              rw [hrep1, hAfilter B rsB hrsBpair hBm]
          have hgetStAB : get (modify (modify c.employees m
                (fun e => { e with reports := e.reports.filter (fun r => r != A) })) A
                (fun e => { e with manager := some B, level := nmE.level + 1 })) B
              = some nmE := by
            rw [get_modify, if_neg hBA]
            exact hget1B
          have hget2B : get (modify (modify (modify c.employees m
                (fun e => { e with reports := e.reports.filter (fun r => r != A) })) A
                (fun e => { e with manager := some B, level := nmE.level + 1 })) B
                (fun e => { e with reports := e.reports ++ [A] })) B
              = some { nmE with reports := nmE.reports ++ [A] } := by
            rw [get_modify, if_pos rfl, hgetStAB]
            rfl
          have hkey : (moveSubtree c A B).1.employees
                = updateLevels (modify (modify (modify c.employees m
                    (fun e => { e with reports := e.reports.filter (fun r => r != A) })) A
                    (fun e => { e with manager := some B, level := nmE.level + 1 })) B
                    (fun e => { e with reports := e.reports ++ [A] }))
                  (c.employees.length + 1) A (nmE.level + 1)
              ∧ (moveSubtree c A B).1.root = c.root := by
            constructor
            · simp only [moveSubtree, hgA, hgB]
              rw [if_neg hrA, if_neg hcond2]
              simp only [show (pushState c).employees = c.employees from rfl, hman,
                hget1B, hget2B]
            · simp only [moveSubtree, hgA, hgB]
              rw [if_neg hrA, if_neg hcond2]
              rfl
          have hg2A : get (modify (modify (modify c.employees m
                (fun e => { e with reports := e.reports.filter (fun r => r != A) })) A
                (fun e => { e with manager := some B, level := nmE.level + 1 })) B
                (fun e => { e with reports := e.reports ++ [A] })) A
              = some { e0 with manager := some B, level := nmE.level + 1 } := by
            rw [get_modify, if_neg hAB, get_modify, if_pos rfl, get_modify, if_neg hmA, hgA]
            rfl
          have hgetsub : ∀ j, j ∈ sub.ids → j ≠ A →
              get (modify (modify (modify c.employees m
                (fun e => { e with reports := e.reports.filter (fun r => r != A) })) A
                (fun e => { e with manager := some B, level := nmE.level + 1 })) B
                (fun e => { e with reports := e.reports ++ [A] })) j
              = get c.employees j := by
            intro j hj hjA
            rw [get_modify, if_neg (fun hh : j = B => hBn (hh ▸ hj)),
              get_modify, if_neg hjA,
              get_modify, if_neg (fun hh : j = m => hmnot (hh ▸ hj))]
          have hgetout : ∀ j, j ∉ sub.ids → j ≠ B → j ≠ m →
              get (modify (modify (modify c.employees m
                (fun e => { e with reports := e.reports.filter (fun r => r != A) })) A
                (fun e => { e with manager := some B, level := nmE.level + 1 })) B
                (fun e => { e with reports := e.reports ++ [A] })) j
              = get c.employees j := by
            intro j hj hjB hjm
            rw [get_modify, if_neg hjB, get_modify,
              if_neg (fun hh : j = A => hj (hh ▸ hAsub)), get_modify, if_neg hjm]
          have hgetm : m ∉ sub.ids → get (modify (modify (modify c.employees m
                (fun e => { e with reports := e.reports.filter (fun r => r != A) })) A
                (fun e => { e with manager := some B, level := nmE.level + 1 })) B
                (fun e => { e with reports := e.reports ++ [A] })) m
              = if m = B then some { nmE with reports := nmE.reports ++ [A] }
                else (get c.employees m).map
                  (fun e => { e with reports := e.reports.filter (fun r => r != A) }) := by
            intro _
            by_cases hmB : m = B
            · rw [if_pos hmB]
              rw [get_modify, if_pos hmB, hgetStAB]
              rfl
            · rw [if_neg hmB]
              rw [get_modify, if_neg hmB, get_modify,
                if_neg (fun hh : m = A => hmA hh.symm), get_modify, if_pos rfl]
          have hsh2 : shapeOk (modify (modify (modify c.employees m
                (fun e => { e with reports := e.reports.filter (fun r => r != A) })) A
                (fun e => { e with manager := some B, level := nmE.level + 1 })) B
                (fun e => { e with reports := e.reports ++ [A] })) sub = true := by
            rw [shapeOk_congr c.employees _ sub ?hpw]
            · exact hshs
            case hpw =>
              intro j hj
              by_cases hjA : j = A
              · rw [hjA, hg2A, hgA]
                rfl
              · rw [hgetsub j hj hjA]
          have hul := updateLevels_get (modify (modify (modify c.employees m
              (fun e => { e with reports := e.reports.filter (fun r => r != A) })) A
              (fun e => { e with manager := some B, level := nmE.level + 1 })) B
              (fun e => { e with reports := e.reports ++ [A] })) sub hsh2 hndsub
            (c.employees.length + 1) hfuel (nmE.level + 1)
          rw [hsubtid] at hul
          -- facts about the new spine
          have htdmem := detach_mem_ids t A sub w.nodup hsub htidA
          have htdnd := detach_ids_nodup t A sub w.nodup hsub htidA
          have hBtd : B ∈ (detach t A).ids := (htdmem B).mpr ⟨hBt, hBn⟩
          have hdisj2 : ∀ x ∈ sub.ids, x ∉ (detach t A).ids :=
            fun x hx hc => ((htdmem x).mp hc).2 hx
          obtain ⟨db, hdbt⟩ := mem_ids_withDepths t 0 B hBt
          have hdbtd : (B, db) ∈ withDepths (detach t A) 0 := by
            rw [detach_withDepths t A sub w.nodup hsub htidA 0]
            exact List.mem_filter.mpr ⟨hdbt, by simpa using hBn⟩
          have hbElvl : bE.level = db := by
            obtain ⟨e2, hge2, hlvl2⟩ := (levelsOk_iff c.employees t 0).mp w.levels B db hdbt
            have he2 : e2 = bE := Option.some.inj (hge2.symm.trans hgB)
            rw [he2] at hlvl2
            exact hlvl2
          right
          refine ⟨r, graft (detach t A) B sub, ?_, ?_, ?_, ?_, ?_, ?_, ?_, ?_⟩
          · rw [hkey.2]
            exact w.root_eq
          · rw [graft_tid, detach_tid]
            exact w.tid_eq
          · rw [hkey.1, shapeOk_iff]
            intro j rsx hjr
            rw [graft_reportPairs (detach t A) B sub htdnd hBtd j rsx] at hjr
            rcases hjr with ⟨hjB, rs0, hrs0mem, hrsx⟩ | ⟨hmem, hjB⟩ | hmem
            · rw [detach_reportPairs t A sub w.nodup hsub htidA] at hrs0mem
              obtain ⟨q, hqmem, hqeq⟩ := List.mem_map.mp hrs0mem
              obtain ⟨hqt, hqdec⟩ := List.mem_filter.mp hqmem
              obtain ⟨q1, q2⟩ := q
              obtain ⟨hq1, hq2⟩ :=
                (Prod.mk.injEq q1 (q2.filter (fun r => r != A)) B rs0).mp hqeq
              rw [hq1] at hqt
              have hq2B : q2 = rsB :=
                pairs_fst_unique (reportPairs t) hndr B q2 rsB hqt hrsBpair
              rw [hjB, hul.2 B hBn, hget2B]
              refine ⟨_, rfl, ?_⟩
              show nmE.reports ++ [A] = rsx
              rw [hrsx, ← hq2, hq2B, hnmrep, hrep1, hsubtid]
            · rw [detach_reportPairs t A sub w.nodup hsub htidA] at hmem
              obtain ⟨q, hqmem, hqeq⟩ := List.mem_map.mp hmem
              obtain ⟨hqt, hqdec⟩ := List.mem_filter.mp hqmem
              obtain ⟨q1, q2⟩ := q
              obtain ⟨hq1, hq2⟩ :=
                (Prod.mk.injEq q1 (q2.filter (fun r => r != A)) j rsx).mp hqeq
              simp only [decide_eq_true_eq] at hqdec
              rw [hq1] at hqt hqdec
              rw [hul.2 j hqdec]
              obtain ⟨e2, hge2, hrep2⟩ := (shapeOk_iff c.employees t).mp w.shape j q2 hqt
              by_cases hjm : j = m
              · rw [hjm, hgetm hmnot, if_neg (fun hh : m = B => hjB (hjm.trans hh))]
                rw [hjm] at hge2
                rw [hge2]
                refine ⟨_, rfl, ?_⟩
                show e2.reports.filter (fun r => r != A) = rsx
                rw [hrep2, hq2]
              · rw [hgetout j hqdec hjB hjm]
                refine ⟨e2, hge2, ?_⟩
                rw [hrep2, ← hq2, hAfilter j q2 hqt hjm]
            · have hjsub : j ∈ sub.ids := by
                rw [← reportPairs_map_fst sub]
                exact List.mem_map.mpr ⟨(j, rsx), hmem, rfl⟩
              obtain ⟨ρ, hρ⟩ := mem_ids_withDepths sub 0 j hjsub
              rw [hul.1 j ρ hρ]
              have hmemt := subtreeAt_reportPairs t A sub hsub (j, rsx) hmem
              obtain ⟨e2, hge2, hrep2⟩ := (shapeOk_iff c.employees t).mp w.shape j rsx hmemt
              by_cases hjA : j = A
              · rw [hjA, hg2A]
                refine ⟨_, rfl, ?_⟩
                show e0.reports = rsx
                rw [hjA] at hge2
                have he2 : e2 = e0 := Option.some.inj (hge2.symm.trans hgA)
                rw [← he2]
                exact hrep2
              · rw [hgetsub j hjsub hjA, hge2]
                exact ⟨_, rfl, hrep2⟩
          · rw [hkey.1, levelsOk_iff]
            intro j d hjd
            rw [graft_withDepths (detach t A) B sub htdnd hBtd 0 db hdbtd (j, d)] at hjd
            rcases hjd with hmem | hmem
            · rw [detach_withDepths t A sub w.nodup hsub htidA 0] at hmem
              obtain ⟨hmemt, hdec⟩ := List.mem_filter.mp hmem
              simp only [decide_eq_true_eq] at hdec
              rw [hul.2 j hdec]
              obtain ⟨e2, hge2, hlvl2⟩ := (levelsOk_iff c.employees t 0).mp w.levels j d hmemt
              by_cases hjB : j = B
              · rw [hjB, hget2B]
                refine ⟨_, rfl, ?_⟩
                show nmE.level = d
                rw [hnmlvl]
                rw [hjB] at hge2
                have he2 : e2 = bE := Option.some.inj (hge2.symm.trans hgB)
                rw [← he2]
                exact hlvl2
              · by_cases hjm : j = m
                · rw [hjm, hgetm hmnot, if_neg (fun hh : m = B => hjB (hjm.trans hh))]
                  rw [hjm] at hge2
                  rw [hge2]
                  exact ⟨_, rfl, hlvl2⟩
                · rw [hgetout j hdec hjB hjm, hge2]
                  exact ⟨_, rfl, hlvl2⟩
            · rw [withDepths_add sub (db + 1)] at hmem
              obtain ⟨⟨j1, ρ⟩, hρ, heq⟩ := List.mem_map.mp hmem
              obtain ⟨hj1, hd1⟩ := (Prod.mk.injEq j1 (ρ + (db + 1)) j d).mp heq
              subst hj1
              rw [hul.1 j1 ρ hρ]
              have hjsub : j1 ∈ sub.ids := by
                rw [← withDepths_map_fst sub 0]
                exact List.mem_map.mpr ⟨(j1, ρ), hρ, rfl⟩
              have hlvl : nmE.level + 1 + ρ = d := by
                rw [hnmlvl, hbElvl]
                omega
              by_cases hjA : j1 = A
              · rw [hjA, hg2A]
                exact ⟨_, rfl, hlvl⟩
              · rw [hgetsub j1 hjsub hjA]
                obtain ⟨e2, hge2⟩ := Option.isSome_iff_exists.mp
                  (shapeOk_get_isSome c.employees t w.shape j1
                    (subtreeAt_ids_subset t A sub hsub hjsub))
                rw [hge2]
                exact ⟨_, rfl, hlvl⟩
          · rw [hkey.1, mgrsOk_iff]
            intro j q hjq
            rw [graft_parentPairs (detach t A) B sub htdnd hBtd none (j, q)] at hjq
            rcases hjq with hmem | hmem
            · rw [detach_parentPairs t A sub w.nodup hsub htidA none] at hmem
              obtain ⟨hmemt, hdec⟩ := List.mem_filter.mp hmem
              simp only [decide_eq_true_eq] at hdec
              rw [hul.2 j hdec]
              obtain ⟨e2, hge2, hmgr2⟩ := (mgrsOk_iff c.employees t none).mp w.mgrs j q hmemt
              by_cases hjB : j = B
              · rw [hjB, hget2B]
                refine ⟨_, rfl, ?_⟩
                show nmE.manager = q
                rw [hnmmgr]
                rw [hjB] at hge2
                have he2 : e2 = bE := Option.some.inj (hge2.symm.trans hgB)
                rw [← he2]
                exact hmgr2
              · by_cases hjm : j = m
                · rw [hjm, hgetm hmnot, if_neg (fun hh : m = B => hjB (hjm.trans hh))]
                  rw [hjm] at hge2
                  rw [hge2]
                  exact ⟨_, rfl, hmgr2⟩
                · rw [hgetout j hdec hjB hjm, hge2]
                  exact ⟨_, rfl, hmgr2⟩
            · have hjsub : j ∈ sub.ids := by
                rw [← parentPairs_map_fst sub (some B)]
                exact List.mem_map.mpr ⟨(j, q), hmem, rfl⟩
              obtain ⟨ρ, hρ⟩ := mem_ids_withDepths sub 0 j hjsub
              rw [hul.1 j ρ hρ]
              by_cases hjA : j = A
              · subst hjA
                have hq : q = some B := by
                  have hhead : (sub.tid, some B) ∈ parentPairs sub (some B) :=
                    parentPairs_head sub (some B)
                  rw [hsubtid] at hhead
                  have hndps : ((parentPairs sub (some B)).map Prod.fst).Nodup := by
                    rw [parentPairs_map_fst]
                    exact hndsub
                  exact pairs_fst_unique (parentPairs sub (some B)) hndps j q (some B)
                    hmem hhead
                subst hq
                rw [hg2A]
                exact ⟨_, rfl, rfl⟩
              · have hmemt := subtreeAt_parentPairs t A sub hsub none (some B) (j, q)
                  hmem hjA
                obtain ⟨e2, hge2, hmgr2⟩ :=
                  (mgrsOk_iff c.employees t none).mp w.mgrs j q hmemt
                rw [hgetsub j hjsub hjA, hge2]
                exact ⟨_, rfl, hmgr2⟩
          · exact graft_nodup (detach t A) B sub htdnd hndsub hdisj2
          · rw [hkey.1]
            intro x hx
            rw [graft_mem_ids (detach t A) B sub htdnd hBtd x]
            rw [mem_keys_iff] at hx
            by_cases hxsub : x ∈ sub.ids
            · exact Or.inr hxsub
            · left
              apply (htdmem x).mpr
              refine ⟨?_, hxsub⟩
              apply w.keys_sub
              rw [mem_keys_iff]
              rw [hul.2 x hxsub] at hx
              by_cases hxB : x = B
              · rw [hxB, hgB]
                rfl
              · by_cases hxm : x = m
                · rw [hxm, hgetm hmnot, if_neg (fun hh : m = B => hxB (hxm.trans hh))] at hx
                  rw [hxm]
                  cases hgm : get c.employees m with
                  | none => rw [hgm] at hx; simp at hx
                  | some y => simp
                · rw [hgetout x hxsub hxB hxm] at hx
                  exact hx
          · rw [hkey.1]
            intro x hx
            rw [graft_mem_ids (detach t A) B sub htdnd hBtd x] at hx
            rw [mem_keys_iff]
            by_cases hxsub : x ∈ sub.ids
            · obtain ⟨ρ, hρ⟩ := mem_ids_withDepths sub 0 x hxsub
              rw [hul.1 x ρ hρ]
              by_cases hxA : x = A
              · rw [hxA, hg2A]
                rfl
              · rw [hgetsub x hxsub hxA]
                obtain ⟨e2, hge2⟩ := Option.isSome_iff_exists.mp
                  (shapeOk_get_isSome c.employees t w.shape x
                    (subtreeAt_ids_subset t A sub hsub hxsub))
                rw [hge2]
                rfl
            · rcases hx with hx | hx
              · have hxt : x ∈ t.ids := ((htdmem x).mp hx).1
                rw [hul.2 x hxsub]
                by_cases hxB : x = B
                · rw [hxB, hget2B]
                  rfl
                · by_cases hxm : x = m
                  · rw [hxm, hgetm hmnot, if_neg (fun hh : m = B => hxB (hxm.trans hh))]
                    have h1 := w.ids_sub hxt
                    rw [mem_keys_iff] at h1
                    rw [hxm] at h1
                    cases hgm : get c.employees m with
                    | none => rw [hgm] at h1; simp at h1
                    | some y => simp [hgm]
                  · rw [hgetout x hxsub hxB hxm]
                    rw [← mem_keys_iff]
                    exact w.ids_sub hxt
              · exact absurd hx hxsub


/-- One allowed mutation preserves well-formedness. -/
theorem applyMut_wf (c : OrgChart) (h : WF c) (mu : Mut) (hok : mutOk c mu = true) :
    WF (applyMut c mu) := by
  cases mu with
  | root i n ti l dv dp em =>
    have hemp : c.employees = [] := by
      rw [mutOk] at hok
      cases hst : c.employees with
      | nil => rfl
      | cons p rest =>
        rw [hst] at hok
        simp [List.isEmpty] at hok
    exact setRoot_wf c hemp i n ti l dv dp em
  | add i n ti mA l dv dp em =>
    have hfresh : (get c.employees i).isNone = true := by
      rw [mutOk] at hok
      exact hok
    exact addEmployee_wf c h i n ti mA l dv dp em hfresh
  | edit i p => exact editEmployee_wf c h i p
  | remove i rs => exact removeEmployee_wf c h i rs hok
  | move i nm => exact moveSubtree_wf c h i nm

/-- An allowed mutation sequence preserves well-formedness. -/
theorem applyMuts_wf : ∀ (ms : List Mut) (c : OrgChart), WF c → seqOk c ms = true →
    WF (applyMuts c ms)
  | [], c, h, _ => h
  | mu :: ms, c, h, hok => by
    rw [seqOk, Bool.and_eq_true] at hok
    exact applyMuts_wf ms (applyMut c mu) (applyMut_wf c h mu hok.1) hok.2

/-- Counterexample for C1 as stated: removing manager `1` of the four-member
sample chart without a reassignment target orphans its two reports
(`manager = null`), so invariant 1 — exactly one member with a null
manager — fails afterwards. -/
theorem invariants_counterexample : ¬ inv1 (removeEmployee chartM 1 none).1 := by
  intro h
  rcases h with h | ⟨r, e, hroot, hre, hmgr, huniq⟩
  · exact absurd h (by decide)
  · have hr0 : r = 0 := by
      have h1 : (removeEmployee chartM 1 none).1.root = some 0 := by decide
      exact (Option.some.inj (h1.symm.trans hroot)).symm
    have hg2 : get (removeEmployee chartM 1 none).1.employees 2
        = some ⟨"r0", "Eng", "", "", "", "", none, [], 2⟩ := by decide
    have h2 := huniq 2 ⟨"r0", "Eng", "", "", "", "", none, [], 2⟩ hg2 rfl
    rw [hr0] at h2
    exact absurd h2 (by decide)

/-- C1 (amended): invariants 1-4 hold after any sequence of the five mutation
operations in which `setRoot` is only used on an empty store, every
`addMember` id is fresh, and every `removeMember` call targets a member
without direct reports; starting from any well-formed chart. (Removing a
member that still has direct reports can break invariant 1, see the
counterexample.) -/
theorem invariants_preserved (c : OrgChart) (h : WF c) (ms : List Mut)
    (hok : seqOk c ms = true) :
    inv1 (applyMuts c ms) ∧ inv2 (applyMuts c ms) ∧ inv3 (applyMuts c ms) ∧
      inv4 (applyMuts c ms) :=
  wf_invs (applyMuts c ms) (applyMuts_wf ms c h hok)

/-- Witness for C1 (amended): an end-to-end sequence using all five
operations — root creation, two additions, an edit, a subtree move, and the
removal of a member whose reports were moved away first. -/
theorem invariants_preserved_witness :
    inv1 (applyMuts OrgChart.empty
      [.root 0 "R" "CEO" "" "" "" "", .add 1 "M" "Mgr" none "" "" "" "",
        .add 2 "E" "Eng" (some 1) "" "" "" "",
        .edit 2 ⟨some "Eve", none, none, none, none, none⟩,
        .move 2 0, .remove 1 none]) ∧
    inv2 (applyMuts OrgChart.empty
      [.root 0 "R" "CEO" "" "" "" "", .add 1 "M" "Mgr" none "" "" "" "",
        .add 2 "E" "Eng" (some 1) "" "" "" "",
        .edit 2 ⟨some "Eve", none, none, none, none, none⟩,
        .move 2 0, .remove 1 none]) ∧
    inv3 (applyMuts OrgChart.empty
      [.root 0 "R" "CEO" "" "" "" "", .add 1 "M" "Mgr" none "" "" "" "",
        .add 2 "E" "Eng" (some 1) "" "" "" "",
        .edit 2 ⟨some "Eve", none, none, none, none, none⟩,
        .move 2 0, .remove 1 none]) ∧
    inv4 (applyMuts OrgChart.empty
      [.root 0 "R" "CEO" "" "" "" "", .add 1 "M" "Mgr" none "" "" "" "",
        .add 2 "E" "Eng" (some 1) "" "" "" "",
        .edit 2 ⟨some "Eve", none, none, none, none, none⟩,
        .move 2 0, .remove 1 none]) :=
  invariants_preserved OrgChart.empty (Or.inl ⟨rfl, rfl⟩)
    [.root 0 "R" "CEO" "" "" "" "", .add 1 "M" "Mgr" none "" "" "" "",
      .add 2 "E" "Eng" (some 1) "" "" "" "",
      .edit 2 ⟨some "Eve", none, none, none, none, none⟩,
      .move 2 0, .remove 1 none] (by decide)

end Org
